import Mathlib

/-!
Verification development for the core matching engine of the hyperscan
multi-pattern matching library.  The C++ sources are shallowly embedded as
executable Lean definitions; theorems below settle the specified properties
of the literal representation (`ue2_literal`, `hwlmLiteral`), the FDR/Teddy
literal matchers, the Rose delayed/anchored literal replay machinery, and the
NFA-graph reduction and width-analysis passes.
-/

namespace Hyperscan

/-! ## Literal representation: `ue2_literal` (util/ue2string)

The class definition lives in the header (a character string `s` plus a
parallel per-character `nocase` vector).  `clear` and `swap` are defined
inline in the header; the remaining member function bodies live in
`ue2string.cpp`, which is not part of the source slice, so they are modelled
from the header's interface and documentation. -/

/-- Upper-casing of a character, standing in for the C `mytoupper`. -/
def ue2_toupper (c : Char) : Char := c.toUpper

/-- Build-time literal string: character data plus a parallel case-mask. -/
structure ue2_literal where
  s : List Char
  nocase : List Bool
deriving DecidableEq, Repr

namespace ue2_literal

/-- The empty literal (default constructor from the header). -/
def mk_empty : ue2_literal := ⟨[], []⟩

/-- Modelled from the spec: the constructor body in `ue2string.cpp` is not in
the source slice.  `ue2_literal(s, nc)` stores the string (case-quashed when
`nc` is set) together with a `nocase` vector of the same length, one flag per
character. -/
def mk_string (str : List Char) (nc : Bool) : ue2_literal :=
  ⟨if nc then str.map ue2_toupper else str, List.replicate str.length nc⟩

/-- Modelled from the spec: single-character constructor body is not in the
source slice; it behaves as the string constructor on a one-char string. -/
def mk_char (c : Char) (nc : Bool) : ue2_literal := mk_string [c] nc

/-- Modelled from the spec: `substr(pos, n)` body is not in the source slice;
as for `std::string::substr` it takes up to `n` characters starting at `pos`,
slicing the `nocase` vector in parallel. -/
def substr (l : ue2_literal) (pos n : ℕ) : ue2_literal :=
  ⟨(l.s.drop pos).take n, (l.nocase.drop pos).take n⟩

/-- Modelled from the spec: `erase(pos, n)` body is not in the source slice;
it removes up to `n` characters starting at `pos` from both vectors. -/
def erase (l : ue2_literal) (pos n : ℕ) : ue2_literal :=
  ⟨l.s.take pos ++ l.s.drop (pos + n), l.nocase.take pos ++ l.nocase.drop (pos + n)⟩

/-- Modelled from the spec: `push_back(c, nc)` body is not in the source
slice; it case-quashes the character when `nc` is set and appends one entry
to each vector. -/
def push_back (l : ue2_literal) (c : Char) (nc : Bool) : ue2_literal :=
  ⟨l.s ++ [if nc then ue2_toupper c else c], l.nocase ++ [nc]⟩

/-- Modelled from the spec: `operator+=` body is not in the source slice; it
concatenates both vectors. -/
def append (a b : ue2_literal) : ue2_literal :=
  ⟨a.s ++ b.s, a.nocase ++ b.nocase⟩

/-- `clear`, defined inline in the header: empties both vectors. -/
def clear (_l : ue2_literal) : ue2_literal := ⟨[], []⟩

/-- `swap`, defined inline in the header: exchanges both vectors pairwise. -/
def swap (a b : ue2_literal) : ue2_literal × ue2_literal := (b, a)

/-- The representation invariant: one `nocase` flag per character. -/
def wf (l : ue2_literal) : Prop := l.s.length = l.nocase.length

instance (l : ue2_literal) : Decidable l.wf := by unfold wf; infer_instance

end ue2_literal

/-! ## Literal representation: `hwlmLiteral` (hwlm/hwlm_literal.h) -/

/-- All-ones 64-bit group mask (`HWLM_ALL_GROUPS`). -/
def HWLM_ALL_GROUPS : ℕ := 2 ^ 64 - 1

/-- Max length of the `msk`/`cmp` vectors (`HWLM_MASKLEN`). -/
def HWLM_MASKLEN : ℕ := 8

/-- A literal fed to `hwlmBuild`: the string, callback id, case flag,
run-quashing flag, group mask and a supplementary mask/compare pair over the
final bytes. -/
structure hwlmLiteral where
  s : List ℕ
  id : ℕ
  nocase : Bool
  noruns : Bool
  groups : ℕ
  msk : List ℕ
  cmp : List ℕ
deriving DecidableEq, Repr

/-- Modelled from the spec: the complete `hwlmLiteral` constructor body is in
`hwlm_literal.cpp`, outside the source slice; per the header it takes group
information and the msk/cmp pair and records them with the string, id and
flags. -/
def hwlmLiteralComplete (s_in : List ℕ) (nocase_in noruns_in : Bool) (id_in : ℕ)
    (groups_in : ℕ) (msk_in cmp_in : List ℕ) : hwlmLiteral :=
  ⟨s_in, id_in, nocase_in, noruns_in, groups_in, msk_in, cmp_in⟩

/-- The simple constructor, defined inline in the header: no group
information, no msk/cmp; it delegates to the complete constructor. -/
def hwlmLiteralSimple (s_in : List ℕ) (nocase_in : Bool) (id_in : ℕ) : hwlmLiteral :=
  hwlmLiteralComplete s_in nocase_in false id_in HWLM_ALL_GROUPS [] []

/-- Group-masked scanning (spec section 4.1): a literal participates in a scan
iff its group mask intersects the enabled-group mask. -/
def groupsEnabled (lit : hwlmLiteral) (scangroups : ℕ) : Bool :=
  lit.groups &&& scangroups ≠ 0

/-- Supplementary comparison from the header doc: if `v` is the final
`msk.length` bytes of the match window then `(v & msk) == cmp` must hold.
An empty `msk` adds no comparison. -/
def mskAccepts (msk cmp window : List ℕ) : Bool :=
  List.zip (window.drop (window.length - msk.length)) (List.zip msk cmp) |>.all
    fun p => p.1 &&& p.2.1 == p.2.2

/-! ## FDR/Teddy literal matcher engines (fdr/, teddy)

The engine runtimes (`fdrExec` and the Teddy variants) are not part of the
source slice — only their declarations and the unit tests are — so the two
engine families are modelled from the spec (section 4.1): an exact scheme
that tests every literal at every end offset, and a table-driven scheme that
first filters candidate literals through a per-byte bucket table built from
each literal's final byte (the "shift/mask" approximation) and then confirms
candidates exactly.  Matches are `(start, end, id)` tuples with inclusive end
offsets, as in the unit-test `match` struct. -/

/-- A reported literal match: start offset, inclusive end offset, id. -/
structure fdrMatch where
  start : ℕ
  endOff : ℕ
  id : ℕ
deriving DecidableEq, Repr

/-- Case-quashing of a byte under a nocase flag (ASCII upper-casing). -/
def normByte (nocase : Bool) (b : ℕ) : ℕ :=
  if nocase ∧ 97 ≤ b ∧ b ≤ 122 then b - 32 else b

/-- True iff literal `lit` matches `buf` with its final byte at offset `e`:
the window of `lit.s.length` bytes ending at `e` lies inside the buffer and
agrees with the literal byte-for-byte (up to case-quashing). -/
def litMatchAt (buf : List ℕ) (e : ℕ) (lit : hwlmLiteral) : Bool :=
  let len := lit.s.length
  decide (1 ≤ len) && decide (len ≤ e + 1) && decide (e < buf.length) &&
    (((buf.drop (e + 1 - len)).take len).map (normByte lit.nocase) ==
      lit.s.map (normByte lit.nocase))

/-- Confirm step shared by every engine: an exact literal check plus the
group-mask test, reporting `(end + 1 - len, end, id)` on success. -/
def fdrConfirm (buf : List ℕ) (scangroups : ℕ) (e : ℕ) (lit : hwlmLiteral) :
    Option fdrMatch :=
  if litMatchAt buf e lit && groupsEnabled lit scangroups then
    some ⟨e + 1 - lit.s.length, e, lit.id⟩
  else none

/-- Modelled from the spec: the exact engine variant tries every literal at
every end offset of the buffer. -/
def fdrExecExact (lits : List hwlmLiteral) (buf : List ℕ) (scangroups : ℕ) :
    List fdrMatch :=
  (List.range buf.length).flatMap fun e => lits.filterMap (fdrConfirm buf scangroups e)

/-- True iff a literal can end on byte `b` (its final byte agrees with `b` up
to case-quashing); an empty literal is kept in every bucket. -/
def canEndWith (lit : hwlmLiteral) (b : ℕ) : Bool :=
  match lit.s.getLast? with
  | none => true
  | some c => normByte lit.nocase b == normByte lit.nocase c

/-- The per-byte bucket table: the candidate literals for final byte `b`. -/
def fdrBucket (lits : List hwlmLiteral) (b : ℕ) : List hwlmLiteral :=
  lits.filter fun lit => canEndWith lit b

/-- Modelled from the spec: the table-driven engine variant looks up, at each
end offset, only the candidate literals in the bucket selected by the byte at
that offset, then confirms each candidate exactly. -/
def fdrExecBucketed (lits : List hwlmLiteral) (buf : List ℕ) (scangroups : ℕ) :
    List fdrMatch :=
  (List.range buf.length).flatMap fun e =>
    (fdrBucket lits (buf.getD e 0)).filterMap (fdrConfirm buf scangroups e)

theorem filterMap_filter_of_imp {α β : Type} (p : α → Bool) (f : α → Option β)
    (l : List α) (h : ∀ x ∈ l, f x ≠ none → p x = true) :
    (l.filter p).filterMap f = l.filterMap f := by
  induction l with
  | nil => rfl
  | cons a l ih =>
    by_cases hfa : f a = none
    · by_cases hpa : p a = true
      · simp [List.filter_cons, hpa, List.filterMap_cons, hfa,
          ih fun x hx => h x (List.mem_cons_of_mem _ hx)]
      · simp only [List.filter_cons, hpa, if_neg]
        simp [List.filterMap_cons, hfa, ih fun x hx => h x (List.mem_cons_of_mem _ hx)]
    · have hpa : p a = true := h a (List.mem_cons_self a l) hfa
      simp [List.filter_cons, hpa, List.filterMap_cons,
        ih fun x hx => h x (List.mem_cons_of_mem _ hx)]

theorem litMatchAt_canEndWith {buf : List ℕ} {e : ℕ} {lit : hwlmLiteral}
    (h : litMatchAt buf e lit = true) : canEndWith lit (buf.getD e 0) = true := by
  unfold litMatchAt at h
  simp only [Bool.and_eq_true, decide_eq_true_eq, beq_iff_eq] at h
  obtain ⟨⟨⟨h1, h2⟩, h3⟩, h4⟩ := h
  unfold canEndWith
  cases hl : lit.s.getLast? with
  | none => rfl
  | some c =>
    have hlen : lit.s ≠ [] := by
      intro hnil; rw [hnil] at hl; simp at hl
    -- window length is exactly the literal length
    have hwlen : ((buf.drop (e + 1 - lit.s.length)).take lit.s.length).length
        = lit.s.length := by
      rw [List.length_take, List.length_drop]
      omega
    -- the final byte of the window is the buffer byte at offset e
    have hlast : ((buf.drop (e + 1 - lit.s.length)).take lit.s.length).getLast?
        = some (buf.getD e 0) := by
      have hplen : 0 < lit.s.length := h1
      have hidx : lit.s.length - 1 < ((buf.drop (e + 1 - lit.s.length)).take
          lit.s.length).length := by omega
      rw [List.getLast?_eq_getElem?, hwlen, List.getElem?_eq_getElem hidx]
      rw [List.getElem_take, List.getElem_drop]
      have hbe : e + 1 - lit.s.length + (lit.s.length - 1) = e := by omega
      have hbl : e + 1 - lit.s.length + (lit.s.length - 1) < buf.length := by omega
      simp only [hbe]
      rw [List.getD_eq_getElem buf 0 h3]
    -- transfer through the case-normalised map equality
    have hm : (((buf.drop (e + 1 - lit.s.length)).take lit.s.length).map
        (normByte lit.nocase)).getLast? = ((lit.s.map (normByte lit.nocase))).getLast? := by
      rw [h4]
    rw [List.getLast?_map, List.getLast?_map, hlast, hl] at hm
    have hm' : normByte lit.nocase (buf.getD e 0) = normByte lit.nocase c := by
      simpa using hm
    simp only [List.getD_eq_getElem?_getD] at hm'
    simp [hm']

/-- Claim C1: for every literal set and every buffer, the two modelled engine
variants (exact and table-driven/bucketed) produce identical match lists, and
in particular the identical unordered set of `(start, end, id)` tuples: the
internal acceleration scheme is not observable in the match set. -/
theorem fdrEngineEquivalence (lits : List hwlmLiteral) (buf : List ℕ)
    (scangroups : ℕ) :
    fdrExecBucketed lits buf scangroups = fdrExecExact lits buf scangroups ∧
    ∀ m : fdrMatch, m ∈ fdrExecBucketed lits buf scangroups ↔
      m ∈ fdrExecExact lits buf scangroups := by
  have hmain : fdrExecBucketed lits buf scangroups = fdrExecExact lits buf scangroups := by
    unfold fdrExecBucketed fdrExecExact fdrBucket
    congr 1
    funext e
    apply filterMap_filter_of_imp
    intro lit _ hconf
    unfold fdrConfirm at hconf
    by_cases hm : litMatchAt buf e lit && groupsEnabled lit scangroups
    · have : litMatchAt buf e lit = true := by
        rcases Bool.and_eq_true _ _ |>.mp hm with ⟨h1, _⟩
        exact h1
      exact litMatchAt_canEndWith this
    · rw [if_neg hm] at hconf
      exact absurd rfl hconf
  exact ⟨hmain, fun m => by rw [hmain]⟩

theorem all_groups_and_eq {g : ℕ} (h : g < 2 ^ 64) : HWLM_ALL_GROUPS &&& g = g := by
  unfold HWLM_ALL_GROUPS
  apply Nat.eq_of_testBit_eq
  intro i
  rw [Nat.testBit_and, Nat.testBit_two_pow_sub_one]
  by_cases hi : i < 64
  · simp [hi]
  · have hg : g.testBit i = false := by
      apply Nat.testBit_lt_two_pow
      exact lt_of_lt_of_le h (Nat.pow_le_pow_right (by norm_num) (by omega))
    simp [hi, hg]

/-- Claim C9: every `ue2_literal` operation — construction from a string or a
character, `substr`, `erase`, `push_back`, append (`operator+=`), `clear` and
`swap` — preserves the invariant that the character string and the
per-character `nocase` vector have equal length. -/
theorem ue2_literal_wf_invariant :
    (∀ (str : List Char) (nc : Bool), (ue2_literal.mk_string str nc).wf) ∧
    (∀ (c : Char) (nc : Bool), (ue2_literal.mk_char c nc).wf) ∧
    (∀ (l : ue2_literal), l.wf → ∀ pos n, (l.substr pos n).wf) ∧
    (∀ (l : ue2_literal), l.wf → ∀ pos n, (l.erase pos n).wf) ∧
    (∀ (l : ue2_literal) (c : Char) (nc : Bool), l.wf → (l.push_back c nc).wf) ∧
    (∀ (a b : ue2_literal), a.wf → b.wf → (ue2_literal.append a b).wf) ∧
    (∀ (l : ue2_literal), l.clear.wf) ∧
    (∀ (a b : ue2_literal), a.wf → b.wf →
      (ue2_literal.swap a b).1.wf ∧ (ue2_literal.swap a b).2.wf) := by
  refine ⟨?_, ?_, ?_, ?_, ?_, ?_, ?_, ?_⟩
  · intro str nc
    cases nc <;> simp [ue2_literal.mk_string, ue2_literal.wf]
  · intro c nc
    cases nc <;> simp [ue2_literal.mk_char, ue2_literal.mk_string, ue2_literal.wf]
  · intro l hl pos n
    simp only [ue2_literal.substr, ue2_literal.wf, List.length_take, List.length_drop]
    unfold ue2_literal.wf at hl
    omega
  · intro l hl pos n
    simp only [ue2_literal.erase, ue2_literal.wf, List.length_append,
      List.length_take, List.length_drop]
    unfold ue2_literal.wf at hl
    omega
  · intro l c nc hl
    simp only [ue2_literal.push_back, ue2_literal.wf, List.length_append,
      List.length_singleton]
    unfold ue2_literal.wf at hl
    omega
  · intro a b ha hb
    simp only [ue2_literal.append, ue2_literal.wf, List.length_append]
    unfold ue2_literal.wf at ha hb
    omega
  · intro l
    simp [ue2_literal.clear, ue2_literal.wf]
  · intro a b ha hb
    exact ⟨hb, ha⟩

/-- Witness for C9: the invariant-preservation conjuncts applied at concrete
literals, discharging the well-formedness hypotheses. -/
theorem ue2_literal_wf_invariant_witness :
    ((ue2_literal.mk_string ['a', 'B', 'c'] true).substr 1 2).wf ∧
    ((ue2_literal.mk_string ['a', 'B', 'c'] false).push_back 'd' true).wf := by
  constructor
  · exact ue2_literal_wf_invariant.2.2.1 _ (ue2_literal_wf_invariant.1 ['a', 'B', 'c'] true) 1 2
  · exact ue2_literal_wf_invariant.2.2.2.2.1 _ 'd' true
      (ue2_literal_wf_invariant.1 ['a', 'B', 'c'] false)

/-- Claim C10: the simple `hwlmLiteral` constructor equals the complete
constructor invoked with `noruns = false`, `groups = HWLM_ALL_GROUPS` and
empty `msk`/`cmp`; consequently the literal matches under any nonempty
enabled-group mask and its supplementary mask comparison accepts every
window. -/
theorem hwlmLiteral_simple_eq_complete (s : List ℕ) (nc : Bool) (id : ℕ) :
    hwlmLiteralSimple s nc id =
      hwlmLiteralComplete s nc false id HWLM_ALL_GROUPS [] [] ∧
    (hwlmLiteralSimple s nc id).noruns = false ∧
    (hwlmLiteralSimple s nc id).groups = HWLM_ALL_GROUPS ∧
    (hwlmLiteralSimple s nc id).msk = [] ∧
    (hwlmLiteralSimple s nc id).cmp = [] ∧
    (∀ scangroups : ℕ, scangroups ≠ 0 → scangroups < 2 ^ 64 →
      groupsEnabled (hwlmLiteralSimple s nc id) scangroups = true) ∧
    (∀ window : List ℕ,
      mskAccepts (hwlmLiteralSimple s nc id).msk (hwlmLiteralSimple s nc id).cmp
        window = true) := by
  refine ⟨rfl, rfl, rfl, rfl, rfl, ?_, ?_⟩
  · intro scangroups hne hlt
    unfold groupsEnabled hwlmLiteralSimple hwlmLiteralComplete
    simp only [decide_eq_true_eq]
    rw [all_groups_and_eq hlt]
    exact hne
  · intro window
    simp [mskAccepts, hwlmLiteralSimple, hwlmLiteralComplete]

/-- Witness for C10: the simple constructor at a concrete literal, with the
group-mask hypotheses discharged at a concrete scan mask. -/
theorem hwlmLiteral_simple_eq_complete_witness :
    hwlmLiteralSimple [109, 110] false 7 =
      hwlmLiteralComplete [109, 110] false false 7 HWLM_ALL_GROUPS [] [] ∧
    groupsEnabled (hwlmLiteralSimple [109, 110] false 7) 5 = true := by
  refine ⟨(hwlmLiteral_simple_eq_complete [109, 110] false 7).1, ?_⟩
  exact (hwlmLiteral_simple_eq_complete [109, 110] false 7).2.2.2.2.2.1 5
    (by decide) (by norm_num)

/-! ## Rose delayed-literal flush (rose/match.c, `flushQueuedLiterals_i`)

The delayed-literal ring has `DELAY_SLOT_COUNT` slots keyed by the low-order
offset bits.  The constants live in a rose header outside the source slice;
their values (32 slots, mask 31) are forced by the code itself, which stores
the filled-slot set in a `u32`, uses a `u64a` victim mask documented as
"twice as wide as the number of slots", and notes "index vars < 32 so 64bit
shifts are safe". -/

def DELAY_SLOT_COUNT : ℕ := 32

def DELAY_MASK : ℕ := DELAY_SLOT_COUNT - 1

/-- The `(1 << k) - 1` low-bit masks used throughout `flushQueuedLiterals_i`. -/
def lowMask (k : ℕ) : ℕ := (1 <<< k) - 1

/-- The victim computation of `flushQueuedLiterals_i`: from the filled-slot
mask and the previous/current end offsets, compute the 64-bit
`victimDelaySlots` mask together with the updated `filledDelayedSlots`,
following the unwrapped and wrapped branches of the source. -/
def computeVictims (filled lastEnd currEnd : ℕ) : ℕ × ℕ :=
  let lastIndex := lastEnd &&& DELAY_MASK
  let currIndex := currEnd &&& DELAY_MASK
  if (lastEnd ||| DELAY_MASK) < currEnd then
    -- wrapped. 1st half: all filled slots above last index
    let first_half := Nat.ldiff filled (lowMask (lastIndex + 1))
    let filled1 := filled &&& lowMask (lastIndex + 1)
    -- 2nd half: slots above last index already flushed; cap at curr index
    -- unless the scan advanced beyond a full ring span
    let second_half :=
      if lastEnd + DELAY_SLOT_COUNT < currEnd then filled1 &&& lowMask (lastIndex + 1)
      else filled1 &&& lowMask (currIndex + 1)
    (first_half ||| (second_half <<< DELAY_SLOT_COUNT), Nat.ldiff filled1 second_half)
  else
    -- unwrapped: clear slots at last index and below, then slots above curr index
    let v1 := Nat.ldiff filled (lowMask (lastIndex + 1))
    let victimDelaySlots := v1 &&& lowMask (currIndex + 1)
    (victimDelaySlots, Nat.ldiff filled victimDelaySlots)

/-- Ascending-bit iteration of a 64-bit mask, as `playVictims` performs with
`findAndClearLSB_64`. -/
def bitsAsc (m : ℕ) : List ℕ := (List.range 64).filter (fun i => m.testBit i)

/-- The slot/offset pairs played by `playVictims`, in play order: each victim
bit `vic` is played as slot `vic % DELAY_SLOT_COUNT` at offset
`vic + (lastEnd & ~DELAY_MASK)`. -/
def victimPlays (filled lastEnd currEnd : ℕ) : List (ℕ × ℕ) :=
  (bitsAsc (computeVictims filled lastEnd currEnd).1).map
    fun vic => (vic % DELAY_SLOT_COUNT, vic + Nat.ldiff lastEnd DELAY_MASK)

/-- The offset a filled delay slot `i` stands for: the unique offset congruent
to `i` mod `DELAY_SLOT_COUNT` in the ring span `(lastEnd, lastEnd + 32]`. -/
def delaySlotOffset (lastEnd i : ℕ) : ℕ :=
  if lastEnd % 32 < i then lastEnd - lastEnd % 32 + i
  else lastEnd - lastEnd % 32 + 32 + i

/-- The canonical victim-bit position for slot `i`. -/
def canonVic (lastEnd i : ℕ) : ℕ := if lastEnd % 32 < i then i else i + 32

theorem and_low_mask (a k : ℕ) : a &&& (2 ^ k - 1) = a % 2 ^ k := by
  apply Nat.eq_of_testBit_eq
  intro i
  rw [Nat.testBit_and, Nat.testBit_two_pow_sub_one, Nat.testBit_mod_two_pow]
  rw [Bool.and_comm]

theorem lowMask_eq (k : ℕ) : lowMask k = 2 ^ k - 1 := by
  unfold lowMask
  rw [Nat.shiftLeft_eq, one_mul]

theorem testBit_high_decompose (a j : ℕ) (hj : 5 ≤ j) :
    a.testBit j = (a / 32).testBit (j - 5) := by
  have ha : a = 2 ^ 5 * (a / 32) + a % 32 := by omega
  conv_lhs => rw [ha]
  rw [Nat.testBit_mul_pow_two_add _ (by omega) j]
  rw [if_neg (by omega)]

theorem lor_mask31 (a : ℕ) : a ||| DELAY_MASK = a - a % 32 + 31 := by
  have hd : DELAY_MASK = 2 ^ 5 - 1 := by decide
  apply Nat.eq_of_testBit_eq
  intro i
  rw [Nat.testBit_lor, hd, Nat.testBit_two_pow_sub_one]
  have hr : a - a % 32 + 31 = 2 ^ 5 * (a / 32) + 31 := by omega
  rw [hr, Nat.testBit_mul_pow_two_add _ (by omega) i]
  have h31 : ∀ j, (31 : ℕ).testBit j = decide (j < 5) := by
    intro j
    have h5 : (31 : ℕ) = 2 ^ 5 - 1 := by norm_num
    rw [h5, Nat.testBit_two_pow_sub_one]
  by_cases hi : i < 5
  · simp [hi, h31]
  · rw [if_neg hi]
    simp [hi, h31, testBit_high_decompose a i (by omega)]

theorem ldiff_mask31 (a : ℕ) : Nat.ldiff a DELAY_MASK = a - a % 32 := by
  have hd : DELAY_MASK = 2 ^ 5 - 1 := by decide
  apply Nat.eq_of_testBit_eq
  intro i
  rw [Nat.testBit_ldiff, hd, Nat.testBit_two_pow_sub_one]
  have hr : a - a % 32 = 2 ^ 5 * (a / 32) + 0 := by omega
  rw [hr, Nat.testBit_mul_pow_two_add _ (by omega) i]
  by_cases hi : i < 5
  · simp [hi, Nat.zero_testBit]
  · rw [if_neg hi]
    simp [hi, testBit_high_decompose a i (by omega)]

theorem lowMask_testBit (k j : ℕ) : (lowMask k).testBit j = decide (j < k) := by
  rw [lowMask_eq, Nat.testBit_two_pow_sub_one]

theorem and_mask31 (a : ℕ) : a &&& DELAY_MASK = a % 32 := by
  have hd : DELAY_MASK = 2 ^ 5 - 1 := by decide
  rw [hd, and_low_mask]
  norm_num

theorem computeVictims_testBit (filled lastEnd currEnd : ℕ) (hf : filled < 2 ^ 32)
    (hlt : lastEnd < currEnd) (vic : ℕ) :
    ((computeVictims filled lastEnd currEnd).1.testBit vic = true ↔
      ∃ i, i < 32 ∧ filled.testBit i = true ∧ vic = canonVic lastEnd i ∧
        delaySlotOffset lastEnd i ≤ currEnd) := by
  have hfb : ∀ j, 32 ≤ j → filled.testBit j = false := by
    intro j hj
    apply Nat.testBit_lt_two_pow
    exact lt_of_lt_of_le hf (Nat.pow_le_pow_right (by norm_num) hj)
  have hmod32 : lastEnd % 32 < 32 := Nat.mod_lt _ (by norm_num)
  have hcmod32 : currEnd % 32 < 32 := Nat.mod_lt _ (by norm_num)
  unfold computeVictims
  rw [and_mask31, and_mask31, lor_mask31]
  by_cases hw : lastEnd - lastEnd % 32 + 31 < currEnd
  · rw [if_pos hw]
    by_cases hfar : lastEnd + DELAY_SLOT_COUNT < currEnd
    · simp only [if_pos hfar]
      simp only [Nat.testBit_lor, Nat.testBit_ldiff, Nat.testBit_and,
        Nat.testBit_shiftLeft, lowMask_testBit, Bool.or_eq_true, Bool.and_eq_true,
        Bool.not_eq_true', decide_eq_true_eq, decide_eq_false_iff_not]
      unfold DELAY_SLOT_COUNT at hfar ⊢
      constructor
      · rintro (⟨h1, h2⟩ | ⟨h2, ⟨⟨h3, h4⟩, h5⟩⟩)
        · have hv32 : vic < 32 := by
            by_contra hge
            rw [hfb vic (by omega)] at h1
            exact Bool.false_ne_true h1
          refine ⟨vic, hv32, h1, ?_, ?_⟩
          · unfold canonVic
            rw [if_pos (by omega)]
          · unfold delaySlotOffset
            rw [if_pos (by omega)]
            omega
        · refine ⟨vic - 32, by omega, h3, ?_, ?_⟩
          · unfold canonVic
            rw [if_neg (by omega)]
            omega
          · unfold delaySlotOffset
            rw [if_neg (by omega)]
            omega
      · rintro ⟨i, hi32, hib, hcv, hoff⟩
        unfold canonVic at hcv
        by_cases hli : lastEnd % 32 < i
        · rw [if_pos hli] at hcv
          exact Or.inl ⟨hcv ▸ hib, by omega⟩
        · rw [if_neg hli] at hcv
          exact Or.inr ⟨by omega, ⟨⟨by rw [hcv]; simpa using hib, by omega⟩, by omega⟩⟩
    · simp only [if_neg hfar]
      simp only [Nat.testBit_lor, Nat.testBit_ldiff, Nat.testBit_and,
        Nat.testBit_shiftLeft, lowMask_testBit, Bool.or_eq_true, Bool.and_eq_true,
        Bool.not_eq_true', decide_eq_true_eq, decide_eq_false_iff_not]
      unfold DELAY_SLOT_COUNT at hfar ⊢
      have hce : currEnd % 32 = currEnd - (lastEnd - lastEnd % 32) - 32 := by omega
      constructor
      · rintro (⟨h1, h2⟩ | ⟨h2, ⟨⟨h3, h4⟩, h5⟩⟩)
        · have hv32 : vic < 32 := by
            by_contra hge
            rw [hfb vic (by omega)] at h1
            exact Bool.false_ne_true h1
          refine ⟨vic, hv32, h1, ?_, ?_⟩
          · unfold canonVic
            rw [if_pos (by omega)]
          · unfold delaySlotOffset
            rw [if_pos (by omega)]
            omega
        · refine ⟨vic - 32, by omega, h3, ?_, ?_⟩
          · unfold canonVic
            rw [if_neg (by omega)]
            omega
          · unfold delaySlotOffset
            rw [if_neg (by omega)]
            omega
      · rintro ⟨i, hi32, hib, hcv, hoff⟩
        unfold canonVic at hcv
        unfold delaySlotOffset at hoff
        by_cases hli : lastEnd % 32 < i
        · rw [if_pos hli] at hcv
          exact Or.inl ⟨hcv ▸ hib, by omega⟩
        · rw [if_neg hli] at hcv
          rw [if_neg hli] at hoff
          exact Or.inr ⟨by omega, ⟨⟨by rw [hcv]; simpa using hib, by omega⟩, by omega⟩⟩
  · rw [if_neg hw]
    simp only [Nat.testBit_and, Nat.testBit_ldiff, lowMask_testBit,
      Bool.and_eq_true, Bool.not_eq_true', decide_eq_true_eq,
      decide_eq_false_iff_not]
    have hce : currEnd % 32 = currEnd - (lastEnd - lastEnd % 32) := by omega
    constructor
    · rintro ⟨⟨h1, h2⟩, h3⟩
      refine ⟨vic, by omega, h1, ?_, ?_⟩
      · unfold canonVic
        rw [if_pos (by omega)]
      · unfold delaySlotOffset
        rw [if_pos (by omega)]
        omega
    · rintro ⟨i, hi32, hib, hcv, hoff⟩
      unfold canonVic at hcv
      unfold delaySlotOffset at hoff
      by_cases hli : lastEnd % 32 < i
      · rw [if_pos hli] at hcv
        rw [if_pos hli] at hoff
        exact ⟨⟨hcv ▸ hib, by omega⟩, by omega⟩
      · rw [if_neg hli] at hoff
        omega

theorem canonVic_mod (lastEnd i : ℕ) (h : i < 32) : canonVic lastEnd i % 32 = i := by
  unfold canonVic
  split <;> omega

theorem canonVic_lt64 (lastEnd i : ℕ) (h : i < 32) : canonVic lastEnd i < 64 := by
  unfold canonVic
  split <;> omega

theorem canonVic_offset (lastEnd i : ℕ) :
    canonVic lastEnd i + (lastEnd - lastEnd % 32) = delaySlotOffset lastEnd i := by
  unfold canonVic delaySlotOffset
  have := Nat.mod_le lastEnd 32
  split <;> omega

theorem delaySlotOffset_gt (lastEnd i : ℕ) : lastEnd < delaySlotOffset lastEnd i := by
  unfold delaySlotOffset
  have h1 : lastEnd % 32 < 32 := Nat.mod_lt _ (by norm_num)
  have h2 := Nat.mod_le lastEnd 32
  split <;> omega

theorem victim_canonical (filled lastEnd currEnd : ℕ) (hf : filled < 2 ^ 32)
    (hlt : lastEnd < currEnd) (vic : ℕ)
    (h : (computeVictims filled lastEnd currEnd).1.testBit vic = true) :
    vic = canonVic lastEnd (vic % 32) := by
  obtain ⟨i, hi32, -, hcv, -⟩ :=
    (computeVictims_testBit filled lastEnd currEnd hf hlt vic).mp h
  rw [hcv, canonVic_mod lastEnd i hi32]

/-- Claim C3: flushing queued delayed literals between `lastEnd` and
`currEnd` plays exactly those filled delay slots whose represented offset
lies in the interval `(lastEnd, currEnd]`, in ascending offset order, with
each slot played at most once (at its correct offset) — including the
wraparound case where `currEnd - lastEnd` exceeds the ring span. -/
theorem delayedFlushCorrect (filled lastEnd currEnd : ℕ) (hf : filled < 2 ^ 32)
    (hlt : lastEnd < currEnd) :
    (∀ slot off, (slot, off) ∈ victimPlays filled lastEnd currEnd ↔
        (slot < DELAY_SLOT_COUNT ∧ filled.testBit slot = true ∧
         off = delaySlotOffset lastEnd slot ∧ lastEnd < off ∧ off ≤ currEnd)) ∧
    ((victimPlays filled lastEnd currEnd).map Prod.snd).Pairwise (· < ·) ∧
    ((victimPlays filled lastEnd currEnd).map Prod.fst).Nodup := by
  have hpair : (bitsAsc (computeVictims filled lastEnd currEnd).1).Pairwise (· < ·) :=
    (List.pairwise_lt_range 64).filter _
  have hmem : ∀ vic, vic ∈ bitsAsc (computeVictims filled lastEnd currEnd).1 ↔
      vic < 64 ∧ (computeVictims filled lastEnd currEnd).1.testBit vic = true := by
    intro vic
    unfold bitsAsc
    rw [List.mem_filter, List.mem_range]
  refine ⟨?_, ?_, ?_⟩
  · intro slot off
    unfold victimPlays
    rw [List.mem_map]
    constructor
    · rintro ⟨vic, hvic, hfv⟩
      rw [hmem] at hvic
      obtain ⟨hv64, hvb⟩ := hvic
      obtain ⟨i, hi32, hib, hcv, hoff⟩ :=
        (computeVictims_testBit filled lastEnd currEnd hf hlt vic).mp hvb
      have hslot : slot = i := by
        have h2 := congrArg Prod.fst hfv
        simp only at h2
        rw [← h2, hcv]
        show canonVic lastEnd i % 32 = i
        exact canonVic_mod lastEnd i hi32
      have hoffeq : off = delaySlotOffset lastEnd i := by
        have h2 := congrArg Prod.snd hfv
        simp only at h2
        rw [← h2, hcv, ldiff_mask31, canonVic_offset]
      subst hslot
      exact ⟨by unfold DELAY_SLOT_COUNT; omega, hib, hoffeq,
        hoffeq ▸ delaySlotOffset_gt lastEnd slot, hoffeq ▸ hoff⟩
    · rintro ⟨hslot, hbit, hoffeq, hgt, hle⟩
      unfold DELAY_SLOT_COUNT at hslot
      refine ⟨canonVic lastEnd slot, ?_, ?_⟩
      · rw [hmem]
        refine ⟨canonVic_lt64 lastEnd slot hslot, ?_⟩
        exact (computeVictims_testBit filled lastEnd currEnd hf hlt _).mpr
          ⟨slot, hslot, hbit, rfl, hoffeq ▸ hle⟩
      · unfold DELAY_SLOT_COUNT
        rw [canonVic_mod lastEnd slot hslot, ldiff_mask31, canonVic_offset, ← hoffeq]
  · unfold victimPlays
    rw [List.map_map, List.pairwise_map]
    apply hpair.imp
    intro a b hab
    simp only [Function.comp_apply]
    omega
  · unfold victimPlays
    rw [List.map_map]
    have hnd : (bitsAsc (computeVictims filled lastEnd currEnd).1).Nodup :=
      (List.nodup_range 64).filter _
    apply List.Nodup.map_on ?_ hnd
    intro x hx y hy hexy
    rw [hmem] at hx hy
    simp only [Function.comp_apply] at hexy
    have hxc := victim_canonical filled lastEnd currEnd hf hlt x hx.2
    have hyc := victim_canonical filled lastEnd currEnd hf hlt y hy.2
    unfold DELAY_SLOT_COUNT at hexy
    rw [hxc, hyc, hexy]

/-- Witness for C3: a concrete wraparound flush — filled slots 1 and 30 with
`lastEnd = 30` and `currEnd = 70` (more than a full ring span ahead) are both
flushed, in ascending offset order 33 then 62, each slot exactly once. -/
theorem delayedFlushCorrect_witness :
    ((2 ^ 1 + 2 ^ 30 : ℕ) < 2 ^ 32 ∧ (30 : ℕ) < 70) ∧
    ((1, 33) ∈ victimPlays (2 ^ 1 + 2 ^ 30) 30 70 ↔
      (1 < DELAY_SLOT_COUNT ∧ (2 ^ 1 + 2 ^ 30 : ℕ).testBit 1 = true ∧
       33 = delaySlotOffset 30 1 ∧ 30 < 33 ∧ 33 ≤ 70)) ∧
    ((victimPlays (2 ^ 1 + 2 ^ 30) 30 70).map Prod.snd).Pairwise (· < ·) ∧
    ((victimPlays (2 ^ 1 + 2 ^ 30) 30 70).map Prod.fst).Nodup := by
  have h := delayedFlushCorrect (2 ^ 1 + 2 ^ 30) 30 70 (by norm_num) (by norm_num)
  exact ⟨⟨by norm_num, by norm_num⟩, h.1 1 33, h.2.1, h.2.2⟩

/-! ## Rose match dispatch and termination propagation (rose/match.c)

The dispatch layers of `roseCallback` are embedded with an explicit trace of
dispatched callbacks.  The Rose program run for each literal
(`roseRunProgram`, outside the source slice) is abstracted as an oracle that
maps the call index, literal id and offset to a continue/terminate status —
this covers any possible program behaviour.  Each embedded function returns
its `hwlmcb_rv_t` status together with the extended trace. -/

/-- The `hwlmcb_rv_t` status values that matter for control flow. -/
inductive HwlmRv where
  | continueMatching
  | terminateMatching
deriving DecidableEq, Repr

/-- The oracle standing in for `roseRunProgram`: given the index of the
dispatch within the scan, the literal id and the end offset, what does the
literal's program (ultimately the user callback) answer? -/
def RoseOracle : Type := ℕ → ℕ → ℕ → HwlmRv

/-- Rose engine parameters used by the dispatch layers. -/
structure RoseEngineEnv where
  cb : RoseOracle
  floatingMinLiteralMatchOffset : ℕ
  anchored_base_id : ℕ
  delay_base_id : ℕ

/-- `roseProcessMatch`: runs the literal program — here, one oracle dispatch
appended to the trace. -/
def roseProcessMatch (env : RoseEngineEnv) (tr : List (ℕ × ℕ)) (id off : ℕ) :
    HwlmRv × List (ℕ × ℕ) :=
  (env.cb tr.length id off, tr ++ [(id, off)])

/-- The dispatch loop of `playDelaySlot` over the set literals of one delay
slot: each dispatch is checked and `HWLM_TERMINATE_MATCHING` is returned
immediately when observed. -/
def playDelaySlotLoop (env : RoseEngineEnv) (offset : ℕ) :
    List ℕ → List (ℕ × ℕ) → HwlmRv × List (ℕ × ℕ)
  | [], tr => (.continueMatching, tr)
  | it :: rest, tr =>
    let step := roseProcessMatch env tr (env.delay_base_id + it) offset
    if step.1 = .terminateMatching then (.terminateMatching, step.2)
    else playDelaySlotLoop env offset rest step.2

/-- `playDelaySlot`: skips slots before the floating-literal horizon, then
replays the slot's literals at the victim offset. -/
def playDelaySlot (env : RoseEngineEnv) (vicSlot : List ℕ) (offset : ℕ)
    (tr : List (ℕ × ℕ)) : HwlmRv × List (ℕ × ℕ) :=
  if offset < env.floatingMinLiteralMatchOffset then (.continueMatching, tr)
  else playDelaySlotLoop env offset vicSlot tr

/-- `flushAnchoredLiteralAtLoc`: replays the anchored-literal row recorded
for one offset, checking the status after every dispatch. -/
def flushAnchoredLiteralAtLoc (env : RoseEngineEnv) (row : List ℕ)
    (curr_loc : ℕ) : List ℕ → List (ℕ × ℕ) → HwlmRv × List (ℕ × ℕ)
  | [], tr => (.continueMatching, tr)
  | it :: rest, tr =>
    let step := roseProcessMatch env tr (env.anchored_base_id + it) curr_loc
    if step.1 = .terminateMatching then (.terminateMatching, step.2)
    else flushAnchoredLiteralAtLoc env row curr_loc rest step.2

/-- `flushAnchoredLiterals`: catches up the anchored-literal log strictly
below `to_off`, propagating termination at the loop boundary; returns the
remaining log (the iterator position) with the status and trace. -/
def flushAnchoredLiterals (env : RoseEngineEnv) (to_off : ℕ) :
    List (ℕ × List ℕ) → List (ℕ × ℕ) →
      HwlmRv × List (ℕ × List ℕ) × List (ℕ × ℕ)
  | [], tr => (.continueMatching, [], tr)
  | (idx, row) :: rest, tr =>
    if idx < to_off then
      let step := flushAnchoredLiteralAtLoc env row (idx + 1) row tr
      if step.1 = .terminateMatching then (.terminateMatching, rest, step.2)
      else flushAnchoredLiterals env to_off rest step.2
    else (.continueMatching, (idx, row) :: rest, tr)

/-- `playVictims`: plays the victim delay slots LSB-first, interleaving the
anchored-literal catch-up, checking the status at every boundary. -/
def playVictims (env : RoseEngineEnv) (delaySlots : List (List ℕ))
    (lastEnd : ℕ) :
    List ℕ → List (ℕ × List ℕ) → List (ℕ × ℕ) →
      HwlmRv × List (ℕ × List ℕ) × List (ℕ × ℕ)
  | [], alog, tr => (.continueMatching, alog, tr)
  | vic :: rest, alog, tr =>
    let vicOffset := vic + Nat.ldiff lastEnd DELAY_MASK
    let fa := flushAnchoredLiterals env vicOffset alog tr
    if fa.1 = .terminateMatching then (.terminateMatching, fa.2.1, fa.2.2)
    else
      let pd := playDelaySlot env (delaySlots.getD (vic % DELAY_SLOT_COUNT) [])
        vicOffset fa.2.2
      if pd.1 = .terminateMatching then (.terminateMatching, fa.2.1, pd.2)
      else playVictims env delaySlots lastEnd rest fa.2.1 pd.2

/-- `flushQueuedLiterals_i`: computes the victim slots (or skips straight to
the anchored leftovers when no delay slot is filled), plays them, and then
flushes the remaining anchored literals up to `currEnd`. -/
def flushQueuedLiterals_i (env : RoseEngineEnv) (delaySlots : List (List ℕ))
    (filled lastEnd currEnd : ℕ) (alog : List (ℕ × List ℕ))
    (tr : List (ℕ × ℕ)) : HwlmRv × List (ℕ × List ℕ) × List (ℕ × ℕ) :=
  let vics := if filled = 0 then []
    else bitsAsc (computeVictims filled lastEnd currEnd).1
  let pv := playVictims env delaySlots lastEnd vics alog tr
  if pv.1 = .terminateMatching then (.terminateMatching, pv.2.1, pv.2.2)
  else flushAnchoredLiterals env currEnd pv.2.1 pv.2.2

/-- The `flushQueuedLiterals` wrapper (declared in the source): a no-op when
the scan has not advanced past the last flushed offset. -/
def flushQueuedLiterals (env : RoseEngineEnv) (delaySlots : List (List ℕ))
    (filled lastEnd currEnd : ℕ) (alog : List (ℕ × List ℕ))
    (tr : List (ℕ × ℕ)) : HwlmRv × List (ℕ × List ℕ) × List (ℕ × ℕ) :=
  if currEnd = lastEnd then (.continueMatching, alog, tr)
  else flushQueuedLiterals_i env delaySlots filled lastEnd currEnd alog tr

/-- `roseCallback`: the FDR-facing callback.  Short-circuits when the stream
is already dead, flushes queued (delayed and anchored) literals, propagates
termination before dispatching the direct literal match. -/
def roseCallback (env : RoseEngineEnv) (alreadyDead : Bool)
    (delaySlots : List (List ℕ)) (filled lastEnd : ℕ)
    (alog : List (ℕ × List ℕ)) (real_end id : ℕ) : HwlmRv × List (ℕ × ℕ) :=
  if alreadyDead then (.terminateMatching, [])
  else
    let fq := flushQueuedLiterals env delaySlots filled lastEnd real_end alog []
    if fq.1 = .terminateMatching then (.terminateMatching, fq.2.2)
    else
      let pm := roseProcessMatch env fq.2.2 id real_end
      if pm.1 ≠ .terminateMatching then (.continueMatching, pm.2)
      else (.terminateMatching, pm.2)

/-- Every dispatched callback in the trace returned "continue". -/
def allContinue (cb : RoseOracle) (tr : List (ℕ × ℕ)) : Prop :=
  ∀ j, j < tr.length →
    cb j (tr.getD j (0, 0)).1 (tr.getD j (0, 0)).2 = .continueMatching

/-- Every dispatched callback except possibly the final one returned
"continue": no callback was invoked after a terminate answer. -/
def goodTrace (cb : RoseOracle) (tr : List (ℕ × ℕ)) : Prop :=
  ∀ j, j + 1 < tr.length →
    cb j (tr.getD j (0, 0)).1 (tr.getD j (0, 0)).2 = .continueMatching

theorem getD_append_lt {α : Type} [Inhabited α] (l l2 : List α) (j : ℕ)
    (h : j < l.length) (d : α) : (l ++ l2).getD j d = l.getD j d := by
  rw [List.getD_eq_getElem?_getD, List.getD_eq_getElem?_getD,
    List.getElem?_append_left h]

theorem getD_append_self {α : Type} [Inhabited α] (l : List α) (a d : α) :
    (l ++ [a]).getD l.length d = a := by
  rw [List.getD_eq_getElem?_getD, List.getElem?_append_right (by omega)]
  simp

theorem allContinue_goodTrace {cb : RoseOracle} {tr : List (ℕ × ℕ)}
    (h : allContinue cb tr) : goodTrace cb tr :=
  fun j hj => h j (by omega)

theorem allContinue_nil (cb : RoseOracle) : allContinue cb [] := by
  intro j hj
  simp at hj

theorem allContinue_append_single {cb : RoseOracle} {tr : List (ℕ × ℕ)}
    {id off : ℕ} (h : allContinue cb tr)
    (hnew : cb tr.length id off = .continueMatching) :
    allContinue cb (tr ++ [(id, off)]) := by
  intro j hj
  rw [List.length_append, List.length_singleton] at hj
  by_cases hjl : j < tr.length
  · rw [getD_append_lt _ _ _ hjl]
    exact h j hjl
  · have hje : j = tr.length := by omega
    subst hje
    rw [getD_append_self]
    exact hnew

theorem goodTrace_append_single {cb : RoseOracle} {tr : List (ℕ × ℕ)}
    {id off : ℕ} (h : allContinue cb tr) :
    goodTrace cb (tr ++ [(id, off)]) := by
  intro j hj
  rw [List.length_append, List.length_singleton] at hj
  have hjl : j < tr.length := by omega
  rw [getD_append_lt _ _ _ hjl]
  exact h j hjl

theorem playDelaySlotLoop_inv (env : RoseEngineEnv) (offset : ℕ)
    (lits : List ℕ) :
    ∀ tr, allContinue env.cb tr →
      ((playDelaySlotLoop env offset lits tr).1 = .continueMatching →
        allContinue env.cb (playDelaySlotLoop env offset lits tr).2) ∧
      goodTrace env.cb (playDelaySlotLoop env offset lits tr).2 := by
  induction lits with
  | nil =>
    intro tr h
    exact ⟨fun _ => h, allContinue_goodTrace h⟩
  | cons it rest ih =>
    intro tr h
    unfold playDelaySlotLoop
    by_cases hs : (roseProcessMatch env tr (env.delay_base_id + it) offset).1 =
        HwlmRv.terminateMatching
    · rw [if_pos hs]
      refine ⟨fun hc => absurd hc (by simp), ?_⟩
      unfold roseProcessMatch
      exact goodTrace_append_single h
    · rw [if_neg hs]
      apply ih
      unfold roseProcessMatch at hs ⊢
      apply allContinue_append_single h
      cases hcb : env.cb tr.length (env.delay_base_id + it) offset with
      | continueMatching => rfl
      | terminateMatching => exact absurd hcb hs

theorem playDelaySlot_inv (env : RoseEngineEnv) (vicSlot : List ℕ) (offset : ℕ)
    (tr : List (ℕ × ℕ)) (h : allContinue env.cb tr) :
    ((playDelaySlot env vicSlot offset tr).1 = .continueMatching →
      allContinue env.cb (playDelaySlot env vicSlot offset tr).2) ∧
    goodTrace env.cb (playDelaySlot env vicSlot offset tr).2 := by
  unfold playDelaySlot
  by_cases hmin : offset < env.floatingMinLiteralMatchOffset
  · rw [if_pos hmin]
    exact ⟨fun _ => h, allContinue_goodTrace h⟩
  · rw [if_neg hmin]
    exact playDelaySlotLoop_inv env offset vicSlot tr h

theorem flushAnchoredLiteralAtLoc_inv (env : RoseEngineEnv) (row : List ℕ)
    (curr_loc : ℕ) (its : List ℕ) :
    ∀ tr, allContinue env.cb tr →
      ((flushAnchoredLiteralAtLoc env row curr_loc its tr).1 = .continueMatching →
        allContinue env.cb (flushAnchoredLiteralAtLoc env row curr_loc its tr).2) ∧
      goodTrace env.cb (flushAnchoredLiteralAtLoc env row curr_loc its tr).2 := by
  induction its with
  | nil =>
    intro tr h
    exact ⟨fun _ => h, allContinue_goodTrace h⟩
  | cons it rest ih =>
    intro tr h
    unfold flushAnchoredLiteralAtLoc
    by_cases hs : (roseProcessMatch env tr (env.anchored_base_id + it) curr_loc).1 =
        HwlmRv.terminateMatching
    · rw [if_pos hs]
      refine ⟨fun hc => absurd hc (by simp), ?_⟩
      unfold roseProcessMatch
      exact goodTrace_append_single h
    · rw [if_neg hs]
      apply ih
      unfold roseProcessMatch at hs ⊢
      apply allContinue_append_single h
      cases hcb : env.cb tr.length (env.anchored_base_id + it) curr_loc with
      | continueMatching => rfl
      | terminateMatching => exact absurd hcb hs

theorem flushAnchoredLiterals_inv (env : RoseEngineEnv) (to_off : ℕ)
    (alog : List (ℕ × List ℕ)) :
    ∀ tr, allContinue env.cb tr →
      ((flushAnchoredLiterals env to_off alog tr).1 = .continueMatching →
        allContinue env.cb (flushAnchoredLiterals env to_off alog tr).2.2) ∧
      goodTrace env.cb (flushAnchoredLiterals env to_off alog tr).2.2 := by
  induction alog with
  | nil =>
    intro tr h
    exact ⟨fun _ => h, allContinue_goodTrace h⟩
  | cons entry rest ih =>
    intro tr h
    obtain ⟨idx, row⟩ := entry
    unfold flushAnchoredLiterals
    by_cases hidx : idx < to_off
    · rw [if_pos hidx]
      have hstep := flushAnchoredLiteralAtLoc_inv env row (idx + 1) row tr h
      by_cases hs : (flushAnchoredLiteralAtLoc env row (idx + 1) row tr).1 =
          HwlmRv.terminateMatching
      · rw [if_pos hs]
        exact ⟨fun hc => absurd hc (by simp), hstep.2⟩
      · rw [if_neg hs]
        apply ih
        apply hstep.1
        cases hcb : (flushAnchoredLiteralAtLoc env row (idx + 1) row tr).1 with
        | continueMatching => rfl
        | terminateMatching => exact absurd hcb hs
    · rw [if_neg hidx]
      exact ⟨fun _ => h, allContinue_goodTrace h⟩

theorem playVictims_inv (env : RoseEngineEnv) (delaySlots : List (List ℕ))
    (lastEnd : ℕ) (vics : List ℕ) :
    ∀ alog tr, allContinue env.cb tr →
      ((playVictims env delaySlots lastEnd vics alog tr).1 = .continueMatching →
        allContinue env.cb (playVictims env delaySlots lastEnd vics alog tr).2.2) ∧
      goodTrace env.cb (playVictims env delaySlots lastEnd vics alog tr).2.2 := by
  induction vics with
  | nil =>
    intro alog tr h
    exact ⟨fun _ => h, allContinue_goodTrace h⟩
  | cons vic rest ih =>
    intro alog tr h
    unfold playVictims
    have hfa := flushAnchoredLiterals_inv env (vic + Nat.ldiff lastEnd DELAY_MASK)
      alog tr h
    by_cases hs1 : (flushAnchoredLiterals env (vic + Nat.ldiff lastEnd DELAY_MASK)
        alog tr).1 = HwlmRv.terminateMatching
    · rw [if_pos hs1]
      exact ⟨fun hc => absurd hc (by simp), hfa.2⟩
    · rw [if_neg hs1]
      have hfac : allContinue env.cb (flushAnchoredLiterals env
          (vic + Nat.ldiff lastEnd DELAY_MASK) alog tr).2.2 := by
        apply hfa.1
        cases hcb : (flushAnchoredLiterals env (vic + Nat.ldiff lastEnd DELAY_MASK)
            alog tr).1 with
        | continueMatching => rfl
        | terminateMatching => exact absurd hcb hs1
      have hpd := playDelaySlot_inv env
        (delaySlots.getD (vic % DELAY_SLOT_COUNT) [])
        (vic + Nat.ldiff lastEnd DELAY_MASK) _ hfac
      by_cases hs2 : (playDelaySlot env (delaySlots.getD (vic % DELAY_SLOT_COUNT) [])
          (vic + Nat.ldiff lastEnd DELAY_MASK)
          (flushAnchoredLiterals env (vic + Nat.ldiff lastEnd DELAY_MASK)
            alog tr).2.2).1 = HwlmRv.terminateMatching
      · rw [if_pos hs2]
        exact ⟨fun hc => absurd hc (by simp), hpd.2⟩
      · rw [if_neg hs2]
        apply ih
        apply hpd.1
        cases hcb : (playDelaySlot env (delaySlots.getD (vic % DELAY_SLOT_COUNT) [])
            (vic + Nat.ldiff lastEnd DELAY_MASK)
            (flushAnchoredLiterals env (vic + Nat.ldiff lastEnd DELAY_MASK)
              alog tr).2.2).1 with
        | continueMatching => rfl
        | terminateMatching => exact absurd hcb hs2

theorem flushQueuedLiterals_i_inv (env : RoseEngineEnv)
    (delaySlots : List (List ℕ)) (filled lastEnd currEnd : ℕ)
    (alog : List (ℕ × List ℕ)) (tr : List (ℕ × ℕ))
    (h : allContinue env.cb tr) :
    ((flushQueuedLiterals_i env delaySlots filled lastEnd currEnd alog tr).1 =
        .continueMatching →
      allContinue env.cb
        (flushQueuedLiterals_i env delaySlots filled lastEnd currEnd alog tr).2.2) ∧
    goodTrace env.cb
      (flushQueuedLiterals_i env delaySlots filled lastEnd currEnd alog tr).2.2 := by
  unfold flushQueuedLiterals_i
  set vics := if filled = 0 then []
    else bitsAsc (computeVictims filled lastEnd currEnd).1 with hvics
  have hpv := playVictims_inv env delaySlots lastEnd vics alog tr h
  by_cases hs : (playVictims env delaySlots lastEnd vics alog tr).1 =
      HwlmRv.terminateMatching
  · rw [if_pos hs]
    exact ⟨fun hc => absurd hc (by simp), hpv.2⟩
  · rw [if_neg hs]
    apply flushAnchoredLiterals_inv
    apply hpv.1
    cases hcb : (playVictims env delaySlots lastEnd vics alog tr).1 with
    | continueMatching => rfl
    | terminateMatching => exact absurd hcb hs

theorem flushQueuedLiterals_inv (env : RoseEngineEnv)
    (delaySlots : List (List ℕ)) (filled lastEnd currEnd : ℕ)
    (alog : List (ℕ × List ℕ)) (tr : List (ℕ × ℕ))
    (h : allContinue env.cb tr) :
    ((flushQueuedLiterals env delaySlots filled lastEnd currEnd alog tr).1 =
        .continueMatching →
      allContinue env.cb
        (flushQueuedLiterals env delaySlots filled lastEnd currEnd alog tr).2.2) ∧
    goodTrace env.cb
      (flushQueuedLiterals env delaySlots filled lastEnd currEnd alog tr).2.2 := by
  unfold flushQueuedLiterals
  by_cases he : currEnd = lastEnd
  · rw [if_pos he]
    exact ⟨fun _ => h, allContinue_goodTrace h⟩
  · rw [if_neg he]
    exact flushQueuedLiterals_i_inv env delaySlots filled lastEnd currEnd alog tr h

/-- Claim C2: within one `roseCallback` invocation, once any dispatched match
callback answers terminate, no further callback is dispatched: every entry of
the produced dispatch trace except possibly the final one answered continue
(the terminate status is propagated at the delayed-replay, anchored-replay
and direct-dispatch loop boundaries), and a continue result means every
dispatched callback answered continue. -/
theorem roseCallback_terminate_stops_dispatch (env : RoseEngineEnv)
    (alreadyDead : Bool) (delaySlots : List (List ℕ)) (filled lastEnd : ℕ)
    (alog : List (ℕ × List ℕ)) (real_end id : ℕ) :
    goodTrace env.cb
      (roseCallback env alreadyDead delaySlots filled lastEnd alog real_end id).2 ∧
    ((roseCallback env alreadyDead delaySlots filled lastEnd alog real_end id).1 =
        .continueMatching →
      allContinue env.cb
        (roseCallback env alreadyDead delaySlots filled lastEnd alog real_end id).2) := by
  unfold roseCallback
  by_cases hd : alreadyDead = true
  · rw [if_pos hd]
    exact ⟨allContinue_goodTrace (allContinue_nil env.cb), fun _ => allContinue_nil env.cb⟩
  · rw [if_neg hd]
    have hfq := flushQueuedLiterals_inv env delaySlots filled lastEnd real_end alog []
      (allContinue_nil env.cb)
    by_cases hs : (flushQueuedLiterals env delaySlots filled lastEnd real_end
        alog []).1 = HwlmRv.terminateMatching
    · rw [if_pos hs]
      exact ⟨hfq.2, fun hc => absurd hc (by simp)⟩
    · rw [if_neg hs]
      have hfqc : allContinue env.cb (flushQueuedLiterals env delaySlots filled
          lastEnd real_end alog []).2.2 := by
        apply hfq.1
        cases hcb : (flushQueuedLiterals env delaySlots filled lastEnd real_end
            alog []).1 with
        | continueMatching => rfl
        | terminateMatching => exact absurd hcb hs
      by_cases hpm : (roseProcessMatch env (flushQueuedLiterals env delaySlots filled
          lastEnd real_end alog []).2.2 id real_end).1 ≠ HwlmRv.terminateMatching
      · rw [if_pos hpm]
        unfold roseProcessMatch at hpm ⊢
        refine ⟨goodTrace_append_single hfqc, fun _ => ?_⟩
        apply allContinue_append_single hfqc
        cases hcb : env.cb (flushQueuedLiterals env delaySlots filled lastEnd
            real_end alog []).2.2.length id real_end with
        | continueMatching => rfl
        | terminateMatching => exact absurd hcb hpm
      · rw [if_neg hpm]
        unfold roseProcessMatch
        exact ⟨goodTrace_append_single hfqc, fun hc => absurd hc (by simp)⟩

/-- Witness for C2: a concrete scan — an always-continue oracle with an
anchored log entry to replay and a direct literal — dispatches a trace in
which every callback answered continue. -/
theorem roseCallback_terminate_stops_dispatch_witness :
    goodTrace (fun _ _ _ => HwlmRv.continueMatching)
      (roseCallback ⟨fun _ _ _ => .continueMatching, 1, 100, 200⟩ false
        [[0, 1], [2]] 0 5 [(6, [0])] 40 9).2 ∧
    allContinue (fun _ _ _ => HwlmRv.continueMatching)
      (roseCallback ⟨fun _ _ _ => .continueMatching, 1, 100, 200⟩ false
        [[0, 1], [2]] 0 5 [(6, [0])] 40 9).2 := by
  have h := roseCallback_terminate_stops_dispatch
    ⟨fun _ _ _ => .continueMatching, 1, 100, 200⟩ false
    [[0, 1], [2]] 0 5 [(6, [0])] 40 9
  exact ⟨h.1, h.2 (by decide)⟩

/-! ## NFA pattern graph ("holder", nfagraph/ng_holder.h)

Vertices are dense natural indices; the four sentinels occupy the fixed low
indices.  The graph is embedded as explicit lists of vertices, edges,
per-vertex reports, per-vertex character reachability and assert flags;
removal passes filter these lists (index renumbering only relabels vertices
and is tracked by the boolean the passes return). -/

def NODE_START : ℕ := 0

def NODE_START_DOTSTAR : ℕ := 1

def NODE_ACCEPT : ℕ := 2

def NODE_ACCEPT_EOD : ℕ := 3

def N_SPECIALS : ℕ := 4

/-- The pattern graph holder. -/
structure NGHolder where
  verts : List ℕ
  edges : List (ℕ × ℕ)
  reports : List (ℕ × ℕ)
  char_reach : List (ℕ × List ℕ)
  asserts : List ℕ
deriving DecidableEq, Repr

/-- `is_special`: one of the four sentinel vertices. -/
def is_special (v : ℕ) : Prop := v < N_SPECIALS

instance (v : ℕ) : Decidable (is_special v) := by unfold is_special; infer_instance

namespace NGHolder

/-- Successor list of a vertex (adjacency). -/
def succs (g : NGHolder) (v : ℕ) : List ℕ :=
  (g.edges.filter fun e => e.1 = v).map Prod.snd

/-- Predecessor list of a vertex. -/
def preds (g : NGHolder) (v : ℕ) : List ℕ :=
  (g.edges.filter fun e => e.2 = v).map Prod.fst

/-- Edge test (`edge(u, v, g).second`). -/
def hasEdge (g : NGHolder) (u v : ℕ) : Prop := (u, v) ∈ g.edges

instance (g : NGHolder) (u v : ℕ) : Decidable (g.hasEdge u v) := by
  unfold hasEdge; infer_instance

/-- The report set of a vertex (`g[v].reports`). -/
def vreports (g : NGHolder) (v : ℕ) : List ℕ :=
  (g.reports.filter fun p => p.1 = v).map Prod.snd

/-- The character reachability of a vertex (`g[v].char_reach`). -/
def vreach (g : NGHolder) (v : ℕ) : List ℕ :=
  ((g.char_reach.filter fun p => p.1 = v).map Prod.snd).flatten

/-- `hasGreaterInDegree(n, v, g)`: strictly more than `n` in-edges. -/
def hasGreaterInDegree (n : ℕ) (v : ℕ) (g : NGHolder) : Prop :=
  n < (g.preds v).length

instance (n v : ℕ) (g : NGHolder) : Decidable (hasGreaterInDegree n v g) := by
  unfold hasGreaterInDegree; infer_instance

end NGHolder

/-! ### Reachability over an edge list -/

/-- There is a directed path of length `k` from `u` to `v` along `es`. -/
inductive PathLen (es : List (ℕ × ℕ)) : ℕ → ℕ → ℕ → Prop where
  | refl (v : ℕ) : PathLen es v v 0
  | tail {u v w k : ℕ} : PathLen es u v k → (v, w) ∈ es → PathLen es u w (k + 1)

/-- `v` is reachable from `u` along `es`. -/
def reachable (es : List (ℕ × ℕ)) (u v : ℕ) : Prop := ∃ k, PathLen es u v k

/-- The successor set of a vertex within an edge list. -/
def succsF (es : List (ℕ × ℕ)) (v : ℕ) : Finset ℕ :=
  ((es.filter fun e => e.1 = v).map Prod.snd).toFinset

/-- One step of reachability closure. -/
def reachStep (es : List (ℕ × ℕ)) (s : Finset ℕ) : Finset ℕ :=
  s ∪ s.biUnion (succsF es)

/-- Iterated reachability closure from a single source. -/
def reachN (es : List (ℕ × ℕ)) (src : ℕ) : ℕ → Finset ℕ
  | 0 => {src}
  | k + 1 => reachStep es (reachN es src k)

/-- Enough iterations to reach the closure's fixed point. -/
def reachBound (es : List (ℕ × ℕ)) : ℕ := es.length + 1

/-- The set of vertices reachable from `src` (the DFS/BFS visit set). -/
def reachSet (es : List (ℕ × ℕ)) (src : ℕ) : Finset ℕ :=
  reachN es src (reachBound es)

theorem mem_succsF {es : List (ℕ × ℕ)} {v w : ℕ} :
    w ∈ succsF es v ↔ (v, w) ∈ es := by
  unfold succsF
  rw [List.mem_toFinset, List.mem_map]
  constructor
  · rintro ⟨⟨a, b⟩, hab, hb⟩
    rw [List.mem_filter] at hab
    simp only [decide_eq_true_eq] at hab
    obtain ⟨hmem, hfst⟩ := hab
    simp only at hb hfst
    subst hfst
    subst hb
    exact hmem
  · intro h
    exact ⟨(v, w), List.mem_filter.mpr ⟨h, by simp⟩, rfl⟩

theorem reachN_subset_succ (es : List (ℕ × ℕ)) (src k : ℕ) :
    reachN es src k ⊆ reachN es src (k + 1) := by
  show reachN es src k ⊆ reachStep es (reachN es src k)
  unfold reachStep
  exact Finset.subset_union_left

theorem reachN_mono (es : List (ℕ × ℕ)) (src : ℕ) {k m : ℕ} (h : k ≤ m) :
    reachN es src k ⊆ reachN es src m := by
  induction m with
  | zero =>
    have hk : k = 0 := by omega
    subst hk
    exact Finset.Subset.refl _
  | succ m ih =>
    by_cases hk : k = m + 1
    · subst hk
      exact Finset.Subset.refl _
    · exact (ih (by omega)).trans (reachN_subset_succ es src m)

theorem mem_reachN_iff (es : List (ℕ × ℕ)) (src : ℕ) :
    ∀ k v, v ∈ reachN es src k ↔ ∃ j, j ≤ k ∧ PathLen es src v j := by
  intro k
  induction k with
  | zero =>
    intro v
    constructor
    · intro h
      rw [show reachN es src 0 = {src} from rfl, Finset.mem_singleton] at h
      rw [h]
      exact ⟨0, le_refl 0, PathLen.refl src⟩
    · rintro ⟨j, hj, hp⟩
      have hj0 : j = 0 := by omega
      subst hj0
      cases hp
      rw [show reachN es src 0 = {src} from rfl, Finset.mem_singleton]
  | succ k ih =>
    intro v
    constructor
    · intro h
      rw [show reachN es src (k + 1) = reachStep es (reachN es src k) from rfl] at h
      unfold reachStep at h
      rw [Finset.mem_union] at h
      rcases h with h | h
      · obtain ⟨j, hj, hp⟩ := (ih v).mp h
        exact ⟨j, by omega, hp⟩
      · rw [Finset.mem_biUnion] at h
        obtain ⟨u, hu, hv⟩ := h
        obtain ⟨j, hj, hp⟩ := (ih u).mp hu
        exact ⟨j + 1, by omega, hp.tail (mem_succsF.mp hv)⟩
    · rintro ⟨j, hj, hp⟩
      cases hp with
      | refl =>
        have : src ∈ reachN es src k := (ih src).mpr ⟨0, by omega, PathLen.refl src⟩
        exact reachN_subset_succ es src k this
      | @tail w _ j' hp' he =>
        by_cases hjk : j' + 1 ≤ k
        · exact reachN_subset_succ es src k ((ih v).mpr ⟨j' + 1, hjk, hp'.tail he⟩)
        · have hj' : j' ≤ k := by omega
          have hw : w ∈ reachN es src k := (ih w).mpr ⟨j', hj', hp'⟩
          rw [show reachN es src (k + 1) = reachStep es (reachN es src k) from rfl]
          unfold reachStep
          rw [Finset.mem_union, Finset.mem_biUnion]
          exact Or.inr ⟨w, hw, mem_succsF.mpr he⟩

theorem reachN_stable (es : List (ℕ × ℕ)) (src : ℕ) {j : ℕ}
    (h : reachN es src (j + 1) = reachN es src j) :
    ∀ m, j ≤ m → reachN es src m = reachN es src j := by
  intro m hm
  induction m with
  | zero =>
    have : j = 0 := by omega
    rw [this]
  | succ m ih =>
    by_cases hjm : j = m + 1
    · rw [hjm]
    · have hj : j ≤ m := by omega
      have heq := ih hj
      calc reachN es src (m + 1) = reachStep es (reachN es src m) := rfl
        _ = reachStep es (reachN es src j) := by rw [heq]
        _ = reachN es src (j + 1) := rfl
        _ = reachN es src j := h

theorem reachN_subset_universe (es : List (ℕ × ℕ)) (src : ℕ) (k : ℕ) :
    reachN es src k ⊆ insert src (es.map Prod.snd).toFinset := by
  induction k with
  | zero =>
    intro v hv
    rw [show reachN es src 0 = {src} from rfl, Finset.mem_singleton] at hv
    subst hv
    exact Finset.mem_insert_self _ _
  | succ k ih =>
    intro v hv
    rw [show reachN es src (k + 1) = reachStep es (reachN es src k) from rfl] at hv
    unfold reachStep at hv
    rw [Finset.mem_union] at hv
    rcases hv with hv | hv
    · exact ih hv
    · rw [Finset.mem_biUnion] at hv
      obtain ⟨u, -, hv⟩ := hv
      rw [mem_succsF] at hv
      apply Finset.mem_insert_of_mem
      rw [List.mem_toFinset, List.mem_map]
      exact ⟨(u, v), hv, rfl⟩

theorem reachN_saturates (es : List (ℕ × ℕ)) (src : ℕ) :
    ∃ j, j < reachBound es ∧ reachN es src (j + 1) = reachN es src j := by
  by_contra hno
  push_neg at hno
  have hgrow : ∀ j, j ≤ reachBound es → j + 1 ≤ (reachN es src j).card := by
    intro j
    induction j with
    | zero =>
      intro _
      have : src ∈ reachN es src 0 := by
        rw [show reachN es src 0 = {src} from rfl]
        exact Finset.mem_singleton_self src
      have := Finset.card_pos.mpr ⟨src, this⟩
      omega
    | succ j ih =>
      intro hj
      have hne := hno j (by omega)
      have hss : reachN es src j ⊂ reachN es src (j + 1) :=
        Finset.ssubset_iff_subset_ne.mpr
          ⟨reachN_subset_succ es src j, fun heq => hne heq.symm⟩
      have hlt := Finset.card_lt_card hss
      have := ih (by omega)
      omega
  have hbig := hgrow (reachBound es) (le_refl _)
  have hsub := Finset.card_le_card (reachN_subset_universe es src (reachBound es))
  have hcard : (insert src (es.map Prod.snd).toFinset).card ≤ reachBound es := by
    calc (insert src (es.map Prod.snd).toFinset).card
        ≤ (es.map Prod.snd).toFinset.card + 1 := Finset.card_insert_le _ _
      _ ≤ (es.map Prod.snd).length + 1 := by
          have := (es.map Prod.snd).toFinset_card_le
          omega
      _ = reachBound es := by rw [List.length_map]; rfl
  omega

theorem mem_reachSet (es : List (ℕ × ℕ)) (src v : ℕ) :
    v ∈ reachSet es src ↔ reachable es src v := by
  constructor
  · intro h
    obtain ⟨j, -, hp⟩ := (mem_reachN_iff es src (reachBound es) v).mp h
    exact ⟨j, hp⟩
  · rintro ⟨k, hp⟩
    have hk : v ∈ reachN es src k := (mem_reachN_iff es src k v).mpr ⟨k, le_refl k, hp⟩
    obtain ⟨j, hjb, hstab⟩ := reachN_saturates es src
    by_cases hkb : k ≤ reachBound es
    · exact reachN_mono es src hkb hk
    · have h1 : reachN es src k = reachN es src j := reachN_stable es src hstab k (by omega)
      rw [h1] at hk
      exact reachN_mono es src (by omega) hk

theorem PathLen.head {es : List (ℕ × ℕ)} {u v w k : ℕ} (he : (u, v) ∈ es)
    (hp : PathLen es v w k) : PathLen es u w (k + 1) := by
  induction hp with
  | refl => exact (PathLen.refl u).tail he
  | tail hp' he' ih => exact ih.tail he'

theorem pathLen_swap {es : List (ℕ × ℕ)} {u v k : ℕ} (hp : PathLen es u v k) :
    PathLen (es.map Prod.swap) v u k := by
  induction hp with
  | refl => exact PathLen.refl _
  | @tail b _ k hp' he ih =>
    apply PathLen.head _ ih
    rw [List.mem_map]
    exact ⟨(b, _), he, rfl⟩

theorem reachable_swap {es : List (ℕ × ℕ)} {u v : ℕ} (h : reachable es u v) :
    reachable (es.map Prod.swap) v u := by
  obtain ⟨k, hp⟩ := h
  exact ⟨k, pathLen_swap hp⟩

theorem reachable.trans {es : List (ℕ × ℕ)} {u v w : ℕ} (h1 : reachable es u v)
    (h2 : reachable es v w) : reachable es u w := by
  obtain ⟨k2, hp2⟩ := h2
  induction hp2 with
  | refl => exact h1
  | tail hp' he ih =>
    obtain ⟨m, hm⟩ := ih
    exact ⟨m + 1, hm.tail he⟩

/-- The edge-survival predicate of `remove_vertices`. -/
def keepEdge (dead : List ℕ) (e : ℕ × ℕ) : Bool :=
  decide (e.1 ∉ dead) && decide (e.2 ∉ dead)

theorem keepEdge_swap (dead : List ℕ) (e : ℕ × ℕ) :
    keepEdge dead e.swap = keepEdge dead e := by
  obtain ⟨a, b⟩ := e
  unfold keepEdge
  simp [Bool.and_comm]

theorem reachable_filter_sandwich (es : List (ℕ × ℕ)) (dead : List ℕ) {s v : ℕ}
    (hreach : reachable es s v)
    (hsafe : ∀ u, reachable es s u → reachable es u v → u ∉ dead) :
    reachable (es.filter (keepEdge dead)) s v := by
  obtain ⟨k, hp⟩ := hreach
  induction hp with
  | refl => exact ⟨0, PathLen.refl _⟩
  | @tail b c k hp' he ih =>
    have hsafe' : ∀ u, reachable es s u → reachable es u b → u ∉ dead := by
      intro u hsu hub
      exact hsafe u hsu (hub.trans ⟨1, (PathLen.refl b).tail he⟩)
    obtain ⟨m, hm⟩ := ih hsafe'
    refine ⟨m + 1, hm.tail ?_⟩
    rw [List.mem_filter]
    refine ⟨he, ?_⟩
    have hb : b ∉ dead := hsafe b ⟨k, hp'⟩ ⟨1, (PathLen.refl b).tail he⟩
    have hc : c ∉ dead := hsafe c ⟨k + 1, hp'.tail he⟩ ⟨0, PathLen.refl c⟩
    unfold keepEdge
    simp [hb, hc]

theorem filter_map_swap (l : List (ℕ × ℕ)) (dead : List ℕ) :
    (l.filter (keepEdge dead)).map Prod.swap =
      (l.map Prod.swap).filter (keepEdge dead) := by
  rw [List.filter_map]
  congr 1
  apply List.filter_congr
  intro e _
  exact (keepEdge_swap dead e).symm

/-! ### Vertex removal and the prune-useless pass (nfagraph/ng_prune.cpp) -/

/-- `remove_vertices`: delete the given vertices along with their incident
edges, reports, reachability entries and assert flags. -/
def remove_vertices (dead : List ℕ) (g : NGHolder) : NGHolder where
  verts := g.verts.filter fun v => decide (v ∉ dead)
  edges := g.edges.filter (keepEdge dead)
  reports := g.reports.filter fun p => decide (p.1 ∉ dead)
  char_reach := g.char_reach.filter fun p => decide (p.1 ∉ dead)
  asserts := g.asserts.filter fun v => decide (v ∉ dead)

/-- The dead set of one `pruneForwardUseless` half-pass: non-special vertices
left white by the depth-first visit from `s` over the view `es`. -/
def deadForward (g : NGHolder) (es : List (ℕ × ℕ)) (s : ℕ) : List ℕ :=
  g.verts.filter fun v => decide (¬ is_special v) && decide (v ∉ reachSet es s)

/-- `pruneForwardUseless`: remove the vertices unreachable from `s` in the
graph view `es` (forward, or reversed for the backward half); reports whether
anything was removed. -/
def pruneForwardUseless (g : NGHolder) (es : List (ℕ × ℕ)) (s : ℕ) :
    NGHolder × Bool :=
  let dead := deadForward g es s
  if dead.isEmpty then (g, false) else (remove_vertices dead g, true)

/-- `pruneUseless`: forward half-pass from `start`, then backward half-pass
from `acceptEod` over the reversed view; the boolean is `work_done`. -/
def pruneUseless (g : NGHolder) : NGHolder × Bool :=
  let r1 := pruneForwardUseless g g.edges NODE_START
  let r2 := pruneForwardUseless r1.1 (r1.1.edges.map Prod.swap) NODE_ACCEPT_EOD
  (r2.1, r1.2 || r2.2)

/-- Vertex/edge renumbering is performed by `pruneUseless` exactly when
`work_done` holds (source: the pass returns before renumbering when neither
half removed anything). -/
def pruneUselessRenumbers (g : NGHolder) : Bool := (pruneUseless g).2

theorem deadForward_spec {g : NGHolder} {es : List (ℕ × ℕ)} {s v : ℕ} :
    v ∈ deadForward g es s ↔ v ∈ g.verts ∧ ¬ is_special v ∧ ¬ reachable es s v := by
  unfold deadForward
  rw [List.mem_filter]
  simp only [Bool.and_eq_true, decide_eq_true_eq, mem_reachSet]

theorem pruneForwardUseless_keeps {g : NGHolder} {es : List (ℕ × ℕ)} {s : ℕ} :
    ∀ v ∈ (pruneForwardUseless g es s).1.verts, v ∈ g.verts ∧
      (¬ is_special v → reachable es s v) := by
  intro v hv
  unfold pruneForwardUseless at hv
  by_cases hd : (deadForward g es s).isEmpty
  · rw [if_pos hd] at hv
    simp only at hv
    refine ⟨hv, ?_⟩
    intro hns
    by_contra hnr
    have : v ∈ deadForward g es s := deadForward_spec.mpr ⟨hv, hns, hnr⟩
    rw [List.isEmpty_iff] at hd
    rw [hd] at this
    exact absurd this (List.not_mem_nil v)
  · rw [if_neg hd] at hv
    simp only [remove_vertices, List.mem_filter, decide_eq_true_eq] at hv
    obtain ⟨hvg, hvd⟩ := hv
    refine ⟨hvg, fun hns => ?_⟩
    by_contra hnr
    exact hvd (deadForward_spec.mpr ⟨hvg, hns, hnr⟩)

theorem pruneForwardUseless_edges {g : NGHolder} {es : List (ℕ × ℕ)} {s : ℕ} :
    (pruneForwardUseless g es s).1.edges = g.edges ∨
    (pruneForwardUseless g es s).1.edges =
      g.edges.filter (keepEdge (deadForward g es s)) := by
  unfold pruneForwardUseless
  by_cases hd : (deadForward g es s).isEmpty
  · rw [if_pos hd]
    exact Or.inl rfl
  · rw [if_neg hd]
    exact Or.inr rfl

theorem pruneForwardUseless_self_reach (g : NGHolder) (s : ℕ) :
    ∀ v ∈ (pruneForwardUseless g g.edges s).1.verts, ¬ is_special v →
      reachable (pruneForwardUseless g g.edges s).1.edges s v := by
  intro v hv hns
  have hkeep := pruneForwardUseless_keeps v hv
  have hreach := hkeep.2 hns
  unfold pruneForwardUseless at hv ⊢
  by_cases hd : (deadForward g g.edges s).isEmpty
  · rw [if_pos hd] at hv ⊢
    exact hreach
  · rw [if_neg hd] at hv ⊢
    show reachable (g.edges.filter (keepEdge (deadForward g g.edges s))) s v
    apply reachable_filter_sandwich g.edges (deadForward g g.edges s) hreach
    intro u hsu _
    intro hu
    exact (deadForward_spec.mp hu).2.2 hsu

theorem pruneForwardUseless_rev_reach (g : NGHolder) (s : ℕ) :
    ∀ v ∈ (pruneForwardUseless g (g.edges.map Prod.swap) s).1.verts,
      ¬ is_special v →
      reachable ((pruneForwardUseless g (g.edges.map Prod.swap) s).1.edges.map
        Prod.swap) s v := by
  intro v hv hns
  have hkeep := pruneForwardUseless_keeps v hv
  have hreach := hkeep.2 hns
  unfold pruneForwardUseless at hv ⊢
  by_cases hd : (deadForward g (g.edges.map Prod.swap) s).isEmpty
  · rw [if_pos hd] at hv ⊢
    exact hreach
  · rw [if_neg hd] at hv ⊢
    show reachable ((g.edges.filter
      (keepEdge (deadForward g (g.edges.map Prod.swap) s))).map Prod.swap) s v
    rw [filter_map_swap]
    apply reachable_filter_sandwich (g.edges.map Prod.swap)
      (deadForward g (g.edges.map Prod.swap) s) hreach
    intro u hsu _
    intro hu
    exact (deadForward_spec.mp hu).2.2 hsu

/-- Claim C5: the prune-useless pass is idempotent — running it again
immediately after a run removes zero vertices and zero edges (the graph is
returned unchanged with `work_done = false`), and consequently the second run
performs no index renumbering, since renumbering happens only when something
was removed. -/
theorem pruneUseless_idempotent (g : NGHolder) :
    (pruneUseless (pruneUseless g).1).1 = (pruneUseless g).1 ∧
    (pruneUseless (pruneUseless g).1).2 = false ∧
    pruneUselessRenumbers (pruneUseless g).1 = false := by
  set ga := (pruneForwardUseless g g.edges NODE_START).1 with hga
  set D2 := deadForward ga (ga.edges.map Prod.swap) NODE_ACCEPT_EOD with hD2
  set g1 := (pruneForwardUseless ga (ga.edges.map Prod.swap) NODE_ACCEPT_EOD).1
    with hg1
  have hgu : (pruneUseless g).1 = g1 := rfl
  have hS1 : ∀ v ∈ ga.verts, ¬ is_special v → reachable ga.edges NODE_START v :=
    pruneForwardUseless_self_reach g NODE_START
  have hB : ∀ v ∈ g1.verts, ¬ is_special v →
      reachable (g1.edges.map Prod.swap) NODE_ACCEPT_EOD v :=
    pruneForwardUseless_rev_reach ga NODE_ACCEPT_EOD
  have hA : ∀ v ∈ g1.verts, ¬ is_special v → reachable g1.edges NODE_START v := by
    intro v hv hns
    rw [hg1] at hv
    unfold pruneForwardUseless at hv
    by_cases hd : D2.isEmpty
    · rw [← hD2, if_pos hd] at hv
      have hg1a : g1 = ga := by
        rw [hg1]
        unfold pruneForwardUseless
        rw [← hD2, if_pos hd]
      rw [hg1a]
      exact hS1 v hv hns
    · rw [← hD2, if_neg hd] at hv
      simp only [remove_vertices, List.mem_filter, decide_eq_true_eq] at hv
      obtain ⟨hvga, hvD2⟩ := hv
      have hreach := hS1 v hvga hns
      have hg1e : g1.edges = ga.edges.filter (keepEdge D2) := by
        rw [hg1]
        unfold pruneForwardUseless
        rw [← hD2, if_neg hd]
        rfl
      rw [hg1e]
      apply reachable_filter_sandwich ga.edges D2 hreach
      intro u hsu huv hu
      rw [hD2] at hu
      obtain ⟨huga, hnsu, hnrev⟩ := deadForward_spec.mp hu
      -- v still reaches acceptEod in ga, so u (which reaches v) does too
      have hvrev : reachable (ga.edges.map Prod.swap) NODE_ACCEPT_EOD v := by
        by_contra hnv
        exact hvD2 (by
          rw [hD2]
          exact deadForward_spec.mpr ⟨hvga, hns, hnv⟩)
      exact hnrev (hvrev.trans (reachable_swap huv))
  have hd1 : deadForward g1 g1.edges NODE_START = [] := by
    apply List.filter_eq_nil_iff.mpr
    intro v hv
    simp only [Bool.and_eq_true, decide_eq_true_eq, not_and]
    intro hns
    simp only [mem_reachSet, not_not]
    exact hA v hv hns
  have hd2 : deadForward g1 (g1.edges.map Prod.swap) NODE_ACCEPT_EOD = [] := by
    apply List.filter_eq_nil_iff.mpr
    intro v hv
    simp only [Bool.and_eq_true, decide_eq_true_eq, not_and]
    intro hns
    simp only [mem_reachSet, not_not]
    exact hB v hv hns
  have hrun1 : pruneForwardUseless g1 g1.edges NODE_START = (g1, false) := by
    unfold pruneForwardUseless
    rw [hd1]
    rfl
  have hrun2 : pruneForwardUseless g1 (g1.edges.map Prod.swap) NODE_ACCEPT_EOD =
      (g1, false) := by
    unfold pruneForwardUseless
    rw [hd2]
    rfl
  have hfinal : pruneUseless g1 = (g1, false) := by
    unfold pruneUseless
    rw [hrun1]
    simp only
    rw [hrun2]
    rfl
  rw [hgu]
  unfold pruneUselessRenumbers
  rw [hfinal]
  exact ⟨rfl, rfl, rfl⟩

/-! ### Reports and the Highlander accept-edge pruning pass -/

/-- Modelled from the spec: report properties from `util/report.h` (outside
the source slice).  `ekey = none` stands for `INVALID_EKEY`; `hasBounds`
captures min/max offset constraints; `external_report` captures
`isExternalReport`. -/
structure Report where
  ekey : Option ℕ
  hasBounds : Bool
  external_report : Bool
deriving DecidableEq, Repr

/-- `isExternalReport`. -/
def isExternalReport (r : Report) : Bool := r.external_report

/-- Modelled from the spec: a simple exhaustible report fires at most once —
it has a valid exhaustion key, no offset bounds, and is externally visible. -/
def isSimpleExhaustible (r : Report) : Bool :=
  r.ekey.isSome && !r.hasBounds && r.external_report

/-- `is_any_accept`: index ACCEPT or ACCEPT_EOD. -/
def is_any_accept (v : ℕ) : Prop := v = NODE_ACCEPT ∨ v = NODE_ACCEPT_EOD

instance (v : ℕ) : Decidable (is_any_accept v) := by
  unfold is_any_accept; infer_instance

/-- Modelled from the spec: `all_reports(g)` (ng_reports.cpp, outside the
source slice) collects the reports of the vertices leading into `accept` and
`acceptEod`. -/
def all_reports (g : NGHolder) : List ℕ :=
  (g.preds NODE_ACCEPT ++ g.preds NODE_ACCEPT_EOD).flatMap g.vreports

/-- `remove_edges`: delete the listed edges. -/
def remove_edges (dead : List (ℕ × ℕ)) (g : NGHolder) : NGHolder :=
  { g with edges := g.edges.filter fun e => decide (e ∉ dead) }

/-- `pruneHighlanderAccepts`: the safety precondition — every report in the
graph is externally-visible and exhaustible with no bounds — is checked
before anything is mutated; when it fails the pass returns at once.
Otherwise the non-accept out-edges of accept predecessors are removed and the
graph is re-pruned. -/
def pruneHighlanderAccepts (g : NGHolder) (rm : ℕ → Report) : NGHolder :=
  if (all_reports g).any (fun rid =>
      (rm rid).ekey.isNone || (rm rid).hasBounds || !isExternalReport (rm rid)) then
    g
  else
    let dead := g.edges.filter fun e =>
      decide (e.1 ∈ g.preds NODE_ACCEPT) && decide (¬ is_special e.1) &&
        decide (¬ is_any_accept e.2)
    if dead.isEmpty then g
    else (pruneUseless (remove_edges dead g)).1

/-- Claim C6: when any report in the graph is not a simple exhaustible
external report without offset bounds, the Highlander accept-edge pruning
pass leaves the graph completely unchanged — no vertex, edge, report (or
index) is modified. -/
theorem pruneHighlanderAccepts_precondition_noop (g : NGHolder) (rm : ℕ → Report)
    (h : ∃ rid ∈ all_reports g, (rm rid).ekey = none ∨ (rm rid).hasBounds = true ∨
      isExternalReport (rm rid) = false) :
    pruneHighlanderAccepts g rm = g := by
  unfold pruneHighlanderAccepts
  rw [if_pos]
  rw [List.any_eq_true]
  obtain ⟨rid, hmem, hbad⟩ := h
  refine ⟨rid, hmem, ?_⟩
  rcases hbad with hb | hb | hb <;> simp [hb, Option.isNone_iff_eq_none]

/-- Witness for C6: a concrete graph whose single report has no exhaustion
key; the pass returns it unchanged. -/
theorem pruneHighlanderAccepts_precondition_noop_witness :
    pruneHighlanderAccepts ⟨[0, 1, 2, 3, 4], [(0, 4), (4, 2), (2, 3)], [(4, 9)], [], []⟩
      (fun _ => ⟨none, false, true⟩) =
      ⟨[0, 1, 2, 3, 4], [(0, 4), (4, 2), (2, 3)], [(4, 9)], [], []⟩ :=
  pruneHighlanderAccepts_precondition_noop _ _ ⟨9, by decide, Or.inl rfl⟩

/-! ### Dominance-based report deduplication (ng_prune.cpp, ng_dominators) -/

/-- `isDominatedByReporter`: walk the immediate-dominator chain of `v`
upwards; report true at the first dominator with an edge to plain `accept`
carrying the same report.  (Dominators whose report edges lead only to
`acceptEod` do not qualify.)  The C loop terminates because the dominator map
is a tree; here a fuel argument bounds the walk. -/
def isDominatedByReporter (g : NGHolder) (dom : ℕ → Option ℕ) :
    ℕ → ℕ → ℕ → Bool
  | 0, _, _ => false
  | fuel + 1, v, report_id =>
    match dom v with
    | none => false
    | some u =>
      if g.hasEdge u NODE_ACCEPT ∧ report_id ∈ g.vreports u then true
      else isDominatedByReporter g dom fuel u report_id

/-- `u` strictly dominates `v`: `u` is a proper ancestor of `v` in the
immediate-dominator tree `dom`. -/
inductive domAncestor (dom : ℕ → Option ℕ) : ℕ → ℕ → Prop where
  | imm {v u : ℕ} : dom v = some u → domAncestor dom u v
  | up {v w u : ℕ} : dom v = some w → domAncestor dom u w → domAncestor dom u v

/-- The reporter vertices the pass considers: predecessors of `accept` or
`acceptEod` carrying at least one simple exhaustible report, ordered by
index without duplicates. -/
def reporters (g : NGHolder) (rm : ℕ → Report) : List ℕ :=
  ((((g.preds NODE_ACCEPT).filter fun v =>
      (g.vreports v).any fun r => isSimpleExhaustible (rm r)) ++
    ((g.preds NODE_ACCEPT_EOD).filter fun v =>
      (g.vreports v).any fun r => isSimpleExhaustible (rm r))).dedup).insertionSort (· ≤ ·)

/-- One reporter's report loop: each simple exhaustible report of `v` that is
dominated by a reporter (checked against the current graph) is erased, one at
a time as in the source. -/
def eraseDominatedReports (rm : ℕ → Report) (dom : ℕ → Option ℕ) (fuel v : ℕ) :
    List ℕ → NGHolder → NGHolder
  | [], acc => acc
  | r :: rest, acc =>
    let acc' :=
      if isSimpleExhaustible (rm r) && isDominatedByReporter acc dom fuel v r then
        { acc with reports := acc.reports.filter fun p =>
            !(decide (p.1 = v) && decide (p.2 = r)) }
      else acc
    eraseDominatedReports rm dom fuel v rest acc'

/-- Per-reporter step of the first loop: erase dominated reports; when none
remain, drop the vertex's edges to both accepts and record a modification. -/
def pruneDominatedVertexStep (rm : ℕ → Report) (dom : ℕ → Option ℕ) (fuel : ℕ)
    (st : NGHolder × Bool) (v : ℕ) : NGHolder × Bool :=
  let acc1 := eraseDominatedReports rm dom fuel v (st.1.vreports v) st.1
  if (acc1.vreports v).isEmpty then
    ({ acc1 with edges := acc1.edges.filter fun e =>
        !(decide (e.1 = v) && (decide (e.2 = NODE_ACCEPT) ||
          decide (e.2 = NODE_ACCEPT_EOD))) }, true)
  else (acc1, st.2)

/-- `hasOnlySelfLoopAndExhaustibleAccepts`: self-loop, out-edges only to the
vertex itself and plain `accept`, and only simple exhaustible reports. -/
def hasOnlySelfLoopAndExhaustibleAccepts (g : NGHolder) (rm : ℕ → Report)
    (v : ℕ) : Prop :=
  g.hasEdge v v ∧ (∀ w ∈ g.succs v, w = v ∨ w = NODE_ACCEPT) ∧
  (∀ r ∈ g.vreports v, isSimpleExhaustible (rm r) = true)

instance (g : NGHolder) (rm : ℕ → Report) (v : ℕ) :
    Decidable (hasOnlySelfLoopAndExhaustibleAccepts g rm v) := by
  unfold hasOnlySelfLoopAndExhaustibleAccepts; infer_instance

/-- Per-reporter step of the second loop: delete a now-redundant self-loop. -/
def selfLoopStep (rm : ℕ → Report) (st : NGHolder × Bool) (v : ℕ) :
    NGHolder × Bool :=
  if hasOnlySelfLoopAndExhaustibleAccepts st.1 rm v then
    ({ st.1 with edges := st.1.edges.filter fun e =>
        !(decide (e.1 = v) && decide (e.2 = v)) }, true)
  else st

/-- `pruneHighlanderDominated`: report deduplication over the dominator tree
`dom` (computed by `findDominators`, a wrapper around the external
Lengauer-Tarjan implementation), followed by self-loop cleanup and, only when
edges were removed, a useless-vertex prune (plus edge renumbering). -/
def pruneHighlanderDominated (g : NGHolder) (rm : ℕ → Report)
    (dom : ℕ → Option ℕ) (fuel : ℕ) : NGHolder :=
  let reps := reporters g rm
  if reps.isEmpty then g
  else
    let st1 := reps.foldl (pruneDominatedVertexStep rm dom fuel) (g, false)
    let st2 := reps.foldl (selfLoopStep rm) st1
    if st2.2 = false then st2.1
    else (pruneUseless st2.1).1

theorem mem_vreports {g : NGHolder} {v r : ℕ} :
    r ∈ g.vreports v ↔ (v, r) ∈ g.reports := by
  unfold NGHolder.vreports
  rw [List.mem_map]
  constructor
  · rintro ⟨⟨a, b⟩, hab, hb⟩
    rw [List.mem_filter] at hab
    simp only [decide_eq_true_eq] at hab
    obtain ⟨hmem, hfst⟩ := hab
    simp only at hb hfst
    subst hfst
    subst hb
    exact hmem
  · intro h
    exact ⟨(v, r), List.mem_filter.mpr ⟨h, by simp⟩, rfl⟩

/-- `domAncestor` is transitive. -/
theorem domAncestor_trans {dom : ℕ → Option ℕ} {a b c : ℕ}
    (h1 : domAncestor dom a b) (h2 : domAncestor dom b c) :
    domAncestor dom a c := by
  induction h2 with
  | imm he => exact domAncestor.up he h1
  | up he _ ih => exact domAncestor.up he (ih h1)

/-- Strict dominator chains decrease any rank compatible with `dom`. -/
theorem domAncestor_rank_lt {dom : ℕ → Option ℕ} {rank : ℕ → ℕ}
    (hrank : ∀ v u, dom v = some u → rank u < rank v) {u v : ℕ}
    (h : domAncestor dom u v) : rank u < rank v := by
  induction h with
  | imm he => exact hrank _ _ he
  | up he _ ih => exact lt_trans ih (hrank _ _ he)

theorem isDominatedByReporter_ancestor {g : NGHolder} {dom : ℕ → Option ℕ} :
    ∀ {fuel v r : ℕ}, isDominatedByReporter g dom fuel v r = true →
      ∃ u, domAncestor dom u v ∧ g.hasEdge u NODE_ACCEPT ∧ r ∈ g.vreports u := by
  intro fuel
  induction fuel with
  | zero =>
    intro v r h
    exact absurd h (by unfold isDominatedByReporter; simp)
  | succ fuel ih =>
    intro v r h
    unfold isDominatedByReporter at h
    cases hdv : dom v with
    | none => rw [hdv] at h; exact absurd h (by simp)
    | some u =>
      rw [hdv] at h
      change (if g.hasEdge u NODE_ACCEPT ∧ r ∈ g.vreports u then true
        else isDominatedByReporter g dom fuel u r) = true at h
      by_cases hc : g.hasEdge u NODE_ACCEPT ∧ r ∈ g.vreports u
      · exact ⟨u, domAncestor.imm hdv, hc⟩
      · rw [if_neg hc] at h
        obtain ⟨w, hanc, hw⟩ := ih h
        exact ⟨w, domAncestor.up hdv hanc, hw⟩

theorem isDominatedByReporter_of_ancestor {g : NGHolder} {dom : ℕ → Option ℕ}
    {rank : ℕ → ℕ} (hrank : ∀ v u, dom v = some u → rank u < rank v)
    {u v r : ℕ} (hanc : domAncestor dom u v)
    (he : g.hasEdge u NODE_ACCEPT) (hr : r ∈ g.vreports u) :
    ∀ {fuel : ℕ}, rank v ≤ fuel → isDominatedByReporter g dom fuel v r = true := by
  induction hanc with
  | @imm v' u' hdv =>
    intro fuel hfuel
    have h1 : 1 ≤ fuel := by
      have := hrank _ _ hdv
      omega
    obtain ⟨f, rfl⟩ : ∃ f, fuel = f + 1 := ⟨fuel - 1, by omega⟩
    unfold isDominatedByReporter
    rw [hdv]
    change (if g.hasEdge u' NODE_ACCEPT ∧ r ∈ g.vreports u' then true
      else isDominatedByReporter g dom f u' r) = true
    rw [if_pos ⟨he, hr⟩]
  | @up v' w' u' hdv hanc' ih =>
    intro fuel hfuel
    have h1 : 1 ≤ fuel := by
      have := hrank _ _ hdv
      omega
    obtain ⟨f, rfl⟩ : ∃ f, fuel = f + 1 := ⟨fuel - 1, by omega⟩
    unfold isDominatedByReporter
    rw [hdv]
    change (if g.hasEdge w' NODE_ACCEPT ∧ r ∈ g.vreports w' then true
      else isDominatedByReporter g dom f w' r) = true
    by_cases hc : g.hasEdge w' NODE_ACCEPT ∧ r ∈ g.vreports w'
    · rw [if_pos hc]
    · rw [if_neg hc]
      apply ih he hr
      have := hrank _ _ hdv
      omega

theorem eraseDominatedReports_facts (rm : ℕ → Report) (dom : ℕ → Option ℕ)
    (fuel v : ℕ) (rids : List ℕ) :
    ∀ acc : NGHolder,
      (∀ p ∈ (eraseDominatedReports rm dom fuel v rids acc).reports,
        p ∈ acc.reports) ∧
      (eraseDominatedReports rm dom fuel v rids acc).edges = acc.edges ∧
      (eraseDominatedReports rm dom fuel v rids acc).verts = acc.verts := by
  induction rids with
  | nil => exact fun acc => ⟨fun p hp => hp, rfl, rfl⟩
  | cons r rest ih =>
    intro acc
    unfold eraseDominatedReports
    by_cases hc : (isSimpleExhaustible (rm r) &&
        isDominatedByReporter acc dom fuel v r) = true
    · rw [if_pos hc]
      refine ⟨fun p hp => ?_, (ih _).2.1, (ih _).2.2⟩
      have := (ih _).1 p hp
      simp only [List.mem_filter] at this
      exact this.1
    · rw [if_neg hc]
      exact ih acc

theorem eraseDominatedReports_removed (rm : ℕ → Report) (dom : ℕ → Option ℕ)
    (fuel v : ℕ) (rids : List ℕ) :
    ∀ acc p, p ∈ acc.reports →
      p ∉ (eraseDominatedReports rm dom fuel v rids acc).reports →
      p.1 = v ∧ isSimpleExhaustible (rm p.2) = true ∧
      ∃ acc' : NGHolder, (∀ q ∈ acc'.reports, q ∈ acc.reports) ∧
        acc'.edges = acc.edges ∧
        isDominatedByReporter acc' dom fuel v p.2 = true := by
  induction rids with
  | nil => exact fun acc p hp hnp => absurd hp hnp
  | cons r rest ih =>
    intro acc p hp hnp
    unfold eraseDominatedReports at hnp
    by_cases hc : (isSimpleExhaustible (rm r) &&
        isDominatedByReporter acc dom fuel v r) = true
    · rw [if_pos hc] at hnp
      by_cases hkeep : p ∈ (({ acc with reports := acc.reports.filter fun q =>
          !(decide (q.1 = v) && decide (q.2 = r)) } : NGHolder)).reports
      · obtain ⟨h1, h2, acc', ha1, ha2, ha3⟩ := ih _ p hkeep hnp
        refine ⟨h1, h2, acc', fun q hq => ?_, ha2, ha3⟩
        have := ha1 q hq
        simp only [List.mem_filter] at this
        exact this.1
      · -- p was erased by this step: p = (v, r) and the check held on acc
        have hpred : (!(decide (p.1 = v) && decide (p.2 = r))) = false := by
          by_contra hne
          apply hkeep
          rw [List.mem_filter]
          refine ⟨hp, ?_⟩
          revert hne
          cases !(decide (p.1 = v) && decide (p.2 = r)) <;> simp
        simp only [Bool.not_eq_false', Bool.and_eq_true, decide_eq_true_eq] at hpred
        rw [Bool.and_eq_true] at hc
        exact ⟨hpred.1, hpred.2 ▸ hc.1, acc, fun q hq => hq, rfl, hpred.2 ▸ hc.2⟩
    · rw [if_neg hc] at hnp
      exact ih acc p hp hnp

theorem pruneDominatedVertexStep_facts (rm : ℕ → Report) (dom : ℕ → Option ℕ)
    (fuel : ℕ) (st : NGHolder × Bool) (v : ℕ) :
    (∀ p ∈ (pruneDominatedVertexStep rm dom fuel st v).1.reports,
      p ∈ st.1.reports) ∧
    (∀ e ∈ (pruneDominatedVertexStep rm dom fuel st v).1.edges, e ∈ st.1.edges) ∧
    (pruneDominatedVertexStep rm dom fuel st v).1.verts = st.1.verts := by
  unfold pruneDominatedVertexStep
  have hf := eraseDominatedReports_facts rm dom fuel v (st.1.vreports v) st.1
  by_cases he : ((eraseDominatedReports rm dom fuel v (st.1.vreports v)
      st.1).vreports v).isEmpty
  · rw [if_pos he]
    refine ⟨hf.1, fun e hee => ?_, hf.2.2⟩
    simp only [List.mem_filter] at hee
    rw [← hf.2.1]
    exact hee.1
  · rw [if_neg he]
    exact ⟨hf.1, fun e hee => hf.2.1 ▸ hee, hf.2.2⟩

theorem phase1_fold_facts (rm : ℕ → Report) (dom : ℕ → Option ℕ) (fuel : ℕ)
    (reps : List ℕ) :
    ∀ st : NGHolder × Bool,
      (∀ p ∈ (reps.foldl (pruneDominatedVertexStep rm dom fuel) st).1.reports,
        p ∈ st.1.reports) ∧
      (∀ e ∈ (reps.foldl (pruneDominatedVertexStep rm dom fuel) st).1.edges,
        e ∈ st.1.edges) ∧
      (reps.foldl (pruneDominatedVertexStep rm dom fuel) st).1.verts = st.1.verts := by
  induction reps with
  | nil => exact fun st => ⟨fun p hp => hp, fun e he => he, rfl⟩
  | cons v rest ih =>
    intro st
    rw [List.foldl_cons]
    have h1 := pruneDominatedVertexStep_facts rm dom fuel st v
    have h2 := ih (pruneDominatedVertexStep rm dom fuel st v)
    exact ⟨fun p hp => h1.1 p (h2.1 p hp), fun e he => h1.2.1 e (h2.2.1 e he),
      h2.2.2.trans h1.2.2⟩

theorem phase1_removed (rm : ℕ → Report) (dom : ℕ → Option ℕ) (fuel : ℕ)
    (reps : List ℕ) :
    ∀ st : NGHolder × Bool, ∀ p, p ∈ st.1.reports →
      p ∉ (reps.foldl (pruneDominatedVertexStep rm dom fuel) st).1.reports →
      ∃ v ∈ reps, p.1 = v ∧ isSimpleExhaustible (rm p.2) = true ∧
        ∃ acc' : NGHolder, (∀ q ∈ acc'.reports, q ∈ st.1.reports) ∧
          (∀ e ∈ acc'.edges, e ∈ st.1.edges) ∧
          isDominatedByReporter acc' dom fuel v p.2 = true := by
  induction reps with
  | nil => exact fun st p hp hnp => absurd hp hnp
  | cons v rest ih =>
    intro st p hp hnp
    rw [List.foldl_cons] at hnp
    by_cases hsurv : p ∈ (pruneDominatedVertexStep rm dom fuel st v).1.reports
    · obtain ⟨v', hv', h1, h2, acc', ha1, ha2, ha3⟩ := ih _ p hsurv hnp
      have hstep := pruneDominatedVertexStep_facts rm dom fuel st v
      exact ⟨v', List.mem_cons_of_mem v hv', h1, h2, acc',
        fun q hq => hstep.1 q (ha1 q hq), fun e he => hstep.2.1 e (ha2 e he), ha3⟩
    · -- removed while processing v: the report filter is the only remover
      unfold pruneDominatedVertexStep at hsurv
      have hrep : p ∉ (eraseDominatedReports rm dom fuel v (st.1.vreports v)
          st.1).reports := by
        intro hmem
        apply hsurv
        by_cases he : ((eraseDominatedReports rm dom fuel v (st.1.vreports v)
            st.1).vreports v).isEmpty
        · rw [if_pos he]
          exact hmem
        · rw [if_neg he]
          exact hmem
      obtain ⟨h1, h2, acc', ha1, ha2, ha3⟩ :=
        eraseDominatedReports_removed rm dom fuel v (st.1.vreports v) st.1 p hp hrep
      exact ⟨v, List.mem_cons_self v rest, h1, h2, acc', ha1, fun e he => ha2 ▸ he, ha3⟩

/-- Invariant for the redundancy argument: a topmost carrier of the report
keeps the report and its accept edge while the state shrinks within `g`. -/
def topInv (g : NGHolder) (ustar r0 : ℕ) (acc : NGHolder) : Prop :=
  (ustar, r0) ∈ acc.reports ∧ (ustar, NODE_ACCEPT) ∈ acc.edges ∧
  (∀ p ∈ acc.reports, p ∈ g.reports) ∧ (∀ e ∈ acc.edges, e ∈ g.edges)

theorem topInv_not_erased {g : NGHolder} {dom : ℕ → Option ℕ} {ustar r0 : ℕ}
    (hTop : ∀ w, domAncestor dom w ustar →
      ¬(g.hasEdge w NODE_ACCEPT ∧ r0 ∈ g.vreports w))
    {fuel x r : ℕ} {acc : NGHolder} (hinv : topInv g ustar r0 acc)
    (hchk : isDominatedByReporter acc dom fuel x r = true) :
    ¬(ustar = x ∧ r0 = r) := by
  rintro ⟨rfl, rfl⟩
  obtain ⟨w, hanc, hedge, hrep⟩ := isDominatedByReporter_ancestor hchk
  apply hTop w hanc
  constructor
  · exact hinv.2.2.2 _ hedge
  · rw [mem_vreports] at hrep ⊢
    exact hinv.2.2.1 _ hrep

theorem eraseDominatedReports_topInv {g : NGHolder} {dom : ℕ → Option ℕ}
    {ustar r0 : ℕ}
    (hTop : ∀ w, domAncestor dom w ustar →
      ¬(g.hasEdge w NODE_ACCEPT ∧ r0 ∈ g.vreports w))
    (rm : ℕ → Report) (fuel x : ℕ) (rids : List ℕ) :
    ∀ acc, topInv g ustar r0 acc →
      topInv g ustar r0 (eraseDominatedReports rm dom fuel x rids acc) := by
  induction rids with
  | nil => exact fun acc h => h
  | cons r rest ih =>
    intro acc hinv
    unfold eraseDominatedReports
    by_cases hc : (isSimpleExhaustible (rm r) &&
        isDominatedByReporter acc dom fuel x r) = true
    · rw [if_pos hc]
      apply ih
      rw [Bool.and_eq_true] at hc
      have hne := topInv_not_erased hTop hinv hc.2
      refine ⟨?_, hinv.2.1, ?_, hinv.2.2.2⟩
      · rw [List.mem_filter]
        refine ⟨hinv.1, ?_⟩
        simp only [Bool.not_eq_true', Bool.and_eq_false_iff, decide_eq_false_iff_not,
          decide_eq_true_eq]
        by_cases hux : ustar = x
        · exact Or.inr (fun hr => hne ⟨hux, hr⟩)
        · exact Or.inl hux
      · intro p hp
        rw [List.mem_filter] at hp
        exact hinv.2.2.1 p hp.1
    · rw [if_neg hc]
      exact ih acc hinv

theorem pruneDominatedVertexStep_topInv {g : NGHolder} {dom : ℕ → Option ℕ}
    {ustar r0 : ℕ}
    (hTop : ∀ w, domAncestor dom w ustar →
      ¬(g.hasEdge w NODE_ACCEPT ∧ r0 ∈ g.vreports w))
    (rm : ℕ → Report) (fuel : ℕ) (st : NGHolder × Bool) (x : ℕ)
    (hinv : topInv g ustar r0 st.1) :
    topInv g ustar r0 (pruneDominatedVertexStep rm dom fuel st x).1 := by
  have h1 := eraseDominatedReports_topInv hTop rm fuel x (st.1.vreports x) st.1 hinv
  unfold pruneDominatedVertexStep
  by_cases he : ((eraseDominatedReports rm dom fuel x (st.1.vreports x)
      st.1).vreports x).isEmpty
  · rw [if_pos he]
    have hxne : ustar ≠ x := by
      intro hux
      subst hux
      have : r0 ∈ (eraseDominatedReports rm dom fuel ustar
          (st.1.vreports ustar) st.1).vreports ustar :=
        mem_vreports.mpr h1.1
      rw [List.isEmpty_iff] at he
      rw [he] at this
      exact absurd this (List.not_mem_nil r0)
    refine ⟨h1.1, ?_, h1.2.2.1, ?_⟩
    · rw [List.mem_filter]
      refine ⟨h1.2.1, ?_⟩
      simp [hxne]
    · intro e hee
      rw [List.mem_filter] at hee
      exact h1.2.2.2 e hee.1
  · rw [if_neg he]
    exact h1

theorem phase1_fold_topInv {g : NGHolder} {dom : ℕ → Option ℕ} {ustar r0 : ℕ}
    (hTop : ∀ w, domAncestor dom w ustar →
      ¬(g.hasEdge w NODE_ACCEPT ∧ r0 ∈ g.vreports w))
    (rm : ℕ → Report) (fuel : ℕ) (reps : List ℕ) :
    ∀ st : NGHolder × Bool, topInv g ustar r0 st.1 →
      topInv g ustar r0 (reps.foldl (pruneDominatedVertexStep rm dom fuel) st).1 := by
  induction reps with
  | nil => exact fun st h => h
  | cons v rest ih =>
    intro st hinv
    rw [List.foldl_cons]
    exact ih _ (pruneDominatedVertexStep_topInv hTop rm fuel st v hinv)

theorem eraseDominatedReports_keeps_other (rm : ℕ → Report) (dom : ℕ → Option ℕ)
    (fuel x v r : ℕ) (hne : x ≠ v) (rids : List ℕ) :
    ∀ acc : NGHolder, (v, r) ∈ acc.reports →
      (v, r) ∈ (eraseDominatedReports rm dom fuel x rids acc).reports := by
  induction rids with
  | nil => exact fun acc h => h
  | cons r' rest ih =>
    intro acc hmem
    unfold eraseDominatedReports
    by_cases hc : (isSimpleExhaustible (rm r') &&
        isDominatedByReporter acc dom fuel x r') = true
    · rw [if_pos hc]
      apply ih
      rw [List.mem_filter]
      refine ⟨hmem, ?_⟩
      simp only [Bool.not_eq_true', Bool.and_eq_false_iff, decide_eq_false_iff_not,
        decide_eq_true_eq]
      exact Or.inl (fun h => hne h.symm)
    · rw [if_neg hc]
      exact ih acc hmem

theorem vertexStep_keeps_other (rm : ℕ → Report) (dom : ℕ → Option ℕ)
    (fuel : ℕ) (st : NGHolder × Bool) (x v r : ℕ) (hne : x ≠ v)
    (hmem : (v, r) ∈ st.1.reports) :
    (v, r) ∈ (pruneDominatedVertexStep rm dom fuel st x).1.reports := by
  have h1 := eraseDominatedReports_keeps_other rm dom fuel x v r hne
    (st.1.vreports x) st.1 hmem
  unfold pruneDominatedVertexStep
  by_cases he : ((eraseDominatedReports rm dom fuel x (st.1.vreports x)
      st.1).vreports x).isEmpty
  · rw [if_pos he]
    exact h1
  · rw [if_neg he]
    exact h1

theorem eraseDominatedReports_never_adds (rm : ℕ → Report) (dom : ℕ → Option ℕ)
    (fuel x : ℕ) (rids : List ℕ) (acc : NGHolder) {p : ℕ × ℕ}
    (h : p ∉ acc.reports) :
    p ∉ (eraseDominatedReports rm dom fuel x rids acc).reports :=
  fun hmem => h ((eraseDominatedReports_facts rm dom fuel x rids acc).1 p hmem)

theorem erase_removes_dominated {g : NGHolder} {dom : ℕ → Option ℕ}
    {rank : ℕ → ℕ} (hrank : ∀ v u, dom v = some u → rank u < rank v)
    {ustar r0 v : ℕ}
    (hTop : ∀ w, domAncestor dom w ustar →
      ¬(g.hasEdge w NODE_ACCEPT ∧ r0 ∈ g.vreports w))
    (hanc : domAncestor dom ustar v)
    (rm : ℕ → Report) {fuel : ℕ} (hfuel : rank v ≤ fuel)
    (hexh : isSimpleExhaustible (rm r0) = true) :
    ∀ (rids : List ℕ) (acc : NGHolder), topInv g ustar r0 acc → r0 ∈ rids →
      (v, r0) ∉ (eraseDominatedReports rm dom fuel v rids acc).reports := by
  intro rids
  induction rids with
  | nil =>
    intro acc _ hmem
    exact absurd hmem (List.not_mem_nil r0)
  | cons r rest ih =>
    intro acc hinv hmem
    by_cases hr : r = r0
    · subst hr
      -- the check succeeds against the current state via the topmost carrier
      have hchk : isDominatedByReporter acc dom fuel v r = true := by
        apply isDominatedByReporter_of_ancestor hrank hanc _ _ hfuel
        · exact hinv.2.1
        · exact mem_vreports.mpr hinv.1
      unfold eraseDominatedReports
      rw [if_pos (by rw [hexh, hchk]; rfl)]
      apply eraseDominatedReports_never_adds
      rw [List.mem_filter]
      rintro ⟨-, hpred⟩
      simp at hpred
    · have hrest : r0 ∈ rest := by
        rcases List.mem_cons.mp hmem with h | h
        · exact absurd h.symm hr
        · exact h
      unfold eraseDominatedReports
      by_cases hc : (isSimpleExhaustible (rm r) &&
          isDominatedByReporter acc dom fuel v r) = true
      · rw [if_pos hc]
        apply ih _ _ hrest
        rw [Bool.and_eq_true] at hc
        have hne := topInv_not_erased hTop hinv hc.2
        refine ⟨?_, hinv.2.1, ?_, hinv.2.2.2⟩
        · rw [List.mem_filter]
          refine ⟨hinv.1, ?_⟩
          simp only [Bool.not_eq_true', Bool.and_eq_false_iff,
            decide_eq_false_iff_not, decide_eq_true_eq]
          by_cases hux : ustar = v
          · exact Or.inr (fun hrr => hne ⟨hux, hrr⟩)
          · exact Or.inl hux
        · intro p hp
          rw [List.mem_filter] at hp
          exact hinv.2.2.1 p hp.1
      · rw [if_neg hc]
        exact ih _ (by exact hinv) hrest

theorem selfLoopStep_reports (rm : ℕ → Report) (st : NGHolder × Bool) (v : ℕ) :
    (selfLoopStep rm st v).1.reports = st.1.reports := by
  unfold selfLoopStep
  by_cases hc : hasOnlySelfLoopAndExhaustibleAccepts st.1 rm v
  · rw [if_pos hc]
  · rw [if_neg hc]

theorem phase2_fold_reports (rm : ℕ → Report) (reps : List ℕ) :
    ∀ st : NGHolder × Bool,
      (reps.foldl (selfLoopStep rm) st).1.reports = st.1.reports := by
  induction reps with
  | nil => exact fun st => rfl
  | cons v rest ih =>
    intro st
    rw [List.foldl_cons, ih, selfLoopStep_reports]

theorem selfLoopStep_verts (rm : ℕ → Report) (st : NGHolder × Bool) (v : ℕ) :
    (selfLoopStep rm st v).1.verts = st.1.verts := by
  unfold selfLoopStep
  by_cases hc : hasOnlySelfLoopAndExhaustibleAccepts st.1 rm v
  · rw [if_pos hc]
  · rw [if_neg hc]

theorem phase2_fold_verts (rm : ℕ → Report) (reps : List ℕ) :
    ∀ st : NGHolder × Bool,
      (reps.foldl (selfLoopStep rm) st).1.verts = st.1.verts := by
  induction reps with
  | nil => exact fun st => rfl
  | cons v rest ih =>
    intro st
    rw [List.foldl_cons, ih, selfLoopStep_verts]

theorem remove_vertices_reports_kept {dead : List ℕ} {h : NGHolder} {v r : ℕ}
    (hv : v ∈ (remove_vertices dead h).verts) :
    ((v, r) ∈ (remove_vertices dead h).reports ↔ (v, r) ∈ h.reports) := by
  simp only [remove_vertices, List.mem_filter, decide_eq_true_eq] at hv ⊢
  exact ⟨fun hh => hh.1, fun hh => ⟨hh, hv.2⟩⟩

theorem pruneForwardUseless_reports_kept {h : NGHolder} {es : List (ℕ × ℕ)}
    {s v r : ℕ} (hv : v ∈ (pruneForwardUseless h es s).1.verts) :
    ((v, r) ∈ (pruneForwardUseless h es s).1.reports ↔ (v, r) ∈ h.reports) := by
  unfold pruneForwardUseless at hv ⊢
  by_cases hd : (deadForward h es s).isEmpty
  · rw [if_pos hd] at hv ⊢
  · rw [if_neg hd] at hv ⊢
    exact remove_vertices_reports_kept hv

theorem pruneForwardUseless_verts_sub {h : NGHolder} {es : List (ℕ × ℕ)}
    {s v : ℕ} (hv : v ∈ (pruneForwardUseless h es s).1.verts) : v ∈ h.verts :=
  (pruneForwardUseless_keeps v hv).1

theorem pruneUseless_reports_kept {h : NGHolder} {v r : ℕ}
    (hv : v ∈ (pruneUseless h).1.verts) :
    ((v, r) ∈ (pruneUseless h).1.reports ↔ (v, r) ∈ h.reports) := by
  unfold pruneUseless at hv ⊢
  simp only at hv ⊢
  rw [pruneForwardUseless_reports_kept hv]
  exact pruneForwardUseless_reports_kept (pruneForwardUseless_verts_sub hv)

theorem exists_topmost {g : NGHolder} {dom : ℕ → Option ℕ} {rank : ℕ → ℕ}
    (hrank : ∀ v u, dom v = some u → rank u < rank v) {r0 v : ℕ} :
    ∀ u0, domAncestor dom u0 v → g.hasEdge u0 NODE_ACCEPT → r0 ∈ g.vreports u0 →
      ∃ u, domAncestor dom u v ∧ g.hasEdge u NODE_ACCEPT ∧ r0 ∈ g.vreports u ∧
        ∀ w, domAncestor dom w u →
          ¬(g.hasEdge w NODE_ACCEPT ∧ r0 ∈ g.vreports w) := by
  have key : ∀ n u0, rank u0 = n → domAncestor dom u0 v →
      g.hasEdge u0 NODE_ACCEPT → r0 ∈ g.vreports u0 →
      ∃ u, domAncestor dom u v ∧ g.hasEdge u NODE_ACCEPT ∧ r0 ∈ g.vreports u ∧
        ∀ w, domAncestor dom w u →
          ¬(g.hasEdge w NODE_ACCEPT ∧ r0 ∈ g.vreports w) := by
    intro n
    induction n using Nat.strong_induction_on with
    | _ n ih =>
      intro u0 hn hanc hedge hrep
      by_cases hex : ∃ w, domAncestor dom w u0 ∧ g.hasEdge w NODE_ACCEPT ∧
          r0 ∈ g.vreports w
      · obtain ⟨w, hw1, hw2, hw3⟩ := hex
        exact ih (rank w) (hn ▸ domAncestor_rank_lt hrank hw1) w rfl
          (domAncestor_trans hw1 hanc) hw2 hw3
      · exact ⟨u0, hanc, hedge, hrep, fun w hw hcon => hex ⟨w, hw, hcon.1, hcon.2⟩⟩
  exact fun u0 h1 h2 h3 => key (rank u0) u0 rfl h1 h2 h3

theorem phase1_removes_dominated {g : NGHolder} {dom : ℕ → Option ℕ}
    {rank : ℕ → ℕ} (hrank : ∀ v u, dom v = some u → rank u < rank v)
    {ustar r0 v : ℕ}
    (hTop : ∀ w, domAncestor dom w ustar →
      ¬(g.hasEdge w NODE_ACCEPT ∧ r0 ∈ g.vreports w))
    (hanc : domAncestor dom ustar v)
    (rm : ℕ → Report) {fuel : ℕ} (hfuel : rank v ≤ fuel)
    (hexh : isSimpleExhaustible (rm r0) = true) :
    ∀ (reps : List ℕ), v ∈ reps →
      ∀ st : NGHolder × Bool, topInv g ustar r0 st.1 → (v, r0) ∈ st.1.reports →
        (v, r0) ∉ (reps.foldl (pruneDominatedVertexStep rm dom fuel) st).1.reports := by
  intro reps
  induction reps with
  | nil => exact fun h => absurd h (List.not_mem_nil v)
  | cons x rest ih =>
    intro hv st hinv hmem
    rw [List.foldl_cons]
    by_cases hxv : x = v
    · subst hxv
      -- processing v: the report is erased at this turn and never re-added
      have hrid : r0 ∈ st.1.vreports x := mem_vreports.mpr hmem
      have hstep : (x, r0) ∉ (pruneDominatedVertexStep rm dom fuel st x).1.reports := by
        have hrm := erase_removes_dominated hrank hTop hanc rm hfuel hexh
          (st.1.vreports x) st.1 hinv hrid
        unfold pruneDominatedVertexStep
        by_cases he : ((eraseDominatedReports rm dom fuel x (st.1.vreports x)
            st.1).vreports x).isEmpty
        · rw [if_pos he]
          intro hx
          exact hrm hx
        · rw [if_neg he]
          exact hrm
      intro hfin
      exact hstep ((phase1_fold_facts rm dom fuel rest _).1 _ hfin)
    · have hvrest : v ∈ rest := by
        rcases List.mem_cons.mp hv with h | h
        · exact absurd h.symm hxv
        · exact h
      exact ih hvrest _ (pruneDominatedVertexStep_topInv hTop rm fuel st x hinv)
        (vertexStep_keeps_other rm dom fuel st x v r0 hxv hmem)

/-- Claim C7 (amended): in the dominance-based deduplication pass, a report
is removed from a surviving vertex exactly when the report is simple
exhaustible, the vertex is one of the pass's reporter vertices, and some
vertex strictly dominating it (in the immediate-dominator tree) carries the
same report with an edge to the plain accept vertex; in particular a
dominating vertex whose report edges lead only to accept-at-end-of-data never
causes removal.  The dominator map `dom` (produced by the external
Lengauer-Tarjan wrapper `findDominators`) is assumed tree-shaped via a rank
function, and `fuel` bounds the chain walk. -/
theorem pruneHighlanderDominated_removal_iff (g : NGHolder) (rm : ℕ → Report)
    (dom : ℕ → Option ℕ) (fuel : ℕ) (rank : ℕ → ℕ)
    (hrank : ∀ v u, dom v = some u → rank u < rank v)
    (hfuel : ∀ w, rank w ≤ fuel) :
    (∀ v r, (v, r) ∈ g.reports →
      v ∈ (pruneHighlanderDominated g rm dom fuel).verts →
      ((v, r) ∉ (pruneHighlanderDominated g rm dom fuel).reports ↔
        isSimpleExhaustible (rm r) = true ∧ v ∈ reporters g rm ∧
        ∃ u, domAncestor dom u v ∧ g.hasEdge u NODE_ACCEPT ∧ r ∈ g.vreports u)) ∧
    (∀ v r, (v, r) ∈ g.reports →
      v ∈ (pruneHighlanderDominated g rm dom fuel).verts →
      (∀ u, domAncestor dom u v → ¬ g.hasEdge u NODE_ACCEPT) →
      (v, r) ∈ (pruneHighlanderDominated g rm dom fuel).reports) := by
  have hmain : ∀ v r, (v, r) ∈ g.reports →
      v ∈ (pruneHighlanderDominated g rm dom fuel).verts →
      ((v, r) ∉ (pruneHighlanderDominated g rm dom fuel).reports ↔
        isSimpleExhaustible (rm r) = true ∧ v ∈ reporters g rm ∧
        ∃ u, domAncestor dom u v ∧ g.hasEdge u NODE_ACCEPT ∧ r ∈ g.vreports u) := by
    intro v r hvr hvin
    unfold pruneHighlanderDominated at hvin ⊢
    by_cases hre : (reporters g rm).isEmpty
    · rw [if_pos hre] at hvin ⊢
      constructor
      · intro hno
        exact absurd hvr hno
      · rintro ⟨-, hrep, -⟩
        rw [List.isEmpty_iff] at hre
        rw [hre] at hrep
        exact absurd hrep (List.not_mem_nil v)
    · rw [if_neg hre] at hvin ⊢
      set st1 := (reporters g rm).foldl (pruneDominatedVertexStep rm dom fuel)
        (g, false) with hst1
      set st2 := (reporters g rm).foldl (selfLoopStep rm) st1 with hst2
      have hrep2 : st2.1.reports = st1.1.reports := phase2_fold_reports rm _ st1
      -- membership in the final reports equals membership in the phase-1 result
      have hred : ((v, r) ∈ (if st2.2 = false then st2.1
          else (pruneUseless st2.1).1).reports ↔ (v, r) ∈ st1.1.reports) := by
        by_cases hmod : st2.2 = false
        · rw [if_pos hmod, hrep2]
        · rw [if_neg hmod]
          rw [if_neg hmod] at hvin
          rw [pruneUseless_reports_kept hvin, hrep2]
      rw [hred]
      constructor
      · intro hno
        obtain ⟨v', hv'reps, hfst, hexh, acc', ha1, ha2, ha3⟩ :=
          phase1_removed rm dom fuel (reporters g rm) (g, false) (v, r) hvr hno
        simp only at hfst
        subst hfst
        obtain ⟨u, hanc, hedge, hrep⟩ := isDominatedByReporter_ancestor ha3
        refine ⟨hexh, hv'reps, u, hanc, ?_, ?_⟩
        · exact ha2 _ hedge
        · rw [mem_vreports] at hrep ⊢
          exact ha1 _ hrep
      · rintro ⟨hexh, hreps, u0, hanc0, hedge0, hrep0⟩
        obtain ⟨ustar, hancs, hedges, hreps', hTop⟩ :=
          exists_topmost hrank u0 hanc0 hedge0 hrep0
        apply phase1_removes_dominated hrank hTop hancs rm (hfuel v) hexh
          (reporters g rm) hreps (g, false)
          ⟨mem_vreports.mp hreps', hedges, fun p hp => hp, fun e he => he⟩ hvr
  refine ⟨hmain, ?_⟩
  intro v r hvr hvin hnone
  by_contra hno
  obtain ⟨-, -, u, hanc, hedge, -⟩ := (hmain v r hvr hvin).mp hno
  exact hnone u hanc hedge

/-- Concrete graph for the dominance analysis: start → 5 → 4 → accept with
5 → accept as well, so 5 strictly dominates 4; both carry report 9. -/
def cexG : NGHolder :=
  ⟨[0, 1, 2, 3, 4, 5], [(0, 5), (5, 4), (5, 2), (4, 2), (2, 3)],
    [(4, 9), (4, 8), (5, 9)], [], []⟩

/-- Variant graph whose shared report 8 is simple exhaustible. -/
def cexG2 : NGHolder :=
  ⟨[0, 1, 2, 3, 4, 5], [(0, 5), (5, 4), (5, 2), (4, 2), (2, 3)],
    [(4, 8), (4, 7), (5, 8)], [], []⟩

/-- Report manager: report 9 lacks an exhaustion key; the rest are simple
exhaustible external reports. -/
def cexRm : ℕ → Report :=
  fun r => if r = 9 then ⟨none, false, true⟩ else ⟨some 1, false, true⟩

/-- Immediate-dominator map of `cexG`/`cexG2`: idom(4) = 5, idom(5) = 0. -/
def cexDom : ℕ → Option ℕ :=
  fun v => if v = 4 then some 5 else if v = 5 then some 0 else none

/-- Depth of each vertex in the dominator tree `cexDom`. -/
def cexRank : ℕ → ℕ := fun v => if v = 4 then 2 else if v = 5 then 1 else 0

theorem cexRank_lt : ∀ v u, cexDom v = some u → cexRank u < cexRank v := by
  intro v u h
  unfold cexDom at h
  unfold cexRank
  by_cases h4 : v = 4
  · rw [if_pos h4] at h
    obtain ⟨rfl⟩ : u = 5 := by injection h with h'; omega
    subst h4
    norm_num
  · rw [if_neg h4] at h
    by_cases h5 : v = 5
    · rw [if_pos h5] at h
      obtain ⟨rfl⟩ : u = 0 := by injection h with h'; omega
      subst h5
      norm_num
    · rw [if_neg h5] at h
      exact absurd h (by simp)

/-- Counterexample to C7 as stated: vertex 4 is strictly dominated by vertex
5, which carries the same report 9 and has an edge to plain accept — yet the
pass does not remove report 9 from vertex 4, because report 9 is not a simple
exhaustible report.  The claim's "exactly when" therefore fails on the
code. -/
theorem pruneHighlanderDominated_claim_counterexample :
    domAncestor cexDom 5 4 ∧ cexG.hasEdge 5 NODE_ACCEPT ∧
    (9 : ℕ) ∈ cexG.vreports 5 ∧ (4, 9) ∈ cexG.reports ∧
    4 ∈ (pruneHighlanderDominated cexG cexRm cexDom 2).verts ∧
    (4, 9) ∈ (pruneHighlanderDominated cexG cexRm cexDom 2).reports :=
  ⟨domAncestor.imm rfl, by decide, by decide, by decide, by decide, by decide⟩

/-- Witness for C7: on the variant graph the shared simple exhaustible report
8 is removed from the dominated vertex 4, via the amended characterization
applied at a concrete instance. -/
theorem pruneHighlanderDominated_removal_iff_witness :
    (4, 8) ∉ (pruneHighlanderDominated cexG2 cexRm cexDom 2).reports := by
  have h := pruneHighlanderDominated_removal_iff cexG2 cexRm cexDom 2 cexRank
    cexRank_lt (by
      intro w
      unfold cexRank
      by_cases h4 : w = 4
      · rw [if_pos h4]
      · rw [if_neg h4]
        by_cases h5 : w = 5
        · rw [if_pos h5]; norm_num
        · rw [if_neg h5]; norm_num)
  exact (h.1 4 8 (by decide) (by decide)).mpr
    ⟨by decide, by decide, 5, domAncestor.imm rfl, by decide, by decide⟩

/-! ### The no-orphaned-reports invariant (claim C8) -/

/-- Every vertex bearing a report has a path to `accept` or `acceptEod`. -/
def reportsConnected (g : NGHolder) : Prop :=
  ∀ p ∈ g.reports, reachable g.edges p.1 NODE_ACCEPT ∨
    reachable g.edges p.1 NODE_ACCEPT_EOD

/-- Structural invariant of NGHolder construction: reports sit on direct
predecessors of the accept vertices. -/
def reportsOnAcceptPreds (g : NGHolder) : Prop :=
  ∀ p ∈ g.reports, g.hasEdge p.1 NODE_ACCEPT ∨ g.hasEdge p.1 NODE_ACCEPT_EOD

/-- Reports sit on vertices of the graph. -/
def reportsOnVerts (g : NGHolder) : Prop := ∀ p ∈ g.reports, p.1 ∈ g.verts

instance (g : NGHolder) : Decidable (reportsOnAcceptPreds g) := by
  unfold reportsOnAcceptPreds; infer_instance

instance (g : NGHolder) : Decidable (reportsOnVerts g) := by
  unfold reportsOnVerts; infer_instance

/-- Weakening of `reportsOnAcceptPreds` preserved by every pass: each
report-bearing vertex is itself an accept or retains a direct accept edge. -/
def reportsAnchored (g : NGHolder) : Prop :=
  ∀ p ∈ g.reports, is_any_accept p.1 ∨ g.hasEdge p.1 NODE_ACCEPT ∨
    g.hasEdge p.1 NODE_ACCEPT_EOD

instance (g : NGHolder) : Decidable (reportsAnchored g) := by
  unfold reportsAnchored; infer_instance

theorem reportsOnAcceptPreds.anchored {g : NGHolder}
    (h : reportsOnAcceptPreds g) : reportsAnchored g := by
  intro p hp
  exact Or.inr (h p hp)

theorem reportsAnchored_connected {g : NGHolder}
    (h : reportsAnchored g) : reportsConnected g := by
  intro p hp
  rcases h p hp with hacc | he | he
  · rcases hacc with hv | hv
    · exact Or.inl ⟨0, by rw [hv]; exact PathLen.refl _⟩
    · exact Or.inr ⟨0, by rw [hv]; exact PathLen.refl _⟩
  · exact Or.inl ⟨1, (PathLen.refl p.1).tail he⟩
  · exact Or.inr ⟨1, (PathLen.refl p.1).tail he⟩

theorem remove_vertices_mem_reports {dead : List ℕ} {g : NGHolder} {p : ℕ × ℕ} :
    p ∈ (remove_vertices dead g).reports ↔ p ∈ g.reports ∧ p.1 ∉ dead := by
  simp only [remove_vertices, List.mem_filter, decide_eq_true_eq]

theorem remove_vertices_mem_verts {dead : List ℕ} {g : NGHolder} {v : ℕ} :
    v ∈ (remove_vertices dead g).verts ↔ v ∈ g.verts ∧ v ∉ dead := by
  simp only [remove_vertices, List.mem_filter, decide_eq_true_eq]

theorem remove_vertices_mem_edges {dead : List ℕ} {g : NGHolder} {e : ℕ × ℕ} :
    e ∈ (remove_vertices dead g).edges ↔ e ∈ g.edges ∧ e.1 ∉ dead ∧ e.2 ∉ dead := by
  simp only [remove_vertices, keepEdge, List.mem_filter, Bool.and_eq_true,
    decide_eq_true_eq]

theorem pruneForwardUseless_reports_sub {g : NGHolder} {es : List (ℕ × ℕ)}
    {s : ℕ} {p : ℕ × ℕ} (hp : p ∈ (pruneForwardUseless g es s).1.reports) :
    p ∈ g.reports := by
  unfold pruneForwardUseless at hp
  by_cases hd : (deadForward g es s).isEmpty
  · rw [if_pos hd] at hp
    exact hp
  · rw [if_neg hd] at hp
    exact (remove_vertices_mem_reports.mp hp).1

theorem pruneForwardUseless_report_vert {g : NGHolder} {es : List (ℕ × ℕ)}
    {s : ℕ} {p : ℕ × ℕ} (hp : p ∈ (pruneForwardUseless g es s).1.reports)
    (hv : p.1 ∈ g.verts) : p.1 ∈ (pruneForwardUseless g es s).1.verts := by
  unfold pruneForwardUseless at hp ⊢
  by_cases hd : (deadForward g es s).isEmpty
  · rw [if_pos hd] at hp ⊢
    exact hv
  · rw [if_neg hd] at hp ⊢
    exact remove_vertices_mem_verts.mpr ⟨hv, (remove_vertices_mem_reports.mp hp).2⟩

theorem pruneForwardUseless_special_edge {g : NGHolder} {es : List (ℕ × ℕ)}
    {s : ℕ} {e : ℕ × ℕ} (he : e ∈ g.edges) (h1 : is_special e.1)
    (h2 : is_special e.2) : e ∈ (pruneForwardUseless g es s).1.edges := by
  unfold pruneForwardUseless
  by_cases hd : (deadForward g es s).isEmpty
  · rw [if_pos hd]
    exact he
  · rw [if_neg hd]
    refine remove_vertices_mem_edges.mpr ⟨he, ?_, ?_⟩
    · intro hx
      exact (deadForward_spec.mp hx).2.1 h1
    · intro hx
      exact (deadForward_spec.mp hx).2.1 h2

theorem swap_swap_edges (es : List (ℕ × ℕ)) :
    (es.map Prod.swap).map Prod.swap = es := by
  rw [List.map_map]
  have : (Prod.swap ∘ Prod.swap : ℕ × ℕ → ℕ × ℕ) = id := by
    funext e
    simp
  rw [this, List.map_id]

/-- The prune-useless pass leaves no orphaned reports: every surviving report
sits on a vertex with a path to an accept (non-specials are backward
reachable from `acceptEod` by construction of the pass; specials keep their
direct accept edges). -/
theorem pruneUseless_connects (g : NGHolder) (hwf : reportsOnVerts g)
    (hreps : reportsAnchored g) : reportsConnected (pruneUseless g).1 := by
  have hg2 : (pruneUseless g).1 =
      (pruneForwardUseless (pruneForwardUseless g g.edges NODE_START).1
        ((pruneForwardUseless g g.edges NODE_START).1.edges.map Prod.swap)
        NODE_ACCEPT_EOD).1 := rfl
  rw [hg2]
  intro p hp
  obtain ⟨v, r⟩ := p
  have hp1 : (v, r) ∈ (pruneForwardUseless g g.edges NODE_START).1.reports :=
    pruneForwardUseless_reports_sub hp
  have hpg : (v, r) ∈ g.reports := pruneForwardUseless_reports_sub hp1
  by_cases hs : is_special v
  · -- special vertices: accept/acceptEod reach themselves; start vertices
    -- keep their direct accept edges
    by_cases hva : v = NODE_ACCEPT
    · subst hva
      exact Or.inl ⟨0, PathLen.refl _⟩
    · by_cases hve : v = NODE_ACCEPT_EOD
      · subst hve
        exact Or.inr ⟨0, PathLen.refl _⟩
      · rcases hreps (v, r) hpg with hacc | he | he
        · rcases hacc with h | h
          · exact absurd h hva
          · exact absurd h hve
        · refine Or.inl ⟨1, (PathLen.refl v).tail ?_⟩
          exact pruneForwardUseless_special_edge
            (pruneForwardUseless_special_edge he hs
              (by unfold is_special NODE_ACCEPT N_SPECIALS; omega)) hs
            (by unfold is_special NODE_ACCEPT N_SPECIALS; omega)
        · refine Or.inr ⟨1, (PathLen.refl v).tail ?_⟩
          exact pruneForwardUseless_special_edge
            (pruneForwardUseless_special_edge he hs
              (by unfold is_special NODE_ACCEPT_EOD N_SPECIALS; omega)) hs
            (by unfold is_special NODE_ACCEPT_EOD N_SPECIALS; omega)
  · -- non-special: backward reachability from acceptEod is established by the
    -- second half-pass
    have hv1 : v ∈ (pruneForwardUseless g g.edges NODE_START).1.verts :=
      pruneForwardUseless_report_vert hp1 (hwf (v, r) hpg)
    have hv2 := pruneForwardUseless_report_vert hp hv1
    have hrev := pruneForwardUseless_rev_reach
      (pruneForwardUseless g g.edges NODE_START).1 NODE_ACCEPT_EOD v hv2 hs
    have := reachable_swap hrev
    rw [swap_swap_edges] at this
    exact Or.inr this

theorem remove_vertices_wf {dead : List ℕ} {g : NGHolder}
    (hwf : reportsOnVerts g) : reportsOnVerts (remove_vertices dead g) := by
  intro p hp
  rw [remove_vertices_mem_reports] at hp
  exact remove_vertices_mem_verts.mpr ⟨hwf p hp.1, hp.2⟩

theorem remove_vertices_anchored {dead : List ℕ} {g : NGHolder}
    (hd : ∀ v ∈ dead, ¬ is_special v) (hreps : reportsAnchored g) :
    reportsAnchored (remove_vertices dead g) := by
  intro p hp
  rw [remove_vertices_mem_reports] at hp
  rcases hreps p hp.1 with hacc | he | he
  · exact Or.inl hacc
  · refine Or.inr (Or.inl (remove_vertices_mem_edges.mpr ⟨he, hp.2, ?_⟩))
    intro hx
    exact hd _ hx (by unfold is_special NODE_ACCEPT N_SPECIALS; omega)
  · refine Or.inr (Or.inr (remove_vertices_mem_edges.mpr ⟨he, hp.2, ?_⟩))
    intro hx
    exact hd _ hx (by unfold is_special NODE_ACCEPT_EOD N_SPECIALS; omega)

theorem deadForward_not_special {g : NGHolder} {es : List (ℕ × ℕ)} {s v : ℕ}
    (h : v ∈ deadForward g es s) : ¬ is_special v :=
  (deadForward_spec.mp h).2.1

theorem pruneForwardUseless_wf {g : NGHolder} {es : List (ℕ × ℕ)} {s : ℕ}
    (hwf : reportsOnVerts g) : reportsOnVerts (pruneForwardUseless g es s).1 := by
  unfold pruneForwardUseless
  by_cases hd : (deadForward g es s).isEmpty
  · rw [if_pos hd]
    exact hwf
  · rw [if_neg hd]
    exact remove_vertices_wf hwf

theorem pruneForwardUseless_anchored {g : NGHolder} {es : List (ℕ × ℕ)} {s : ℕ}
    (hreps : reportsAnchored g) : reportsAnchored (pruneForwardUseless g es s).1 := by
  unfold pruneForwardUseless
  by_cases hd : (deadForward g es s).isEmpty
  · rw [if_pos hd]
    exact hreps
  · rw [if_neg hd]
    exact remove_vertices_anchored (fun v hv => deadForward_not_special hv) hreps

theorem pruneUseless_wf {g : NGHolder} (hwf : reportsOnVerts g) :
    reportsOnVerts (pruneUseless g).1 := by
  have hg2 : (pruneUseless g).1 =
      (pruneForwardUseless (pruneForwardUseless g g.edges NODE_START).1
        ((pruneForwardUseless g g.edges NODE_START).1.edges.map Prod.swap)
        NODE_ACCEPT_EOD).1 := rfl
  rw [hg2]
  exact pruneForwardUseless_wf (pruneForwardUseless_wf hwf)

theorem pruneUseless_anchored {g : NGHolder} (hreps : reportsAnchored g) :
    reportsAnchored (pruneUseless g).1 := by
  have hg2 : (pruneUseless g).1 =
      (pruneForwardUseless (pruneForwardUseless g g.edges NODE_START).1
        ((pruneForwardUseless g g.edges NODE_START).1.edges.map Prod.swap)
        NODE_ACCEPT_EOD).1 := rfl
  rw [hg2]
  exact pruneForwardUseless_anchored (pruneForwardUseless_anchored hreps)

/-! ### The prune-unreachable pass (ng_prune.cpp) -/

/-- `pruneUnreachable`: remove the vertices from which `acceptEod` cannot be
reached.  Fast path when the accepts have no in-edges apart from
`accept → acceptEod`: every non-special vertex is dead.  Otherwise a
depth-first visit of the reverse graph from `acceptEod` marks the live
vertices. -/
def pruneUnreachable (g : NGHolder) : NGHolder :=
  if ¬ NGHolder.hasGreaterInDegree 1 NODE_ACCEPT_EOD g ∧
      ¬ NGHolder.hasGreaterInDegree 0 NODE_ACCEPT g ∧
      g.hasEdge NODE_ACCEPT NODE_ACCEPT_EOD then
    let dead := g.verts.filter fun v => decide (¬ is_special v)
    if dead.isEmpty then g else remove_vertices dead g
  else
    (pruneForwardUseless g (g.edges.map Prod.swap) NODE_ACCEPT_EOD).1

theorem pruneUnreachable_connects (g : NGHolder) (hwf : reportsOnVerts g)
    (hreps : reportsAnchored g) : reportsConnected (pruneUnreachable g) := by
  unfold pruneUnreachable
  by_cases htriv : ¬ NGHolder.hasGreaterInDegree 1 NODE_ACCEPT_EOD g ∧
      ¬ NGHolder.hasGreaterInDegree 0 NODE_ACCEPT g ∧
      g.hasEdge NODE_ACCEPT NODE_ACCEPT_EOD
  · rw [if_pos htriv]
    by_cases hd : (g.verts.filter fun v => decide (¬ is_special v)).isEmpty
    · rw [if_pos hd]
      exact reportsAnchored_connected hreps
    · rw [if_neg hd]
      have hdns : ∀ v ∈ g.verts.filter fun v => decide (¬ is_special v),
          ¬ is_special v := by
        intro v hv
        rw [List.mem_filter, decide_eq_true_eq] at hv
        exact hv.2
      exact reportsAnchored_connected (remove_vertices_anchored hdns hreps)
  · rw [if_neg htriv]
    intro p hp
    obtain ⟨v, r⟩ := p
    have hpg : (v, r) ∈ g.reports := pruneForwardUseless_reports_sub hp
    by_cases hs : is_special v
    · by_cases hva : v = NODE_ACCEPT
      · subst hva
        exact Or.inl ⟨0, PathLen.refl _⟩
      · by_cases hve : v = NODE_ACCEPT_EOD
        · subst hve
          exact Or.inr ⟨0, PathLen.refl _⟩
        · rcases hreps (v, r) hpg with hacc | he | he
          · rcases hacc with h | h
            · exact absurd h hva
            · exact absurd h hve
          · refine Or.inl ⟨1, (PathLen.refl v).tail ?_⟩
            exact pruneForwardUseless_special_edge he hs
              (by unfold is_special NODE_ACCEPT N_SPECIALS; omega)
          · refine Or.inr ⟨1, (PathLen.refl v).tail ?_⟩
            exact pruneForwardUseless_special_edge he hs
              (by unfold is_special NODE_ACCEPT_EOD N_SPECIALS; omega)
    · have hv1 := pruneForwardUseless_report_vert hp (hwf (v, r) hpg)
      have hrev := pruneForwardUseless_rev_reach g NODE_ACCEPT_EOD v hv1 hs
      have := reachable_swap hrev
      rw [swap_swap_edges] at this
      exact Or.inr this

/-! ### The prune-empty-vertices pass (ng_prune.cpp) -/

/-- `pruneEmptyVertices`: remove every non-special vertex whose character
reachability is empty, then re-run the useless-vertex prune. -/
def pruneEmptyVertices (g : NGHolder) : NGHolder :=
  let dead := g.verts.filter fun v =>
    decide (¬ is_special v) && (g.vreach v).isEmpty
  if dead.isEmpty then g
  else (pruneUseless (remove_vertices dead g)).1

theorem pruneEmptyVertices_connects (g : NGHolder) (hwf : reportsOnVerts g)
    (hreps : reportsAnchored g) : reportsConnected (pruneEmptyVertices g) := by
  unfold pruneEmptyVertices
  by_cases hd : (g.verts.filter fun v =>
      decide (¬ is_special v) && (g.vreach v).isEmpty).isEmpty
  · rw [if_pos hd]
    exact reportsAnchored_connected hreps
  · rw [if_neg hd]
    have hdns : ∀ v ∈ g.verts.filter fun v =>
        decide (¬ is_special v) && (g.vreach v).isEmpty, ¬ is_special v := by
      intro v hv
      rw [List.mem_filter, Bool.and_eq_true, decide_eq_true_eq] at hv
      exact hv.2.1
    exact pruneUseless_connects _ (remove_vertices_wf hwf)
      (remove_vertices_anchored hdns hreps)

theorem remove_edges_mem {dead : List (ℕ × ℕ)} {g : NGHolder} {e : ℕ × ℕ} :
    e ∈ (remove_edges dead g).edges ↔ e ∈ g.edges ∧ e ∉ dead := by
  unfold remove_edges
  simp only [List.mem_filter, decide_eq_true_eq]

theorem remove_edges_wf {dead : List (ℕ × ℕ)} {g : NGHolder}
    (hwf : reportsOnVerts g) : reportsOnVerts (remove_edges dead g) := hwf

theorem remove_edges_anchored {dead : List (ℕ × ℕ)} {g : NGHolder}
    (hd : ∀ e ∈ dead, ¬ is_any_accept e.2) (hreps : reportsAnchored g) :
    reportsAnchored (remove_edges dead g) := by
  intro p hp
  rcases hreps p hp with hacc | he | he
  · exact Or.inl hacc
  · refine Or.inr (Or.inl (remove_edges_mem.mpr ⟨he, fun hx => ?_⟩))
    exact hd _ hx (Or.inl rfl)
  · refine Or.inr (Or.inr (remove_edges_mem.mpr ⟨he, fun hx => ?_⟩))
    exact hd _ hx (Or.inr rfl)

theorem pruneHighlanderAccepts_connects (g : NGHolder) (rm : ℕ → Report)
    (hwf : reportsOnVerts g) (hreps : reportsAnchored g) :
    reportsConnected (pruneHighlanderAccepts g rm) := by
  unfold pruneHighlanderAccepts
  by_cases hpre : ((all_reports g).any (fun rid =>
      (rm rid).ekey.isNone || (rm rid).hasBounds || !isExternalReport (rm rid))) = true
  · rw [if_pos hpre]
    exact reportsAnchored_connected hreps
  · rw [if_neg hpre]
    by_cases hd : (g.edges.filter fun e =>
        decide (e.1 ∈ g.preds NODE_ACCEPT) && decide (¬ is_special e.1) &&
          decide (¬ is_any_accept e.2)).isEmpty
    · rw [if_pos hd]
      exact reportsAnchored_connected hreps
    · rw [if_neg hd]
      refine pruneUseless_connects _ (remove_edges_wf hwf)
        (remove_edges_anchored ?_ hreps)
      intro e he
      simp only [List.mem_filter, Bool.and_eq_true, decide_eq_true_eq] at he
      exact he.2.2

theorem pruneDominatedVertexStep_keeps_accept_edge (rm : ℕ → Report)
    (dom : ℕ → Option ℕ) (fuel : ℕ) (st : NGHolder × Bool) (x v r a : ℕ)
    (hrep : (v, r) ∈ (pruneDominatedVertexStep rm dom fuel st x).1.reports)
    (he : (v, a) ∈ st.1.edges) :
    (v, a) ∈ (pruneDominatedVertexStep rm dom fuel st x).1.edges := by
  have hf := eraseDominatedReports_facts rm dom fuel x (st.1.vreports x) st.1
  unfold pruneDominatedVertexStep at hrep ⊢
  by_cases hemp : ((eraseDominatedReports rm dom fuel x (st.1.vreports x)
      st.1).vreports x).isEmpty
  · rw [if_pos hemp] at hrep ⊢
    simp only at hrep ⊢
    rw [List.mem_filter]
    refine ⟨hf.2.1 ▸ he, ?_⟩
    by_cases hvx : v = x
    · exfalso
      subst hvx
      have : r ∈ (eraseDominatedReports rm dom fuel v (st.1.vreports v)
          st.1).vreports v := mem_vreports.mpr hrep
      rw [List.isEmpty_iff] at hemp
      rw [hemp] at this
      exact absurd this (List.not_mem_nil r)
    · simp [hvx]
  · rw [if_neg hemp] at hrep ⊢
    simp only at hrep ⊢
    exact hf.2.1 ▸ he

theorem phase1_keeps_accept_edge (rm : ℕ → Report) (dom : ℕ → Option ℕ)
    (fuel : ℕ) (reps : List ℕ) (v r a : ℕ) :
    ∀ st : NGHolder × Bool,
      (v, r) ∈ (reps.foldl (pruneDominatedVertexStep rm dom fuel) st).1.reports →
      (v, a) ∈ st.1.edges →
      (v, a) ∈ (reps.foldl (pruneDominatedVertexStep rm dom fuel) st).1.edges := by
  induction reps with
  | nil => exact fun st hrep he => he
  | cons x rest ih =>
    intro st hrep he
    rw [List.foldl_cons] at hrep ⊢
    have hrep' : (v, r) ∈ (pruneDominatedVertexStep rm dom fuel st x).1.reports :=
      (phase1_fold_facts rm dom fuel rest _).1 _ hrep
    exact ih _ hrep
      (pruneDominatedVertexStep_keeps_accept_edge rm dom fuel st x v r a hrep' he)

theorem phase1_anchored (rm : ℕ → Report) (dom : ℕ → Option ℕ) (fuel : ℕ)
    (reps : List ℕ) (st : NGHolder × Bool) (hreps : reportsAnchored st.1) :
    reportsAnchored (reps.foldl (pruneDominatedVertexStep rm dom fuel) st).1 := by
  intro p hp
  have hp0 : p ∈ st.1.reports := (phase1_fold_facts rm dom fuel reps st).1 p hp
  rcases hreps p hp0 with hacc | he | he
  · exact Or.inl hacc
  · exact Or.inr (Or.inl (phase1_keeps_accept_edge rm dom fuel reps p.1 p.2
      NODE_ACCEPT st hp he))
  · exact Or.inr (Or.inr (phase1_keeps_accept_edge rm dom fuel reps p.1 p.2
      NODE_ACCEPT_EOD st hp he))

theorem selfLoopStep_anchored (rm : ℕ → Report) (st : NGHolder × Bool) (x : ℕ)
    (hreps : reportsAnchored st.1) : reportsAnchored (selfLoopStep rm st x).1 := by
  intro p hp
  rw [selfLoopStep_reports] at hp
  rcases hreps p hp with hacc | he | he
  · exact Or.inl hacc
  · by_cases hvx : p.1 = NODE_ACCEPT
    · exact Or.inl (Or.inl hvx)
    · refine Or.inr (Or.inl ?_)
      unfold NGHolder.hasEdge at he ⊢
      unfold selfLoopStep
      by_cases hc : hasOnlySelfLoopAndExhaustibleAccepts st.1 rm x
      · rw [if_pos hc]
        simp only
        rw [List.mem_filter]
        refine ⟨he, ?_⟩
        by_cases hx2 : NODE_ACCEPT = x
        · have hp1 : p.1 ≠ x := fun h => hvx (h.trans hx2.symm)
          simp [hp1]
        · simp [hx2]
      · rw [if_neg hc]
        exact he
  · by_cases hvx : p.1 = NODE_ACCEPT_EOD
    · exact Or.inl (Or.inr hvx)
    · refine Or.inr (Or.inr ?_)
      unfold NGHolder.hasEdge at he ⊢
      unfold selfLoopStep
      by_cases hc : hasOnlySelfLoopAndExhaustibleAccepts st.1 rm x
      · rw [if_pos hc]
        simp only
        rw [List.mem_filter]
        refine ⟨he, ?_⟩
        by_cases hx2 : NODE_ACCEPT_EOD = x
        · have hp1 : p.1 ≠ x := fun h => hvx (h.trans hx2.symm)
          simp [hp1]
        · simp [hx2]
      · rw [if_neg hc]
        exact he

theorem phase2_anchored (rm : ℕ → Report) (reps : List ℕ) :
    ∀ st : NGHolder × Bool, reportsAnchored st.1 →
      reportsAnchored (reps.foldl (selfLoopStep rm) st).1 := by
  induction reps with
  | nil => exact fun st h => h
  | cons x rest ih =>
    intro st h
    rw [List.foldl_cons]
    exact ih _ (selfLoopStep_anchored rm st x h)

theorem pruneHighlanderDominated_connects (g : NGHolder) (rm : ℕ → Report)
    (dom : ℕ → Option ℕ) (fuel : ℕ) (hwf : reportsOnVerts g)
    (hreps : reportsAnchored g) :
    reportsConnected (pruneHighlanderDominated g rm dom fuel) := by
  unfold pruneHighlanderDominated
  by_cases hre : (reporters g rm).isEmpty
  · rw [if_pos hre]
    exact reportsAnchored_connected hreps
  · rw [if_neg hre]
    set st1 := (reporters g rm).foldl (pruneDominatedVertexStep rm dom fuel)
      (g, false) with hst1
    set st2 := (reporters g rm).foldl (selfLoopStep rm) st1 with hst2
    have hanch2 : reportsAnchored st2.1 := by
      rw [hst2]
      exact phase2_anchored rm (reporters g rm) st1
        (phase1_anchored rm dom fuel (reporters g rm) (g, false) hreps)
    have hwf2 : reportsOnVerts st2.1 := by
      intro p hp
      rw [hst2, phase2_fold_reports] at hp
      have hp0 : p ∈ g.reports := (phase1_fold_facts rm dom fuel
        (reporters g rm) (g, false)).1 p hp
      have hv : p.1 ∈ g.verts := hwf p hp0
      rw [hst2, phase2_fold_verts, hst1]
      rw [(phase1_fold_facts rm dom fuel (reporters g rm) (g, false)).2.2]
      exact hv
    by_cases hmod : st2.2 = false
    · rw [if_pos hmod]
      exact reportsAnchored_connected hanch2
    · rw [if_neg hmod]
      exact pruneUseless_connects st2.1 hwf2 hanch2

/-! ### The prune-report pass (ng_prune.cpp) -/

theorem mem_preds {g : NGHolder} {u v : ℕ} :
    u ∈ g.preds v ↔ (u, v) ∈ g.edges := by
  unfold NGHolder.preds
  rw [List.mem_map]
  constructor
  · rintro ⟨⟨a, b⟩, hab, ha⟩
    rw [List.mem_filter] at hab
    simp only [decide_eq_true_eq] at hab
    obtain ⟨hmem, hsnd⟩ := hab
    simp only at ha hsnd
    subst hsnd
    subst ha
    exact hmem
  · intro h
    exact ⟨(u, v), List.mem_filter.mpr ⟨h, by simp⟩, rfl⟩

/-- The vertices whose report sets the prune-report pass erases `report`
from: the predecessors of `accept`, and the predecessors of `acceptEod`
other than `accept` itself. -/
def pruneReportTargets (g : NGHolder) : List ℕ :=
  g.preds NODE_ACCEPT ++
    (g.preds NODE_ACCEPT_EOD).filter fun u => decide (u ≠ NODE_ACCEPT)

/-- Erasing `report` leaves `u` with an empty report set (the source's
`reports.erase(report); reports.empty()` check). -/
def reportEmptied (g : NGHolder) (report u : ℕ) : Bool :=
  decide (report ∈ g.vreports u) &&
    ((g.vreports u).filter fun r => decide (r ≠ report)).isEmpty

/-- `pruneReport`: erase the report from all vertices connected to accept;
edges into the accepts from vertices whose report set became empty are dead.
The second loop sees the report already erased for vertices feeding both
accepts, so only acceptEod-only predecessors can contribute dead edges
there. When nothing died, the (already erased) graph is returned; otherwise
the dead edges are removed and unreachable vertices pruned. -/
def pruneReport (g : NGHolder) (report : ℕ) : NGHolder :=
  let dead := g.edges.filter fun e =>
    (decide (e.2 = NODE_ACCEPT) && reportEmptied g report e.1) ||
    (decide (e.2 = NODE_ACCEPT_EOD) && decide (e.1 ≠ NODE_ACCEPT) &&
      decide (e.1 ∉ g.preds NODE_ACCEPT) && reportEmptied g report e.1)
  let g1 : NGHolder := { g with reports := g.reports.filter fun p =>
    !(decide (p.2 = report) && decide (p.1 ∈ pruneReportTargets g)) }
  if dead.isEmpty then g1
  else pruneUnreachable (remove_edges dead g1)

theorem reportEmptied_all {g : NGHolder} {report u : ℕ}
    (h : reportEmptied g report u = true) :
    ∀ r ∈ g.vreports u, r = report := by
  unfold reportEmptied at h
  rw [Bool.and_eq_true, List.isEmpty_iff, List.filter_eq_nil_iff] at h
  intro r hr
  by_contra hne
  exact absurd (decide_eq_true_eq.mpr hne) (by simpa using h.2 r hr)

theorem pruneReport_connects (g : NGHolder) (report : ℕ)
    (hwf : reportsOnVerts g) (hreps : reportsAnchored g) :
    reportsConnected (pruneReport g report) := by
  unfold pruneReport
  simp only
  set dead := g.edges.filter fun e =>
    (decide (e.2 = NODE_ACCEPT) && reportEmptied g report e.1) ||
    (decide (e.2 = NODE_ACCEPT_EOD) && decide (e.1 ≠ NODE_ACCEPT) &&
      decide (e.1 ∉ g.preds NODE_ACCEPT) && reportEmptied g report e.1) with hdead
  set g1 : NGHolder := { g with reports := g.reports.filter fun p =>
    !(decide (p.2 = report) && decide (p.1 ∈ pruneReportTargets g)) } with hg1
  have hg1rep : ∀ p ∈ g1.reports, p ∈ g.reports ∧
      ¬(p.2 = report ∧ p.1 ∈ pruneReportTargets g) := by
    intro p hp
    rw [hg1] at hp
    simp only [List.mem_filter, Bool.not_eq_eq_eq_not, Bool.not_true,
      Bool.and_eq_false_iff, decide_eq_false_iff_not] at hp
    refine ⟨hp.1, ?_⟩
    rintro ⟨h1, h2⟩
    rcases hp.2 with h | h
    · exact h h1
    · exact h h2
  have hwf1 : reportsOnVerts g1 := fun p hp => hwf p (hg1rep p hp).1
  have hanch1 : reportsAnchored g1 := by
    intro p hp
    obtain ⟨hpg, hpt⟩ := hg1rep p hp
    rcases hreps p hpg with hacc | he | he
    · exact Or.inl hacc
    · exact Or.inr (Or.inl he)
    · exact Or.inr (Or.inr he)
  -- an edge into an accept from a vertex that keeps a report is never dead
  have hdead_safe : ∀ p ∈ g1.reports, ∀ a, is_any_accept a →
      (p.1, a) ∈ g.edges → (p.1, a) ∉ dead := by
    intro p hp a ha he hin
    obtain ⟨hpg, hpt⟩ := hg1rep p hp
    rw [hdead, List.mem_filter, Bool.or_eq_true] at hin
    have hrp : p.2 ∈ g.vreports p.1 := mem_vreports.mpr hpg
    rcases hin.2 with hc | hc
    · rw [Bool.and_eq_true, decide_eq_true_eq] at hc
      -- a = accept and p.1's reports were emptied, so p.2 = report and p.1
      -- is an accept predecessor: the report cannot have survived
      have hall := reportEmptied_all hc.2
      have hpr : p.2 = report := hall p.2 hrp
      have hpa : p.1 ∈ g.preds NODE_ACCEPT := mem_preds.mpr (hc.1 ▸ he)
      exact hpt ⟨hpr, by
        unfold pruneReportTargets
        exact List.mem_append.mpr (Or.inl hpa)⟩
    · simp only [Bool.and_eq_true, decide_eq_true_eq] at hc
      obtain ⟨⟨⟨heod, hne⟩, hnp⟩, hemp⟩ := hc
      have hall := reportEmptied_all hemp
      have hpr : p.2 = report := hall p.2 hrp
      have hpe : p.1 ∈ g.preds NODE_ACCEPT_EOD := mem_preds.mpr (heod ▸ he)
      refine hpt ⟨hpr, ?_⟩
      unfold pruneReportTargets
      refine List.mem_append.mpr (Or.inr ?_)
      rw [List.mem_filter]
      exact ⟨hpe, by simpa using hne⟩
  by_cases hd : dead.isEmpty
  · rw [if_pos hd]
    exact reportsAnchored_connected hanch1
  · rw [if_neg hd]
    refine pruneUnreachable_connects _ (remove_edges_wf hwf1) ?_
    intro p hp
    rcases hanch1 p hp with hacc | he | he
    · exact Or.inl hacc
    · exact Or.inr (Or.inl (remove_edges_mem.mpr
        ⟨he, hdead_safe p hp NODE_ACCEPT (Or.inl rfl) he⟩))
    · exact Or.inr (Or.inr (remove_edges_mem.mpr
        ⟨he, hdead_safe p hp NODE_ACCEPT_EOD (Or.inr rfl) he⟩))

/-! ### Cyclic-path-redundancy removal (nfagraph/ng_width.cpp) -/

/-- Successors within a plain edge list. -/
def succsL (es : List (ℕ × ℕ)) (v : ℕ) : List ℕ :=
  (es.filter fun e => e.1 = v).map Prod.snd

/-- Predecessors within a plain edge list. -/
def predsL (es : List (ℕ × ℕ)) (v : ℕ) : List ℕ :=
  (es.filter fun e => e.2 = v).map Prod.fst

/-- The edge view the cyclic-redundancy analysis works on: the graph itself
for the forward pass, the `reverse_graph` adaptor for the reverse pass. -/
def viewEdges (g : NGHolder) (rev : Bool) : List (ℕ × ℕ) :=
  if rev then g.edges.map Prod.swap else g.edges

/-- `searchForward`: a depth-first visit from `w` over the view `es`,
terminated at the vertices of `s` (their out-edges are not explored, but the
vertices themselves are still discovered); it succeeds iff no discovered
vertex is special, carries assert flags, or has reach outside `reach`.  The
discovered set of the terminated visit is the set of vertices reachable from
`w` along edges whose source is outside `s`. -/
def searchForward (g : NGHolder) (es : List (ℕ × ℕ)) (reach : List ℕ)
    (s : List ℕ) (w : ℕ) : Bool :=
  decide (∀ x ∈ reachSet (es.filter fun e => decide (e.1 ∉ s)) w,
    ¬ is_special x ∧ x ∉ g.asserts ∧ g.vreach x ⊆ reach)

/-- One candidate edge `(u, w)` of the analysis: skip special targets,
common successors, and targets with reach outside the cyclic vertex's; if
the guarded search succeeds, delete the corresponding raw edge. -/
def cyclicWStep (rev : Bool) (u : ℕ) (reachv : List ℕ) (s : List ℕ)
    (st : NGHolder × Bool) (w : ℕ) : NGHolder × Bool :=
  if decide (¬ is_special w) && decide (w ∉ s) &&
      decide (st.1.vreach w ⊆ reachv) &&
      searchForward st.1 (viewEdges st.1 rev) reachv s w then
    let keep := fun e => decide (e ≠ (if rev then (w, u) else (u, w)))
    ({ st.1 with edges := st.1.edges.filter keep }, true)
  else st

/-- One in-neighbour `u` of the cyclic vertex `v`: skipped when it is `v`
itself or an accept; otherwise `s = succ(u) ∩ succ(v)` is computed and the
out-edges of `u` (snapshotted, as in the source) are examined in turn. -/
def cyclicUStep (rev : Bool) (v : ℕ) (reachv : List ℕ) (succv : List ℕ)
    (st : NGHolder × Bool) (u : ℕ) : NGHolder × Bool :=
  if u = v ∨ is_any_accept u then st
  else
    let s := (succsL (viewEdges st.1 rev) u).filter fun b => decide (b ∈ succv)
    (succsL (viewEdges st.1 rev) u).foldl (cyclicWStep rev u reachv s) st

/-- One vertex of the outer loop: only non-special vertices carrying a
self-loop in the current graph are examined. -/
def cyclicVStep (rev : Bool) (st : NGHolder × Bool) (v : ℕ) : NGHolder × Bool :=
  if decide (¬ is_special v) && decide ((v, v) ∈ viewEdges st.1 rev) then
    (predsL (viewEdges st.1 rev) v).foldl
      (cyclicUStep rev v (st.1.vreach v) (succsL (viewEdges st.1 rev) v)) st
  else st

/-- `cyclicPathRedundancyPass`: one orientation of the analysis; the boolean
is `did_stuff`. -/
def cyclicPathRedundancyPass (rev : Bool) (g : NGHolder) : NGHolder × Bool :=
  g.verts.foldl (cyclicVStep rev) (g, false)

/-- `removeCyclicPathRedundancy`: the forward pass, a useless-vertex prune
if it removed anything, then the reverse pass and another conditional
prune. -/
def removeCyclicPathRedundancy (g : NGHolder) : NGHolder :=
  let f := cyclicPathRedundancyPass false g
  let g1 := if f.2 then (pruneUseless f.1).1 else f.1
  let r := cyclicPathRedundancyPass true g1
  if r.2 then (pruneUseless r.1).1 else r.1

theorem is_any_accept_special {v : ℕ} (h : is_any_accept v) : is_special v := by
  rcases h with h | h <;> subst h <;> decide

theorem cyclicWStep_facts (rev : Bool) (u : ℕ) (reachv s : List ℕ)
    (st : NGHolder × Bool) (w : ℕ) (hguard : rev = true → ¬ is_any_accept u) :
    (cyclicWStep rev u reachv s st w).1.reports = st.1.reports ∧
    (cyclicWStep rev u reachv s st w).1.verts = st.1.verts ∧
    (∀ e ∈ (cyclicWStep rev u reachv s st w).1.edges, e ∈ st.1.edges) ∧
    (∀ e ∈ st.1.edges, is_any_accept e.2 →
      e ∈ (cyclicWStep rev u reachv s st w).1.edges) := by
  unfold cyclicWStep
  by_cases hc : (decide (¬ is_special w) && decide (w ∉ s) &&
      decide (st.1.vreach w ⊆ reachv) &&
      searchForward st.1 (viewEdges st.1 rev) reachv s w) = true
  · rw [if_pos hc]
    refine ⟨rfl, rfl, fun e he => (List.mem_filter.mp he).1, ?_⟩
    intro e he ha
    rw [List.mem_filter]
    refine ⟨he, ?_⟩
    rw [decide_eq_true_eq]
    intro heq
    cases rev with
    | true =>
      simp only [if_pos] at heq
      rw [heq] at ha
      exact hguard rfl ha
    | false =>
      simp only [Bool.false_eq_true, if_neg, if_false] at heq
      rw [heq] at ha
      simp only [Bool.and_eq_true, decide_eq_true_eq] at hc
      exact hc.1.1.1 (is_any_accept_special ha)
  · rw [if_neg hc]
    exact ⟨rfl, rfl, fun e he => he, fun e he _ => he⟩

theorem cyclicWfold_facts (rev : Bool) (u : ℕ) (reachv s : List ℕ)
    (ws : List ℕ) (hguard : rev = true → ¬ is_any_accept u) :
    ∀ st : NGHolder × Bool,
      (ws.foldl (cyclicWStep rev u reachv s) st).1.reports = st.1.reports ∧
      (ws.foldl (cyclicWStep rev u reachv s) st).1.verts = st.1.verts ∧
      (∀ e ∈ (ws.foldl (cyclicWStep rev u reachv s) st).1.edges,
        e ∈ st.1.edges) ∧
      (∀ e ∈ st.1.edges, is_any_accept e.2 →
        e ∈ (ws.foldl (cyclicWStep rev u reachv s) st).1.edges) := by
  induction ws with
  | nil => exact fun st => ⟨rfl, rfl, fun e he => he, fun e he _ => he⟩
  | cons w rest ih =>
    intro st
    rw [List.foldl_cons]
    have h1 := cyclicWStep_facts rev u reachv s st w hguard
    have h2 := ih (cyclicWStep rev u reachv s st w)
    exact ⟨h2.1.trans h1.1, h2.2.1.trans h1.2.1,
      fun e he => h1.2.2.1 e (h2.2.2.1 e he),
      fun e he ha => h2.2.2.2 e (h1.2.2.2 e he ha) ha⟩

theorem cyclicUStep_facts (rev : Bool) (v : ℕ) (reachv succv : List ℕ)
    (st : NGHolder × Bool) (u : ℕ) :
    (cyclicUStep rev v reachv succv st u).1.reports = st.1.reports ∧
    (cyclicUStep rev v reachv succv st u).1.verts = st.1.verts ∧
    (∀ e ∈ (cyclicUStep rev v reachv succv st u).1.edges, e ∈ st.1.edges) ∧
    (∀ e ∈ st.1.edges, is_any_accept e.2 →
      e ∈ (cyclicUStep rev v reachv succv st u).1.edges) := by
  unfold cyclicUStep
  by_cases hc : u = v ∨ is_any_accept u
  · rw [if_pos hc]
    exact ⟨rfl, rfl, fun e he => he, fun e he _ => he⟩
  · rw [if_neg hc]
    exact cyclicWfold_facts rev u reachv _ _ (fun _ => fun ha => hc (Or.inr ha)) st

theorem cyclicUfold_facts (rev : Bool) (v : ℕ) (reachv succv : List ℕ)
    (us : List ℕ) :
    ∀ st : NGHolder × Bool,
      (us.foldl (cyclicUStep rev v reachv succv) st).1.reports = st.1.reports ∧
      (us.foldl (cyclicUStep rev v reachv succv) st).1.verts = st.1.verts ∧
      (∀ e ∈ (us.foldl (cyclicUStep rev v reachv succv) st).1.edges,
        e ∈ st.1.edges) ∧
      (∀ e ∈ st.1.edges, is_any_accept e.2 →
        e ∈ (us.foldl (cyclicUStep rev v reachv succv) st).1.edges) := by
  induction us with
  | nil => exact fun st => ⟨rfl, rfl, fun e he => he, fun e he _ => he⟩
  | cons u rest ih =>
    intro st
    rw [List.foldl_cons]
    have h1 := cyclicUStep_facts rev v reachv succv st u
    have h2 := ih (cyclicUStep rev v reachv succv st u)
    exact ⟨h2.1.trans h1.1, h2.2.1.trans h1.2.1,
      fun e he => h1.2.2.1 e (h2.2.2.1 e he),
      fun e he ha => h2.2.2.2 e (h1.2.2.2 e he ha) ha⟩

theorem cyclicVStep_facts (rev : Bool) (st : NGHolder × Bool) (v : ℕ) :
    (cyclicVStep rev st v).1.reports = st.1.reports ∧
    (cyclicVStep rev st v).1.verts = st.1.verts ∧
    (∀ e ∈ (cyclicVStep rev st v).1.edges, e ∈ st.1.edges) ∧
    (∀ e ∈ st.1.edges, is_any_accept e.2 → e ∈ (cyclicVStep rev st v).1.edges) := by
  unfold cyclicVStep
  by_cases hc : (decide (¬ is_special v) &&
      decide ((v, v) ∈ viewEdges st.1 rev)) = true
  · rw [if_pos hc]
    exact cyclicUfold_facts rev v _ _ _ st
  · rw [if_neg hc]
    exact ⟨rfl, rfl, fun e he => he, fun e he _ => he⟩

theorem cyclicVfold_facts (rev : Bool) (vs : List ℕ) :
    ∀ st : NGHolder × Bool,
      (vs.foldl (cyclicVStep rev) st).1.reports = st.1.reports ∧
      (vs.foldl (cyclicVStep rev) st).1.verts = st.1.verts ∧
      (∀ e ∈ (vs.foldl (cyclicVStep rev) st).1.edges, e ∈ st.1.edges) ∧
      (∀ e ∈ st.1.edges, is_any_accept e.2 →
        e ∈ (vs.foldl (cyclicVStep rev) st).1.edges) := by
  induction vs with
  | nil => exact fun st => ⟨rfl, rfl, fun e he => he, fun e he _ => he⟩
  | cons v rest ih =>
    intro st
    rw [List.foldl_cons]
    have h1 := cyclicVStep_facts rev st v
    have h2 := ih (cyclicVStep rev st v)
    exact ⟨h2.1.trans h1.1, h2.2.1.trans h1.2.1,
      fun e he => h1.2.2.1 e (h2.2.2.1 e he),
      fun e he ha => h2.2.2.2 e (h1.2.2.2 e he ha) ha⟩

theorem cyclicPass_wf (rev : Bool) (g : NGHolder) (hwf : reportsOnVerts g) :
    reportsOnVerts (cyclicPathRedundancyPass rev g).1 := by
  intro p hp
  have hf := cyclicVfold_facts rev g.verts (g, false)
  rw [show (cyclicPathRedundancyPass rev g).1.reports =
    ((g.verts.foldl (cyclicVStep rev) (g, false)).1.reports) from rfl, hf.1] at hp
  rw [show (cyclicPathRedundancyPass rev g).1.verts =
    ((g.verts.foldl (cyclicVStep rev) (g, false)).1.verts) from rfl, hf.2.1]
  exact hwf p hp

theorem cyclicPass_anchored (rev : Bool) (g : NGHolder)
    (hreps : reportsAnchored g) :
    reportsAnchored (cyclicPathRedundancyPass rev g).1 := by
  intro p hp
  have hf := cyclicVfold_facts rev g.verts (g, false)
  rw [show (cyclicPathRedundancyPass rev g).1.reports =
    ((g.verts.foldl (cyclicVStep rev) (g, false)).1.reports) from rfl, hf.1] at hp
  rcases hreps p hp with hacc | he | he
  · exact Or.inl hacc
  · exact Or.inr (Or.inl (hf.2.2.2 _ he (Or.inl rfl)))
  · exact Or.inr (Or.inr (hf.2.2.2 _ he (Or.inr rfl)))

theorem cyclicHalf_anchored (rev : Bool) (g : NGHolder)
    (hreps : reportsAnchored g) :
    reportsAnchored (if (cyclicPathRedundancyPass rev g).2 then
      (pruneUseless (cyclicPathRedundancyPass rev g).1).1
      else (cyclicPathRedundancyPass rev g).1) := by
  by_cases hb : (cyclicPathRedundancyPass rev g).2
  · rw [if_pos hb]
    exact pruneUseless_anchored (cyclicPass_anchored rev g hreps)
  · rw [if_neg hb]
    exact cyclicPass_anchored rev g hreps

theorem removeCyclicPathRedundancy_connects (g : NGHolder)
    (hreps : reportsAnchored g) :
    reportsConnected (removeCyclicPathRedundancy g) :=
  reportsAnchored_connected
    (cyclicHalf_anchored true _ (cyclicHalf_anchored false g hreps))

/-- Claim C8: after any graph reduction pass completes — prune-unreachable,
prune-useless, prune-empty-vertices, Highlander accept-edge pruning,
dominance-based report deduplication, cyclic-path-redundancy removal, or
report pruning — every vertex that carries at least one report identifier
has a path to the accept vertex or to the accept-at-end-of-data vertex.
The input graph is assumed to satisfy the construction-time shape that the
sources maintain between passes: reports sit on vertices of the graph, and
only on direct predecessors of `accept`/`acceptEod` (the shape `clearReports`
establishes). -/
theorem reductionPasses_no_orphaned_reports (g : NGHolder)
    (hwf : reportsOnVerts g) (hreps : reportsOnAcceptPreds g) :
    reportsConnected (pruneUnreachable g) ∧
    reportsConnected (pruneUseless g).1 ∧
    reportsConnected (pruneEmptyVertices g) ∧
    (∀ rm : ℕ → Report, reportsConnected (pruneHighlanderAccepts g rm)) ∧
    (∀ (rm : ℕ → Report) (dom : ℕ → Option ℕ) (fuel : ℕ),
      reportsConnected (pruneHighlanderDominated g rm dom fuel)) ∧
    reportsConnected (removeCyclicPathRedundancy g) ∧
    (∀ report : ℕ, reportsConnected (pruneReport g report)) := by
  have ha := hreps.anchored
  exact ⟨pruneUnreachable_connects g hwf ha,
    pruneUseless_connects g hwf ha,
    pruneEmptyVertices_connects g hwf ha,
    fun rm => pruneHighlanderAccepts_connects g rm hwf ha,
    fun rm dom fuel => pruneHighlanderDominated_connects g rm dom fuel hwf ha,
    removeCyclicPathRedundancy_connects g ha,
    fun report => pruneReport_connects g report hwf ha⟩

/-- A concrete well-shaped graph (start → 4 → accept → acceptEod, report 7
on vertex 4) for the C8 witness. -/
def w8G : NGHolder :=
  ⟨[0, 1, 2, 3, 4], [(0, 4), (4, 2), (2, 3)], [(4, 7)], [(4, [97])], []⟩

/-- Witness for C8: the pass conclusions instantiated on `w8G`, whose
hypotheses hold by computation. -/
theorem reductionPasses_no_orphaned_reports_witness :
    reportsConnected (pruneUnreachable w8G) ∧
    reportsConnected (pruneUseless w8G).1 ∧
    reportsConnected (pruneEmptyVertices w8G) ∧
    (∀ rm : ℕ → Report, reportsConnected (pruneHighlanderAccepts w8G rm)) ∧
    (∀ (rm : ℕ → Report) (dom : ℕ → Option ℕ) (fuel : ℕ),
      reportsConnected (pruneHighlanderDominated w8G rm dom fuel)) ∧
    reportsConnected (removeCyclicPathRedundancy w8G) ∧
    (∀ report : ℕ, reportsConnected (pruneReport w8G report)) :=
  reductionPasses_no_orphaned_reports w8G (by decide) (by decide)

/-! ### Width analysis (nfagraph/ng_width.cpp) -/

/-- Modelled from the spec: the `depth` value type (util/depth.h, outside the
source slice) — a finite input length, the infinity used for unbounded
widths, or the unreachable sentinel (distinct from every finite value,
including zero). -/
inductive Depth where
  | finite (n : ℕ)
  | infinity
  | unreachable
deriving DecidableEq, Repr

/-- Minimum under the depth order `finite < infinity < unreachable`. -/
def Depth.dmin : Depth → Depth → Depth
  | Depth.unreachable, d => d
  | d, Depth.unreachable => d
  | Depth.infinity, d => d
  | d, Depth.infinity => d
  | Depth.finite a, Depth.finite b => Depth.finite (Nat.min a b)

/-- Maximum under the depth order for the values it is applied to. -/
def Depth.dmax : Depth → Depth → Depth
  | Depth.unreachable, _ => Depth.unreachable
  | _, Depth.unreachable => Depth.unreachable
  | Depth.infinity, _ => Depth.infinity
  | _, Depth.infinity => Depth.infinity
  | Depth.finite a, Depth.finite b => Depth.finite (Nat.max a b)

/-- `depth::is_reachable()`: anything but the unreachable sentinel. -/
def Depth.is_reachable : Depth → Bool
  | Depth.unreachable => false
  | _ => true

/-- `is_any_start`: index START or START_DOTSTAR. -/
def is_any_start (v : ℕ) : Prop := v = NODE_START ∨ v = NODE_START_DOTSTAR

instance (v : ℕ) : Decidable (is_any_start v) := by
  unfold is_any_start; infer_instance

/-- The default `SpecialEdgeFilter`: drop edges joining two start vertices
or joining two accept vertices. -/
def filteredEdges (g : NGHolder) : List (ℕ × ℕ) :=
  g.edges.filter fun e => decide (¬ ((is_any_start e.1 ∧ is_any_start e.2) ∨
    (is_any_accept e.1 ∧ is_any_accept e.2)))

/-- Modelled from the spec: `isLeafNode` (util/graph.h, outside the source
slice) — a vertex with no out-edges. -/
def isLeafNode (g : NGHolder) (v : ℕ) : Bool := (g.succs v).isEmpty

/-- `hasReachableCycle` (declared in ng_util.h, body outside the source
slice), modelled from its documentation: the graph has a cycle — a vertex on
a nontrivial closed walk — reachable from the given source vertex. -/
def hasReachableCycle (es : List (ℕ × ℕ)) (src : ℕ) : Prop :=
  ∃ v ∈ reachSet es src, ∃ e ∈ es, e.1 = v ∧ v ∈ reachSet es e.2

instance (es : List (ℕ × ℕ)) (src : ℕ) : Decidable (hasReachableCycle es src) := by
  unfold hasReachableCycle; infer_instance

/-- First index below the bound satisfying the predicate (the BFS distance
recording of `breadth_first_search`, read off the closure sequence). -/
def firstSat (p : ℕ → Bool) : ℕ → Option ℕ
  | 0 => none
  | n + 1 =>
    match firstSat p n with
    | some k => some k
    | none => if p n then some n else none

/-- Last index below the bound satisfying the predicate (the negated-weight
DAG shortest path distance, read off the exact-length path sequence). -/
def lastSat (p : ℕ → Bool) : ℕ → Option ℕ
  | 0 => none
  | n + 1 => if p n then some n else lastSat p n

theorem firstSat_eq_none {p : ℕ → Bool} :
    ∀ {n : ℕ}, firstSat p n = none → ∀ j < n, p j = false := by
  intro n
  induction n with
  | zero => intro _ j hj; omega
  | succ m ih =>
    intro h j hj
    unfold firstSat at h
    cases hm : firstSat p m with
    | some k' => rw [hm] at h; exact absurd h Option.noConfusion
    | none =>
      rw [hm] at h
      by_cases hp : p m = true
      · rw [if_pos hp] at h; exact absurd h Option.noConfusion
      · rw [if_neg hp] at h
        by_cases hjm : j < m
        · exact ih hm j hjm
        · have : j = m := by omega
          subst this
          simpa using hp

theorem firstSat_eq_some {p : ℕ → Bool} :
    ∀ {n k : ℕ}, firstSat p n = some k →
      k < n ∧ p k = true ∧ ∀ j < k, p j = false := by
  intro n
  induction n with
  | zero => intro k h; exact absurd h (by unfold firstSat; exact Option.noConfusion)
  | succ m ih =>
    intro k h
    unfold firstSat at h
    cases hm : firstSat p m with
    | some k2 =>
      rw [hm] at h
      obtain ⟨h1, h2, h3⟩ := ih hm
      cases h
      exact ⟨by omega, h2, h3⟩
    | none =>
      rw [hm] at h
      by_cases hp : p m = true
      · rw [if_pos hp] at h
        cases h
        exact ⟨by omega, hp, firstSat_eq_none hm⟩
      · rw [if_neg hp] at h
        exact absurd h Option.noConfusion

theorem lastSat_eq_some {p : ℕ → Bool} :
    ∀ {n k : ℕ}, lastSat p n = some k →
      k < n ∧ p k = true ∧ ∀ j, k < j → j < n → p j = false := by
  intro n
  induction n with
  | zero => intro k h; exact absurd h (by unfold lastSat; exact Option.noConfusion)
  | succ m ih =>
    intro k h
    unfold lastSat at h
    by_cases hp : p m = true
    · rw [if_pos hp] at h
      cases h
      exact ⟨by omega, hp, fun j hj1 hj2 => by omega⟩
    · rw [if_neg hp] at h
      obtain ⟨h1, h2, h3⟩ := ih h
      refine ⟨by omega, h2, fun j hj1 hj2 => ?_⟩
      by_cases hjm : j < m
      · exact h3 j hj1 hjm
      · have : j = m := by omega
        subst this
        simpa using hp

theorem lastSat_eq_none {p : ℕ → Bool} :
    ∀ {n : ℕ}, lastSat p n = none → ∀ j < n, p j = false := by
  intro n
  induction n with
  | zero => intro _ j hj; omega
  | succ m ih =>
    intro h j hj
    unfold lastSat at h
    by_cases hp : p m = true
    · rw [if_pos hp] at h; exact absurd h Option.noConfusion
    · rw [if_neg hp] at h
      by_cases hjm : j < m
      · exact ih h j hjm
      · have : j = m := by omega
        subst this
        simpa using hp

/-- The set of vertices reached by a path of exactly `k` steps. -/
def exactReach (es : List (ℕ × ℕ)) (src : ℕ) : ℕ → Finset ℕ
  | 0 => {src}
  | k + 1 => (exactReach es src k).biUnion (succsF es)

theorem pathLen_zero_inv {es : List (ℕ × ℕ)} {u v : ℕ}
    (hp : PathLen es u v 0) : u = v := by
  cases hp
  rfl

theorem pathLen_succ_inv {es : List (ℕ × ℕ)} {u v k : ℕ}
    (hp : PathLen es u v (k + 1)) : ∃ b, PathLen es u b k ∧ (b, v) ∈ es := by
  cases hp with
  | tail hp' he => exact ⟨_, hp', he⟩

theorem mem_exactReach {es : List (ℕ × ℕ)} {src : ℕ} :
    ∀ {k v : ℕ}, v ∈ exactReach es src k ↔ PathLen es src v k := by
  intro k
  induction k with
  | zero =>
    intro v
    unfold exactReach
    rw [Finset.mem_singleton]
    constructor
    · intro h
      rw [h]
      exact PathLen.refl src
    · intro hp
      exact (pathLen_zero_inv hp).symm
  | succ j ih =>
    intro v
    unfold exactReach
    rw [Finset.mem_biUnion]
    constructor
    · rintro ⟨b, hb, hv⟩
      exact (ih.mp hb).tail (mem_succsF.mp hv)
    · intro hp
      obtain ⟨b, hb, he⟩ := pathLen_succ_inv hp
      exact ⟨b, ih.mpr hb, mem_succsF.mpr he⟩

theorem pathLen_head_inv {es : List (ℕ × ℕ)} {src v : ℕ} :
    ∀ {k : ℕ}, PathLen es src v (k + 1) →
      ∃ w, (src, w) ∈ es ∧ PathLen es w v k := by
  intro k
  induction k generalizing v with
  | zero =>
    intro hp
    obtain ⟨b, hb, he⟩ := pathLen_succ_inv hp
    rw [← pathLen_zero_inv hb] at he
    exact ⟨v, he, PathLen.refl v⟩
  | succ j ih =>
    intro hp
    obtain ⟨b, hb, he⟩ := pathLen_succ_inv hp
    obtain ⟨w, hw, hp2⟩ := ih hb
    exact ⟨w, hw, hp2.tail he⟩

theorem PathLen.mono {es es' : List (ℕ × ℕ)} (hsub : ∀ e ∈ es, e ∈ es')
    {u v k : ℕ} (hp : PathLen es u v k) : PathLen es' u v k := by
  induction hp with
  | refl => exact PathLen.refl _
  | tail hp' he ih => exact ih.tail (hsub _ he)

theorem hasReachableCycle_mono {es es' : List (ℕ × ℕ)} {src : ℕ}
    (hsub : ∀ e ∈ es, e ∈ es') (h : hasReachableCycle es src) :
    hasReachableCycle es' src := by
  obtain ⟨v, hv, e, he, he1, hve⟩ := h
  rw [mem_reachSet] at hv hve
  refine ⟨v, ?_, e, hsub e he, he1, ?_⟩
  · rw [mem_reachSet]
    obtain ⟨k, hp⟩ := hv
    exact ⟨k, hp.mono hsub⟩
  · rw [mem_reachSet]
    obtain ⟨k, hp⟩ := hve
    exact ⟨k, hp.mono hsub⟩

theorem filteredEdges_sub {g : NGHolder} : ∀ e ∈ filteredEdges g, e ∈ g.edges :=
  fun e he => (List.mem_filter.mp he).1

theorem leaf_no_out {g : NGHolder} {src w : ℕ} (hl : isLeafNode g src = true)
    (he : (src, w) ∈ g.edges) : False := by
  unfold isLeafNode at hl
  rw [List.isEmpty_iff] at hl
  have : w ∈ g.succs src := by
    unfold NGHolder.succs
    rw [List.mem_map]
    exact ⟨(src, w), List.mem_filter.mpr ⟨he, by simp⟩, rfl⟩
  rw [hl] at this
  exact absurd this (List.not_mem_nil w)

theorem leaf_reachable_eq {g : NGHolder} {src v : ℕ}
    (hl : isLeafNode g src = true) (h : reachable g.edges src v) : v = src := by
  obtain ⟨k, hp⟩ := h
  cases k with
  | zero => exact (pathLen_zero_inv hp).symm
  | succ j =>
    obtain ⟨w, hw, -⟩ := pathLen_head_inv hp
    exact absurd hw (fun hc => leaf_no_out hl hc)

theorem hasReachableCycle_not_leaf {g : NGHolder} {src : ℕ}
    (h : hasReachableCycle g.edges src) : isLeafNode g src = false := by
  by_contra hc
  rw [Bool.not_eq_false] at hc
  obtain ⟨v, hv, e, he, he1, -⟩ := h
  rw [mem_reachSet] at hv
  have hvs : v = src := leaf_reachable_eq hc hv
  subst hvs
  subst he1
  obtain ⟨a, b⟩ := e
  exact leaf_no_out hc he

theorem head?_append_left {α : Type} (l1 l2 : List α) (h : l1 ≠ []) :
    (l1 ++ l2).head? = l1.head? := by
  cases l1 with
  | nil => exact absurd rfl h
  | cons a t => rfl

theorem pathLen_to_chain {es : List (ℕ × ℕ)} {u v k : ℕ}
    (hp : PathLen es u v k) :
    ∃ l : List ℕ, l.length = k + 1 ∧ l.head? = some u ∧ l.getLast? = some v ∧
      List.Chain' (fun x y => (x, y) ∈ es) l := by
  induction hp with
  | refl =>
    exact ⟨[_], rfl, rfl, rfl, List.chain'_singleton _⟩
  | @tail b w k hp' he ih =>
    obtain ⟨l, hlen, hhead, hlast, hchain⟩ := ih
    have hne : l ≠ [] := by
      intro hnil
      rw [hnil] at hlen
      exact absurd hlen (by simp)
    refine ⟨l ++ [w], by simp [hlen], ?_, List.getLast?_concat l, ?_⟩
    · rw [head?_append_left l [w] hne]
      exact hhead
    · rw [List.chain'_append]
      refine ⟨hchain, List.chain'_singleton w, ?_⟩
      intro x hx y hy
      rw [hlast] at hx
      simp only [List.head?_cons, Option.mem_def, Option.some_inj] at hx hy
      rw [← hx, ← hy]
      exact he

theorem chain_to_pathLen {es : List (ℕ × ℕ)} :
    ∀ {k : ℕ} {l : List ℕ} {u v : ℕ},
      List.Chain' (fun x y => (x, y) ∈ es) l → l.length = k + 1 →
      l.head? = some u → l.getLast? = some v → PathLen es u v k := by
  intro k
  induction k with
  | zero =>
    intro l u v hchain hlen hhead hlast
    cases l with
    | nil => exact absurd hlen (by simp)
    | cons a t =>
      cases t with
      | nil =>
        simp only [List.head?_cons, Option.some_inj] at hhead
        simp only [List.getLast?_singleton, Option.some_inj] at hlast
        rw [← hhead, ← hlast]
        exact PathLen.refl a
      | cons b t2 => exact absurd hlen (by simp)
  | succ j ih =>
    intro l u v hchain hlen hhead hlast
    have hne : l ≠ [] := by
      intro hnil
      rw [hnil] at hlen
      exact absurd hlen (by simp)
    have hdecomp := (List.dropLast_append_getLast hne).symm
    have hne2 : l.dropLast ≠ [] := by
      intro hnil
      have hz : l.dropLast.length = 0 := by rw [hnil]; rfl
      rw [List.length_dropLast, hlen] at hz
      omega
    have hlastv : l.getLast hne = v := by
      have := List.getLast?_eq_getLast l hne
      rw [hlast] at this
      exact (Option.some_inj.mp this).symm
    rw [hdecomp] at hchain
    rw [List.chain'_append] at hchain
    obtain ⟨hc1, -, hlink⟩ := hchain
    have hlen1 : l.dropLast.length = j + 1 := by
      rw [List.length_dropLast, hlen]
      omega
    have hhead1 : l.dropLast.head? = some u := by
      rw [hdecomp, head?_append_left _ _ hne2] at hhead
      exact hhead
    have hlast1 : l.dropLast.getLast? = some (l.dropLast.getLast hne2) :=
      List.getLast?_eq_getLast _ hne2
    have hp1 : PathLen es u (l.dropLast.getLast hne2) j :=
      ih hc1 hlen1 hhead1 hlast1
    refine hp1.tail ?_
    have := hlink (l.dropLast.getLast hne2) (by rw [hlast1]; rfl)
      (l.getLast hne) (by rfl)
    rw [hlastv] at this
    exact this

theorem nodup_zip_tail : ∀ {l : List ℕ}, l.Nodup → (l.zip l.tail).Nodup := by
  intro l
  induction l with
  | nil => intro _; simp
  | cons a t ih =>
    intro h
    cases t with
    | nil => simp
    | cons b t2 =>
      rw [List.nodup_cons] at h
      simp only [List.tail_cons, List.zip_cons_cons]
      rw [List.nodup_cons]
      refine ⟨?_, ih h.2⟩
      intro hmem
      have := List.of_mem_zip hmem
      exact h.1 this.1

theorem chain'_zip_mem {R : ℕ → ℕ → Prop} :
    ∀ {l : List ℕ}, List.Chain' R l → ∀ p ∈ l.zip l.tail, R p.1 p.2 := by
  intro l
  induction l with
  | nil => intro _ p hp; simp at hp
  | cons a t ih =>
    intro h p hp
    cases t with
    | nil => simp at hp
    | cons b t2 =>
      rw [List.chain'_cons] at h
      simp only [List.tail_cons, List.zip_cons_cons, List.mem_cons] at hp
      rcases hp with hp | hp
      · rw [hp]
        exact h.1
      · exact ih h.2 p hp

theorem not_nodup_decomp :
    ∀ {l : List ℕ}, ¬ l.Nodup →
      ∃ l1 x l2 l3, l = l1 ++ x :: l2 ++ x :: l3 := by
  intro l
  induction l with
  | nil => intro h; exact absurd List.nodup_nil h
  | cons a t ih =>
    intro h
    rw [List.nodup_cons] at h
    by_cases hat : a ∈ t
    · obtain ⟨s, u, hsu⟩ := List.append_of_mem hat
      exact ⟨[], a, s, u, by rw [hsu]; rfl⟩
    · have hnt : ¬ t.Nodup := fun hnd => h ⟨hat, hnd⟩
      obtain ⟨l1, x, l2, l3, hd⟩ := ih hnt
      exact ⟨a :: l1, x, l2, l3, by rw [hd]; rfl⟩

theorem no_cycle_path_bound {es : List (ℕ × ℕ)} {src : ℕ}
    (hnc : ¬ hasReachableCycle es src) :
    ∀ {v k : ℕ}, PathLen es src v k → k ≤ es.length := by
  intro v k hp
  obtain ⟨l, hlen, hhead, hlast, hchain⟩ := pathLen_to_chain hp
  by_cases hnd : l.Nodup
  · have hzlen : (l.zip l.tail).length = k := by
      rw [List.length_zip, List.length_tail, hlen]
      omega
    have hnd2 : (l.zip l.tail).Nodup := nodup_zip_tail hnd
    have hsub : ∀ p ∈ l.zip l.tail, p ∈ es := fun p hp2 =>
      chain'_zip_mem hchain p hp2
    have h1 : (l.zip l.tail).toFinset.card = k := by
      rw [List.toFinset_card_of_nodup hnd2, hzlen]
    have h2 : (l.zip l.tail).toFinset ⊆ es.toFinset := by
      intro p hp2
      rw [List.mem_toFinset] at hp2 ⊢
      exact hsub p hp2
    have h3 := Finset.card_le_card h2
    have h4 : es.toFinset.card ≤ es.length := es.toFinset_card_le
    omega
  · exfalso
    obtain ⟨l1, x, l2, l3, hd⟩ := not_nodup_decomp hnd
    apply hnc
    -- the prefix reaches x from src
    have hd1 : l = (l1 ++ [x]) ++ (l2 ++ x :: l3) := by
      rw [hd]
      simp
    have hneA : l1 ++ [x] ≠ [] := by simp
    have hchA : List.Chain' (fun a b => (a, b) ∈ es) (l1 ++ [x]) := by
      rw [hd1, List.chain'_append] at hchain
      exact hchain.1
    have hheadA : (l1 ++ [x]).head? = some src := by
      rw [hd1, head?_append_left _ _ hneA] at hhead
      exact hhead
    have hpA : PathLen es src x l1.length :=
      chain_to_pathLen hchA (by simp) hheadA (List.getLast?_concat l1)
    -- the middle segment is a closed walk on x of positive length
    have hd2 : l = l1 ++ ((x :: (l2 ++ [x])) ++ l3) := by
      rw [hd]
      simp
    have hchB : List.Chain' (fun a b => (a, b) ∈ es) (x :: (l2 ++ [x])) := by
      rw [hd2, List.chain'_append] at hchain
      rw [List.chain'_append] at hchain
      exact hchain.2.1.1
    have hlastB : (x :: (l2 ++ [x])).getLast? = some x := by
      rw [show x :: (l2 ++ [x]) = (x :: l2) ++ [x] by simp]
      exact List.getLast?_concat (x :: l2)
    have hpB : PathLen es x x (l2.length + 1) :=
      chain_to_pathLen hchB (by simp) rfl hlastB
    obtain ⟨w, hxw, hwx⟩ := pathLen_head_inv hpB
    exact ⟨x, (mem_reachSet es src x).mpr ⟨l1.length, hpA⟩, (x, w), hxw, rfl,
      (mem_reachSet es w x).mpr ⟨l2.length, hwx⟩⟩

/-- The distance recorded by `breadth_first_search` with uniform edge
weights: the least number of steps from `src` to `a` along the view `es`,
or the unreachable sentinel when no path exists. -/
def bfsDepth (es : List (ℕ × ℕ)) (src a : ℕ) : Depth :=
  match firstSat (fun k => decide (a ∈ reachN es src k)) (es.length + 2) with
  | some k => Depth.finite k
  | none => Depth.unreachable

/-- The distance recorded by `dag_shortest_paths` with constant edge weight
−1, sign-inverted: the greatest exact path length from `src` to `a` (the
explored region is acyclic whenever this runs), or the unreachable sentinel
when the vertex was left white. -/
def maxDepth (es : List (ℕ × ℕ)) (src a : ℕ) : Depth :=
  match lastSat (fun k => decide (a ∈ exactReach es src k)) (es.length + 2) with
  | some k => Depth.finite k
  | none => Depth.unreachable

/-- `findMinWidth(h, filter, src)`: unreachable for a leaf source; otherwise
the BFS shortest-path depth to the nearer of the two accepts, minus one for
the start transition. -/
def findMinWidth (g : NGHolder) (src : ℕ) : Depth :=
  if isLeafNode g src then Depth.unreachable
  else
    match Depth.dmin (bfsDepth (filteredEdges g) src NODE_ACCEPT)
        (bfsDepth (filteredEdges g) src NODE_ACCEPT_EOD) with
    | Depth.finite k => Depth.finite (k - 1)
    | d => d

/-- The source's explicit combination of the two accept depths: an
unreachable side defers to the other, otherwise the maximum is taken. -/
def combineMax : Depth → Depth → Depth
  | Depth.unreachable, x => x
  | x, Depth.unreachable => x
  | x, y => Depth.dmax x y

/-- `findMaxWidth(h, filter, src)`: unreachable for a leaf source; infinity
when a cycle is reachable from the source; otherwise the negated-weight DAG
shortest-path (longest-path) depth to the farther accept, minus one, with an
infinity fallback should the accepts be unreached while the min-width
analysis finds a path. -/
def findMaxWidth (g : NGHolder) (src : ℕ) : Depth :=
  if isLeafNode g src then Depth.unreachable
  else if hasReachableCycle g.edges src then Depth.infinity
  else
    match combineMax (maxDepth (filteredEdges g) src NODE_ACCEPT)
        (maxDepth (filteredEdges g) src NODE_ACCEPT_EOD) with
    | Depth.finite k => Depth.finite (k - 1)
    | Depth.unreachable =>
      if (findMinWidth g src).is_reachable then Depth.infinity
      else Depth.unreachable
    | Depth.infinity => Depth.infinity

/-- A path of length `k` from `src` to one of the two accepts. -/
def acceptPathLen (es : List (ℕ × ℕ)) (src k : ℕ) : Prop :=
  PathLen es src NODE_ACCEPT k ∨ PathLen es src NODE_ACCEPT_EOD k

theorem exists_least {P : ℕ → Prop} (h : ∃ k, P k) :
    ∃ d, P d ∧ ∀ j < d, ¬ P j := by
  obtain ⟨k, hk⟩ := h
  induction k using Nat.strong_induction_on with
  | _ k ih =>
    by_cases hx : ∃ j, j < k ∧ P j
    · obtain ⟨j, hj, hPj⟩ := hx
      exact ih j hj hPj
    · push_neg at hx
      exact ⟨k, hk, fun j hj => hx j hj⟩

theorem bfsDepth_of_least {es : List (ℕ × ℕ)} {src a d : ℕ}
    (hpath : PathLen es src a d) (hleast : ∀ j < d, ¬ PathLen es src a j) :
    bfsDepth es src a = Depth.finite d := by
  have hpd : a ∈ reachN es src d :=
    (mem_reachN_iff es src d a).mpr ⟨d, le_refl d, hpath⟩
  have hdlt : d < es.length + 2 := by
    have hmem : a ∈ reachSet es src := (mem_reachSet es src a).mpr ⟨d, hpath⟩
    obtain ⟨j, hj, hpj⟩ := (mem_reachN_iff es src (reachBound es) a).mp hmem
    have : d ≤ j := by
      by_contra hc
      exact hleast j (by omega) hpj
    unfold reachBound at hj
    omega
  unfold bfsDepth
  cases hfs : firstSat (fun k => decide (a ∈ reachN es src k)) (es.length + 2) with
  | none =>
    have h0 := firstSat_eq_none hfs d hdlt
    simp only [decide_eq_false_iff_not] at h0
    exact absurd hpd h0
  | some k =>
    obtain ⟨hk1, hk2, hk3⟩ := firstSat_eq_some hfs
    simp only [decide_eq_true_eq] at hk2
    obtain ⟨j, hjk, hpj⟩ := (mem_reachN_iff es src k a).mp hk2
    have hdj : d ≤ j := by
      by_contra hc
      exact hleast j (by omega) hpj
    have hkd : k ≤ d := by
      by_contra hc
      have h1 := hk3 d (by omega)
      simp only [decide_eq_false_iff_not] at h1
      exact h1 hpd
    have : k = d := by omega
    rw [this]

theorem bfsDepth_of_none {es : List (ℕ × ℕ)} {src a : ℕ}
    (h : ∀ j, ¬ PathLen es src a j) :
    bfsDepth es src a = Depth.unreachable := by
  unfold bfsDepth
  cases hfs : firstSat (fun k => decide (a ∈ reachN es src k)) (es.length + 2) with
  | none => rfl
  | some k =>
    obtain ⟨-, hk2, -⟩ := firstSat_eq_some hfs
    simp only [decide_eq_true_eq] at hk2
    obtain ⟨j, -, hpj⟩ := (mem_reachN_iff es src k a).mp hk2
    exact absurd hpj (h j)

theorem maxDepth_spec {es : List (ℕ × ℕ)} {src a : ℕ}
    (hbound : ∀ k, PathLen es src a k → k ≤ es.length) :
    (maxDepth es src a = Depth.unreachable ∧ ∀ k, ¬ PathLen es src a k) ∨
    (∃ D, maxDepth es src a = Depth.finite D ∧ PathLen es src a D ∧
      ∀ j, PathLen es src a j → j ≤ D) := by
  unfold maxDepth
  cases hls : lastSat (fun k => decide (a ∈ exactReach es src k)) (es.length + 2) with
  | none =>
    refine Or.inl ⟨rfl, fun k hk => ?_⟩
    have hkb := hbound k hk
    have h1 := lastSat_eq_none hls k (by omega)
    simp only [decide_eq_false_iff_not] at h1
    exact h1 (mem_exactReach.mpr hk)
  | some k =>
    obtain ⟨hk1, hk2, hk3⟩ := lastSat_eq_some hls
    simp only [decide_eq_true_eq] at hk2
    refine Or.inr ⟨k, rfl, mem_exactReach.mp hk2, fun j hj => ?_⟩
    have hjb := hbound j hj
    by_contra hc
    have h1 := hk3 j (by omega) (by omega)
    simp only [decide_eq_false_iff_not] at h1
    exact h1 (mem_exactReach.mpr hj)

theorem findMinWidth_of_least (g : NGHolder) (src : ℕ)
    (hleaf : isLeafNode g src = false) (d : ℕ)
    (hpath : acceptPathLen (filteredEdges g) src d)
    (hleast : ∀ j < d, ¬ acceptPathLen (filteredEdges g) src j) :
    findMinWidth g src = Depth.finite (d - 1) := by
  have hcond : ¬ (isLeafNode g src = true) := by
    rw [hleaf]
    exact Bool.false_ne_true
  unfold findMinWidth
  rw [if_neg hcond]
  by_cases hA : ∃ k, PathLen (filteredEdges g) src NODE_ACCEPT k
  · obtain ⟨dA, hpA, hlA⟩ := exists_least hA
    have hAeq : bfsDepth (filteredEdges g) src NODE_ACCEPT = Depth.finite dA :=
      bfsDepth_of_least hpA hlA
    have hdA : d ≤ dA := by
      by_contra hc
      exact hleast dA (by omega) (Or.inl hpA)
    by_cases hE : ∃ k, PathLen (filteredEdges g) src NODE_ACCEPT_EOD k
    · obtain ⟨dE, hpE, hlE⟩ := exists_least hE
      have hEeq : bfsDepth (filteredEdges g) src NODE_ACCEPT_EOD =
          Depth.finite dE := bfsDepth_of_least hpE hlE
      have hdE : d ≤ dE := by
        by_contra hc
        exact hleast dE (by omega) (Or.inr hpE)
      rw [hAeq, hEeq]
      have hmin : Nat.min dA dE = d := by
        have hm1 : Nat.min dA dE ≤ dA := Nat.min_le_left dA dE
        have hm2 : Nat.min dA dE ≤ dE := Nat.min_le_right dA dE
        have hm3 : d ≤ Nat.min dA dE := Nat.le_min.mpr ⟨hdA, hdE⟩
        rcases hpath with hp | hp
        · have : dA ≤ d := by
            by_contra hc
            exact hlA d (by omega) hp
          omega
        · have : dE ≤ d := by
            by_contra hc
            exact hlE d (by omega) hp
          omega
      show Depth.finite (Nat.min dA dE - 1) = Depth.finite (d - 1)
      rw [hmin]
    · have hEnone : ∀ k, ¬ PathLen (filteredEdges g) src NODE_ACCEPT_EOD k :=
        fun k hk => hE ⟨k, hk⟩
      have hEeq : bfsDepth (filteredEdges g) src NODE_ACCEPT_EOD =
          Depth.unreachable := bfsDepth_of_none hEnone
      rw [hAeq, hEeq]
      have hda : dA = d := by
        rcases hpath with hp | hp
        · have : dA ≤ d := by
            by_contra hc
            exact hlA d (by omega) hp
          omega
        · exact absurd hp (hEnone d)
      show Depth.finite (dA - 1) = Depth.finite (d - 1)
      rw [hda]
  · have hAnone : ∀ k, ¬ PathLen (filteredEdges g) src NODE_ACCEPT k :=
      fun k hk => hA ⟨k, hk⟩
    have hAeq : bfsDepth (filteredEdges g) src NODE_ACCEPT = Depth.unreachable :=
      bfsDepth_of_none hAnone
    by_cases hE : ∃ k, PathLen (filteredEdges g) src NODE_ACCEPT_EOD k
    · obtain ⟨dE, hpE, hlE⟩ := exists_least hE
      have hEeq : bfsDepth (filteredEdges g) src NODE_ACCEPT_EOD =
          Depth.finite dE := bfsDepth_of_least hpE hlE
      have hdE : d ≤ dE := by
        by_contra hc
        exact hleast dE (by omega) (Or.inr hpE)
      rw [hAeq, hEeq]
      have hde : dE = d := by
        rcases hpath with hp | hp
        · exact absurd hp (hAnone d)
        · have : dE ≤ d := by
            by_contra hc
            exact hlE d (by omega) hp
          omega
      show Depth.finite (dE - 1) = Depth.finite (d - 1)
      rw [hde]
    · rcases hpath with hp | hp
      · exact absurd hp (hAnone d)
      · exact absurd hp (fun hk => hE ⟨d, hk⟩)

theorem findMinWidth_of_none (g : NGHolder) (src : ℕ)
    (h : ∀ k, ¬ acceptPathLen (filteredEdges g) src k) :
    findMinWidth g src = Depth.unreachable := by
  unfold findMinWidth
  by_cases hleaf : isLeafNode g src = true
  · rw [if_pos hleaf]
  · rw [if_neg hleaf]
    have hAeq : bfsDepth (filteredEdges g) src NODE_ACCEPT = Depth.unreachable :=
      bfsDepth_of_none (fun k hk => h k (Or.inl hk))
    have hEeq : bfsDepth (filteredEdges g) src NODE_ACCEPT_EOD =
        Depth.unreachable := bfsDepth_of_none (fun k hk => h k (Or.inr hk))
    rw [hAeq, hEeq]
    rfl

theorem findMaxWidth_of_cycle (g : NGHolder) (src : ℕ)
    (hcyc : hasReachableCycle g.edges src) :
    findMaxWidth g src = Depth.infinity := by
  have hleaf := hasReachableCycle_not_leaf hcyc
  have hcond : ¬ (isLeafNode g src = true) := by
    rw [hleaf]
    exact Bool.false_ne_true
  unfold findMaxWidth
  rw [if_neg hcond, if_pos hcyc]

theorem findMaxWidth_of_greatest (g : NGHolder) (src : ℕ)
    (hleaf : isLeafNode g src = false)
    (hnc : ¬ hasReachableCycle g.edges src) (D : ℕ)
    (hpath : acceptPathLen (filteredEdges g) src D)
    (hmax : ∀ j, acceptPathLen (filteredEdges g) src j → j ≤ D) :
    findMaxWidth g src = Depth.finite (D - 1) := by
  have hcond : ¬ (isLeafNode g src = true) := by
    rw [hleaf]
    exact Bool.false_ne_true
  have hncf : ¬ hasReachableCycle (filteredEdges g) src :=
    fun h => hnc (hasReachableCycle_mono filteredEdges_sub h)
  have hbA : ∀ k, PathLen (filteredEdges g) src NODE_ACCEPT k →
      k ≤ (filteredEdges g).length := fun k hk => no_cycle_path_bound hncf hk
  have hbE : ∀ k, PathLen (filteredEdges g) src NODE_ACCEPT_EOD k →
      k ≤ (filteredEdges g).length := fun k hk => no_cycle_path_bound hncf hk
  unfold findMaxWidth
  rw [if_neg hcond, if_neg hnc]
  rcases maxDepth_spec hbA with ⟨hAeq, hAnone⟩ | ⟨DA, hAeq, hpA, hmA⟩ <;>
    rcases maxDepth_spec hbE with ⟨hEeq, hEnone⟩ | ⟨DE, hEeq, hpE, hmE⟩
  · rcases hpath with hp | hp
    · exact absurd hp (hAnone D)
    · exact absurd hp (hEnone D)
  · rw [hAeq, hEeq]
    have hde : DE = D := by
      rcases hpath with hp | hp
      · exact absurd hp (hAnone D)
      · have h1 : DE ≤ D := hmax DE (Or.inr hpE)
        have h2 : D ≤ DE := hmE D hp
        omega
    show Depth.finite (DE - 1) = Depth.finite (D - 1)
    rw [hde]
  · rw [hAeq, hEeq]
    have hda : DA = D := by
      rcases hpath with hp | hp
      · have h1 : DA ≤ D := hmax DA (Or.inl hpA)
        have h2 : D ≤ DA := hmA D hp
        omega
      · exact absurd hp (hEnone D)
    show Depth.finite (DA - 1) = Depth.finite (D - 1)
    rw [hda]
  · rw [hAeq, hEeq]
    have hmaxeq : Nat.max DA DE = D := by
      have h1 : DA ≤ D := hmax DA (Or.inl hpA)
      have h2 : DE ≤ D := hmax DE (Or.inr hpE)
      have hm1 : DA ≤ Nat.max DA DE := Nat.le_max_left DA DE
      have hm2 : DE ≤ Nat.max DA DE := Nat.le_max_right DA DE
      have hm3 : Nat.max DA DE ≤ D := Nat.max_le.mpr ⟨h1, h2⟩
      rcases hpath with hp | hp
      · have h3 : D ≤ DA := hmA D hp
        omega
      · have h3 : D ≤ DE := hmE D hp
        omega
    show Depth.finite (Nat.max DA DE - 1) = Depth.finite (D - 1)
    rw [hmaxeq]

theorem findMaxWidth_of_none (g : NGHolder) (src : ℕ)
    (hnc : ¬ hasReachableCycle g.edges src)
    (h : ∀ k, ¬ acceptPathLen (filteredEdges g) src k) :
    findMaxWidth g src = Depth.unreachable := by
  have hmin := findMinWidth_of_none g src h
  unfold findMaxWidth
  by_cases hleaf : isLeafNode g src = true
  · rw [if_pos hleaf]
  · rw [if_neg hleaf, if_neg hnc]
    have hncf : ¬ hasReachableCycle (filteredEdges g) src :=
      fun hc => hnc (hasReachableCycle_mono filteredEdges_sub hc)
    have hbA : ∀ k, PathLen (filteredEdges g) src NODE_ACCEPT k →
        k ≤ (filteredEdges g).length := fun k hk => no_cycle_path_bound hncf hk
    have hbE : ∀ k, PathLen (filteredEdges g) src NODE_ACCEPT_EOD k →
        k ≤ (filteredEdges g).length := fun k hk => no_cycle_path_bound hncf hk
    rcases maxDepth_spec hbA with ⟨hAeq, -⟩ | ⟨DA, -, hpA, -⟩
    · rcases maxDepth_spec hbE with ⟨hEeq, -⟩ | ⟨DE, -, hpE, -⟩
      · rw [hAeq, hEeq]
        show (if (findMinWidth g src).is_reachable = true then Depth.infinity
          else Depth.unreachable) = Depth.unreachable
        rw [hmin]
        rw [if_neg (by decide)]
      · exact absurd (Or.inr hpE) (h DE)
    · exact absurd (Or.inl hpA) (h DA)

/-- Claim C4: for every pattern graph and source vertex, the width analysis
returns: a minimum width equal to the BFS shortest-path distance (uniform
edge weight) from the source to the nearer accept over the special-edge
filtered view, minus one for the start transition; a maximum width of
infinity whenever a cycle is reachable from the source vertex; otherwise a
maximum width equal to the negated-weight DAG shortest-path (i.e. longest
path) distance to the farther accept minus one; and, when no path to either
accept exists, the unreachable sentinel — a value distinct from every finite
width, in particular from zero. -/
theorem findWidth_correct (g : NGHolder) (src : ℕ) :
    (isLeafNode g src = false →
      ∀ d, acceptPathLen (filteredEdges g) src d →
        (∀ j < d, ¬ acceptPathLen (filteredEdges g) src j) →
        findMinWidth g src = Depth.finite (d - 1)) ∧
    (hasReachableCycle g.edges src → findMaxWidth g src = Depth.infinity) ∧
    (isLeafNode g src = false → ¬ hasReachableCycle g.edges src →
      ∀ D, acceptPathLen (filteredEdges g) src D →
        (∀ j, acceptPathLen (filteredEdges g) src j → j ≤ D) →
        findMaxWidth g src = Depth.finite (D - 1)) ∧
    ((∀ k, ¬ acceptPathLen (filteredEdges g) src k) →
      findMinWidth g src = Depth.unreachable ∧
      (¬ hasReachableCycle g.edges src →
        findMaxWidth g src = Depth.unreachable)) ∧
    (∀ n : ℕ, Depth.unreachable ≠ Depth.finite n) :=
  ⟨fun hleaf d hpath hleast => findMinWidth_of_least g src hleaf d hpath hleast,
   fun hcyc => findMaxWidth_of_cycle g src hcyc,
   fun hleaf hnc D hpath hmax =>
     findMaxWidth_of_greatest g src hleaf hnc D hpath hmax,
   fun h => ⟨findMinWidth_of_none g src h,
     fun hnc => findMaxWidth_of_none g src hnc h⟩,
   fun n h => Depth.noConfusion h⟩

/-- A concrete acyclic graph (start → 4 → accept → acceptEod) for the C4
witness. -/
def w4G : NGHolder :=
  ⟨[0, 1, 2, 3, 4], [(0, 4), (4, 2), (2, 3)], [(4, 7)], [(4, [97])], []⟩

/-- The same graph with a self-loop on vertex 4: a cycle reachable from
start. -/
def w4GC : NGHolder :=
  ⟨[0, 1, 2, 3, 4], [(0, 4), (4, 4), (4, 2), (2, 3)], [(4, 7)], [(4, [97])], []⟩

/-- Witness for C4: width-analysis conclusions instantiated on concrete
graphs — shortest/longest accept distance 2 from start gives min and max
width 1; a reachable self-loop forces infinity; the leaf `startDs` yields
the unreachable sentinel. -/
theorem findWidth_correct_witness :
    findMinWidth w4G 0 = Depth.finite 1 ∧
    findMaxWidth w4G 0 = Depth.finite 1 ∧
    findMaxWidth w4GC 0 = Depth.infinity ∧
    findMinWidth w4G 1 = Depth.unreachable := by
  have hstep1 : ((0 : ℕ), (4 : ℕ)) ∈ filteredEdges w4G := by decide
  have hstep2 : ((4 : ℕ), NODE_ACCEPT) ∈ filteredEdges w4G := by decide
  have hpath2 : acceptPathLen (filteredEdges w4G) 0 2 :=
    Or.inl (((PathLen.refl 0).tail hstep1).tail hstep2)
  have hleast : ∀ j < 2, ¬ acceptPathLen (filteredEdges w4G) 0 j := by
    intro j hj h
    interval_cases j
    · rcases h with h | h
      · exact absurd (pathLen_zero_inv h) (by decide)
      · exact absurd (pathLen_zero_inv h) (by decide)
    · rcases h with h | h
      · obtain ⟨b, hb, he⟩ := pathLen_succ_inv h
        rw [← pathLen_zero_inv hb] at he
        exact absurd he (by decide)
      · obtain ⟨b, hb, he⟩ := pathLen_succ_inv h
        rw [← pathLen_zero_inv hb] at he
        exact absurd he (by decide)
  have hmax : ∀ j, acceptPathLen (filteredEdges w4G) 0 j → j ≤ 2 := by
    intro j hj
    have hb : j ≤ (filteredEdges w4G).length := by
      rcases hj with h | h
      · exact no_cycle_path_bound (by decide) h
      · exact no_cycle_path_bound (by decide) h
    exact le_trans hb (by decide)
  have hnone : ∀ k, ¬ acceptPathLen (filteredEdges w4G) 1 k := by
    intro k h
    cases k with
    | zero =>
      rcases h with h | h
      · exact absurd (pathLen_zero_inv h) (by decide)
      · exact absurd (pathLen_zero_inv h) (by decide)
    | succ j =>
      rcases h with h | h
      all_goals
        obtain ⟨w, hw, -⟩ := pathLen_head_inv h
        have h2 := filteredEdges_sub _ hw
        simp [w4G] at h2
  refine ⟨?_, ?_, ?_, ?_⟩
  · exact (findWidth_correct w4G 0).1 (by decide) 2 hpath2 hleast
  · exact (findWidth_correct w4G 0).2.2.1 (by decide) (by decide) 2 hpath2 hmax
  · exact (findWidth_correct w4GC 0).2.1 (by decide)
  · exact ((findWidth_correct w4G 1).2.2.2.1 hnone).1

end Hyperscan
